import Mathlib

/-!
# smoothxg: block smoothing and lacing (`src/smooth.cpp`, `src/main.cpp`)

A shallow embedding of the driver and the lacing code of `smooth_and_lace`, of
the block smoothers `smooth` and `smooth_abPOA` with `build_odgi`, and of the
option handling of `main`, followed by the properties proved about them.

Conventions of the embedding
* A nucleotide sequence (`std::string`) is a `List Char`.
* `handle_t` is a node id together with an orientation bit.
* `path_handle_t` is its integer value; path handles are 1-based and the
  value 0 is the reserved "no path" handle (`as_path_handle(0)`).
* `step_handle_t` is the pair of integers `as_integers(step)[0]` (the path)
  and `as_integers(step)[1]` (the rank of the step on the path).
* Calls whose C++ behaviour is undefined (walking off the end of a path,
  dereferencing a step that does not exist, indexing a vector out of range)
  make the embedded function return `none`.
* 64-bit unsigned subtraction is written with an explicit `% 2 ^ 64`.
-/

namespace smoothxg

/-! ## Sequences -/

/-- A nucleotide sequence, the `std::string` of the source. -/
abbrev Sequence := List Char

/-- Complement of one nucleotide, as `odgi::reverse_complement` computes it
for the letters A, C, G, T and N of either case; a byte that is no nucleotide
code gives `N`. The ambiguity codes of the library table are not modelled. -/
def complement (c : Char) : Char :=
  if c = 'A' then 'T' else
  if c = 'C' then 'G' else
  if c = 'G' then 'C' else
  if c = 'T' then 'A' else
  if c = 'a' then 't' else
  if c = 'c' then 'g' else
  if c = 'g' then 'c' else
  if c = 't' then 'a' else
  if c = 'n' then 'n' else 'N'

/-- The function `odgi::reverse_complement`. -/
def reverse_complement (s : Sequence) : Sequence :=
  (s.map complement).reverse

/-! ## Handles and steps -/

/-- A `handle_t`: node id and orientation. -/
structure handle_t where
  id : Nat
  is_reverse : Bool
  deriving DecidableEq, Repr

/-- A `step_handle_t`: `as_integers(step)[0]` and `as_integers(step)[1]`. -/
structure step_handle_t where
  path : Nat
  rank : Nat
  deriving DecidableEq, Repr

/-- An `edge_t`: a pair of handles. -/
abbrev edge_t := handle_t × handle_t

/-! ## The base graph (`xg::XG`), read-only -/

/-- One embedded path of the base graph, seen through the accessor calls of
the engine: its name and, for every step in order, the sequence
`get_sequence(get_handle_of_step(step))` of the oriented node it visits. -/
structure XGPath where
  name : String
  steps : List Sequence
  deriving DecidableEq, Repr

/-- The base graph as far as the engine reads it: its paths. The path with
handle `k + 1` is `paths[k]`. -/
structure XG where
  paths : List XGPath
  deriving DecidableEq, Repr

namespace XG

/-- Steps of the path with handle `p` (none for a handle that names no path). -/
def path_steps (graph : XG) (p : Nat) : List Sequence :=
  match p with
  | 0 => []
  | k + 1 => match graph.paths[k]? with
    | some q => q.steps
    | none => []

/-- Accessor `get_path_name`. -/
def get_path_name (graph : XG) (p : Nat) : String :=
  match p with
  | 0 => ""
  | k + 1 => match graph.paths[k]? with
    | some q => q.name
    | none => ""

/-- Accessor `get_step_count`. -/
def get_step_count (graph : XG) (p : Nat) : Nat :=
  (graph.path_steps p).length

/-- Accessor `path_begin`. -/
def path_begin (_graph : XG) (p : Nat) : step_handle_t :=
  { path := p, rank := 0 }

/-- Accessor `path_end`: the past-the-last step. -/
def path_end (graph : XG) (p : Nat) : step_handle_t :=
  { path := p, rank := graph.get_step_count p }

/-- Accessor `get_next_step`. -/
def get_next_step (_graph : XG) (step : step_handle_t) : step_handle_t :=
  { path := step.path, rank := step.rank + 1 }

/-- Accessor `get_path_handle_of_step`. -/
def get_path_handle_of_step (_graph : XG) (step : step_handle_t) : Nat :=
  step.path

/-- The composite `get_sequence(get_handle_of_step(step))`; `none` when the
step is not a step of its path. -/
def step_sequence (graph : XG) (step : step_handle_t) : Option Sequence :=
  (graph.path_steps step.path)[step.rank]?

/-- The full sequence of a path: the concatenation of its step sequences. -/
def path_sequence (graph : XG) (p : Nat) : Sequence :=
  (graph.path_steps p).flatten

/-- Accessor `get_position_of_step`: the nucleotide offset of a step along
its path. -/
def get_position_of_step (graph : XG) (step : step_handle_t) : Nat :=
  ((graph.path_steps step.path).take step.rank).flatten.length

/-- Accessor `get_path_length`. -/
def get_path_length (graph : XG) (p : Nat) : Nat :=
  (graph.path_sequence p).length

end XG

/-- The loop
`for (step = first; step != last; step = graph.get_next_step(step)) seq.append(...)`
that the source uses to extract a stretch of a base path. The fuel bounds the
number of iterations. -/
def collect_sequence_fuel (graph : XG) : Nat → step_handle_t → step_handle_t → Option Sequence
  | 0, _, _ => none
  | fuel + 1, step, last =>
    if step = last then some []
    else match graph.step_sequence step with
      | none => none
      | some s =>
        match collect_sequence_fuel graph fuel (graph.get_next_step step) last with
        | none => none
        | some rest => some (s ++ rest)

/-- The extraction loop with enough fuel: a walk from `first` either meets
`last` or leaves the path within `get_step_count + 1` iterations. -/
def collect_sequence (graph : XG) (first last : step_handle_t) : Option Sequence :=
  collect_sequence_fuel graph (graph.get_step_count first.path + 1) first last

/-! ## Mutable graphs (`odgi::graph_t`) -/

/-- A path of an `odgi::graph_t`. -/
structure path_t where
  name : String
  steps : List handle_t
  deriving DecidableEq, Repr

/-- An `odgi::graph_t`: nodes (id and forward sequence) in handle-iteration
order, edges in creation order, paths in creation order. The path with handle
`k + 1` is `paths[k]`. -/
structure graph_t where
  nodes : List (Nat × Sequence)
  edges : List edge_t
  paths : List path_t
  deriving DecidableEq, Repr

namespace graph_t

/-- A freshly constructed `odgi::graph_t`. -/
def empty : graph_t := { nodes := [], edges := [], paths := [] }

/-- Method `get_node_count`. -/
def get_node_count (g : graph_t) : Nat := g.nodes.length

/-- Method `get_handle(id, is_reverse)`. -/
def get_handle (_g : graph_t) (id : Nat) (is_reverse : Bool) : handle_t :=
  { id := id, is_reverse := is_reverse }

/-- Method `create_handle(sequence)`: the new node takes the next free id,
`get_node_count() + 1`. Returns the graph and the forward handle. -/
def create_handle (g : graph_t) (seq : Sequence) : graph_t × handle_t :=
  ({ g with nodes := g.nodes ++ [(g.nodes.length + 1, seq)] },
   { id := g.nodes.length + 1, is_reverse := false })

/-- Method `create_edge(left, right)`; an edge that exists is not added again. -/
def create_edge (g : graph_t) (left right : handle_t) : graph_t :=
  if (left, right) ∈ g.edges then g
  else { g with edges := g.edges ++ [(left, right)] }

/-- Method `create_path_handle(name)`: a new empty path; returns the graph
and the new path handle. -/
def create_path_handle (g : graph_t) (name : String) : graph_t × Nat :=
  ({ g with paths := g.paths ++ [{ name := name, steps := [] }] }, g.paths.length + 1)

/-- Appends a handle to the `k`-th path of a list of paths. -/
def append_to (paths : List path_t) (k : Nat) (h : handle_t) : List path_t :=
  match paths, k with
  | [], _ => []
  | q :: rest, 0 => { q with steps := q.steps ++ [h] } :: rest
  | q :: rest, k + 1 => q :: append_to rest k h

/-- Method `append_step(path, handle)`. -/
def append_step (g : graph_t) (p : Nat) (h : handle_t) : graph_t :=
  match p with
  | 0 => g
  | k + 1 => { g with paths := append_to g.paths k h }

/-- Steps of the path with handle `p`, the order of `for_each_step_in_path`;
`none` for a handle that names no path. -/
def path_steps (g : graph_t) (p : Nat) : Option (List handle_t) :=
  match p with
  | 0 => none
  | k + 1 => match g.paths[k]? with
    | some q => some q.steps
    | none => none

/-- Method `get_path_name`. -/
def get_path_name (g : graph_t) (p : Nat) : String :=
  match p with
  | 0 => ""
  | k + 1 => match g.paths[k]? with
    | some q => q.name
    | none => ""

/-- Method `get_step_count`. -/
def get_step_count (g : graph_t) (p : Nat) : Nat :=
  match g.path_steps p with
  | some l => l.length
  | none => 0

/-- Method `path_back`: the step of rank `get_step_count - 1`; on a path
without steps the 64-bit subtraction wraps to `2 ^ 64 - 1`. -/
def path_back (g : graph_t) (p : Nat) : step_handle_t :=
  if g.get_step_count p = 0 then { path := p, rank := 2 ^ 64 - 1 }
  else { path := p, rank := g.get_step_count p - 1 }

/-- Method `get_handle_of_step`; `none` when the step does not exist. -/
def get_handle_of_step (g : graph_t) (step : step_handle_t) : Option handle_t :=
  match g.path_steps step.path with
  | some l => l[step.rank]?
  | none => none

/-- Forward sequence of the node with the given id, if the node exists. -/
def node_sequence (g : graph_t) (id : Nat) : Option Sequence :=
  match g.nodes.find? (fun n => n.1 == id) with
  | some n => some n.2
  | none => none

/-- Method `get_sequence(handle)`: the node sequence, reverse-complemented for
a reverse handle. -/
def get_sequence (g : graph_t) (h : handle_t) : Option Sequence :=
  match g.node_sequence h.id with
  | some s => some (if h.is_reverse then reverse_complement s else s)
  | none => none

/-- Method `get_length(handle)`. -/
def get_length (g : graph_t) (h : handle_t) : Nat :=
  match g.get_sequence h with
  | some s => s.length
  | none => 0

/-- Sequence spelled by a list of handles: the concatenation the verifier
builds with `smoothed_seq.append(get_sequence(get_handle_of_step(step)))`. -/
def spell (g : graph_t) : List handle_t → Option Sequence
  | [] => some []
  | h :: rest =>
    match g.get_sequence h, spell g rest with
    | some s, some t => some (s ++ t)
    | _, _ => none

/-- Sequence spelled by the path with handle `p`. -/
def path_sequence (g : graph_t) (p : Nat) : Option Sequence :=
  match g.path_steps p with
  | some l => g.spell l
  | none => none

end graph_t

/-- Nodes with consecutive ids from `start` on, holding the given sequences. -/
def renumber (start : Nat) (seqs : List Sequence) : List (Nat × Sequence) :=
  (List.range' start seqs.length).zip seqs

/-- The forward sequences of the nodes of a graph, in handle-iteration order. -/
def graph_t.sequences (g : graph_t) : List Sequence := g.nodes.map Prod.snd

/-- Node ids are `1..n` in handle-iteration order, as `create_handle(sequence)`
and `apply_ordering(order, true)` leave them. -/
def compact_ids (g : graph_t) : Prop :=
  g.nodes = renumber 1 g.sequences

instance (g : graph_t) : Decidable (compact_ids g) := by
  unfold compact_ids; infer_instance

/-! ## Records and the lacing phase of `smooth_and_lace` -/

/-- The record `path_position_range_t`. -/
structure path_position_range_t where
  base_path : Nat
  start_pos : Nat
  end_pos : Nat
  start_step : step_handle_t
  end_step : step_handle_t
  target_path : Nat
  target_graph_id : Nat
  deriving DecidableEq, Repr

/-- The comparator handed to `ips4o::parallel::sort` for both record lists. -/
def range_less (a b : path_position_range_t) : Bool :=
  decide (a.base_path < b.base_path)
    || (decide (a.base_path = b.base_path) && decide (a.start_pos < b.start_pos))

/-! ### Pass A: merging the block subgraphs (lines 438-466) -/

/-- The body of `block.for_each_handle`: one `create_handle` per block node. -/
def add_block_nodes (smoothed : graph_t) (block : graph_t) : graph_t :=
  block.nodes.foldl (fun sm n => (sm.create_handle n.2).1) smoothed

/-- The body of `block.for_each_edge`: one `create_edge` per block edge,
between `get_handle(id_trans + id)` of its two ends (forward handles). -/
def add_block_edges (smoothed : graph_t) (id_trans : Nat) (block : graph_t) : graph_t :=
  block.edges.foldl
    (fun sm e => sm.create_edge (sm.get_handle (id_trans + e.1.id) false)
                                (sm.get_handle (id_trans + e.2.id) false))
    smoothed

/-- One iteration of the loop over `block_graphs`: the state is the assembled
graph and `id_mapping`. -/
def merge_block (st : graph_t × List Nat) (block : graph_t) : graph_t × List Nat :=
  let id_trans := st.1.get_node_count
  let id_mapping := st.2 ++ [id_trans]
  if block.get_node_count = 0 then (st.1, id_mapping)
  else (add_block_edges (add_block_nodes st.1 block) id_trans block, id_mapping)

/-- Pass A continued from a given state. -/
def merge_blocks (st : graph_t × List Nat) (block_graphs : List graph_t) :
    graph_t × List Nat :=
  block_graphs.foldl merge_block st

/-- Pass A: from the empty assembled graph and the empty `id_mapping`. -/
def pass_A (block_graphs : List graph_t) : graph_t × List Nat :=
  merge_blocks (graph_t.empty, []) block_graphs

/-- Sum of the node counts of a list of block subgraphs. -/
def total_node_count (block_graphs : List graph_t) : Nat :=
  (block_graphs.map graph_t.get_node_count).sum

/-- All node sequences of a list of block subgraphs, block after block. -/
def all_sequences (block_graphs : List graph_t) : List Sequence :=
  (block_graphs.map graph_t.sequences).flatten

/-- Running node counts: the count before each block, starting from `n`. -/
def block_offsets (n : Nat) : List graph_t → List Nat
  | [] => []
  | block :: rest => n :: block_offsets (n + block.get_node_count) rest

/-! ### Pass B: embedding the base paths (lines 470-554) -/

/-- The test `pos_range->start_pos - last_end_pos > 0` on `uint64_t`. -/
def gap_detected (start_pos last_end_pos : Nat) : Bool :=
  decide ((start_pos + 2 ^ 64 - last_end_pos) % 2 ^ 64 > 0)

/-- Loop variables of the `while (true)` loop of Pass B. -/
structure lace_state where
  smoothed : graph_t
  smoothed_path : Nat
  last_step : step_handle_t
  last_pos_range : Option path_position_range_t
  last_end_pos : Nat
  deriving DecidableEq, Repr

/-- The guarded `create_edge(get_handle_of_step(last_step), h)`: nothing when
`as_integers(last_step)[0]` is zero. -/
def link_from_last (sm : graph_t) (last_step : step_handle_t) (h : handle_t) :
    Option graph_t :=
  if last_step.path ≠ 0 then
    match sm.get_handle_of_step last_step with
    | some l => some (sm.create_edge l h)
    | none => none
  else some sm

/-- The gap branch (lines 486-508): collect the uncovered sequence, create a
node for it, append it to the path and link it to the previous step. -/
def fill_gap (graph : XG) (pos_range : path_position_range_t) (st : lace_state) :
    Option lace_state :=
  let last := match st.last_pos_range with
    | some l => l.end_step
    | none => graph.path_begin pos_range.base_path
  match collect_sequence graph last pos_range.start_step with
  | none => none
  | some seq =>
    let sm1 := (st.smoothed.create_handle seq).1
    let h := (st.smoothed.create_handle seq).2
    let sm2 := sm1.append_step st.smoothed_path h
    match link_from_last sm2 st.last_step h with
    | none => none
    | some sm3 => some { st with smoothed := sm3, last_step := sm3.path_back st.smoothed_path }

/-- The callback of `block.for_each_step_in_path` (lines 516-529), run over the
steps of the target path; `first` is the flag of the source. -/
def embed_fragment (id_trans : Nat) (smoothed_path : Nat) (last_step : step_handle_t) :
    List handle_t → Bool → graph_t → Option graph_t
  | [], _, sm => some sm
  | h :: rest, first, sm =>
    let t := sm.get_handle (h.id + id_trans) h.is_reverse
    let sm1 := sm.append_step smoothed_path t
    if first then
      match link_from_last sm1 last_step t with
      | none => none
      | some sm2 => embed_fragment id_trans smoothed_path last_step rest false sm2
    else embed_fragment id_trans smoothed_path last_step rest false sm1

/-- One iteration of the `while (true)` loop up to the update of
`last_end_pos` (lines 485-532). -/
def lace_range (graph : XG) (block_graphs : List graph_t) (id_mapping : List Nat)
    (pos_range : path_position_range_t) (st : lace_state) : Option lace_state :=
  let filled := if gap_detected pos_range.start_pos st.last_end_pos
    then fill_gap graph pos_range st else some st
  match filled with
  | none => none
  | some st1 =>
    match block_graphs[pos_range.target_graph_id]?, id_mapping[pos_range.target_graph_id]? with
    | some block, some id_trans =>
      match block.path_steps pos_range.target_path with
      | none => none
      | some steps =>
        match embed_fragment id_trans st1.smoothed_path st1.last_step steps true st1.smoothed with
        | none => none
        | some sm =>
          some { smoothed := sm
                 smoothed_path := st1.smoothed_path
                 last_step := sm.path_back st1.smoothed_path
                 last_pos_range := some pos_range
                 last_end_pos := pos_range.end_pos }
    | _, _ => none

/-- The code after the `while (true)` loop (lines 543-553): the trailing
sequence of the path. -/
def lace_trailing (graph : XG) (pos_range : path_position_range_t) (st : lace_state) :
    Option graph_t :=
  if graph.get_path_length pos_range.base_path > st.last_end_pos then
    match collect_sequence graph pos_range.end_step (graph.path_end pos_range.base_path) with
    | none => none
    | some seq =>
      let sm1 := (st.smoothed.create_handle seq).1
      let h := (st.smoothed.create_handle seq).2
      match sm1.get_handle_of_step st.last_step with
      | none => none
      | some l => some ((sm1.create_edge l h).append_step st.smoothed_path h)
  else some st.smoothed

/-- The state at the top of one iteration of the outer `for` loop (lines
474-479): a new path named after the base path, no previous step. -/
def start_path (graph : XG) (pos_range : path_position_range_t) (smoothed : graph_t) :
    lace_state :=
  { smoothed := (smoothed.create_path_handle (graph.get_path_name pos_range.base_path)).1
    smoothed_path := (smoothed.create_path_handle (graph.get_path_name pos_range.base_path)).2
    last_step := { path := 0, rank := 0 }
    last_pos_range := none
    last_end_pos := 0 }

/-- The exit test of the `while (true)` loop (lines 533-534):
`i+1 == path_mapping.size() || path_mapping[i+1].base_path != pos_range->base_path`,
where `rest` holds the records after `pos_range`. -/
def last_of_path (pos_range : path_position_range_t) (rest : List path_position_range_t) :
    Bool :=
  match rest with
  | [] => true
  | next :: _ => decide (next.base_path ≠ pos_range.base_path)

/-- The outer `for` loop of Pass B over the sorted `path_mapping`, with its
inner `while (true)` loop unrolled into the same recursion: `cur` is the state
of the inner loop when the record continues the path of the previous record,
and `none` at the top of an outer iteration. -/
def embed_paths (graph : XG) (block_graphs : List graph_t) (id_mapping : List Nat) :
    List path_position_range_t → Option lace_state → graph_t → Option graph_t
  | [], _, smoothed => some smoothed
  | pos_range :: rest, cur, smoothed =>
    match lace_range graph block_graphs id_mapping pos_range
        (match cur with
          | some st => st
          | none => start_path graph pos_range smoothed) with
    | none => none
    | some st1 =>
      if last_of_path pos_range rest then
        match lace_trailing graph pos_range st1 with
        | none => none
        | some sm => embed_paths graph block_graphs id_mapping rest none sm
      else embed_paths graph block_graphs id_mapping rest (some st1) st1.smoothed

/-- Pass B on the sorted records, starting from the graph built by Pass A. -/
def pass_B (graph : XG) (block_graphs : List graph_t) (id_mapping : List Nat)
    (path_mapping : List path_position_range_t) (smoothed : graph_t) : Option graph_t :=
  embed_paths graph block_graphs id_mapping path_mapping none smoothed

/-! ## Consensus embedding, verification and the sort (lines 423-434, 556-619) -/

/-- The consensus loop body (lines 602-615): a new path named after the target
path of the block, filled with the translated steps of that path. -/
def embed_consensus_record (block_graphs : List graph_t) (id_mapping : List Nat)
    (pos_range : path_position_range_t) (smoothed : graph_t) : Option graph_t :=
  match block_graphs[pos_range.target_graph_id]?, id_mapping[pos_range.target_graph_id]? with
  | some block, some id_trans =>
    match block.path_steps pos_range.target_path with
    | none => none
    | some steps =>
      let created := smoothed.create_path_handle (block.get_path_name pos_range.target_path)
      some (steps.foldl
        (fun sm h => sm.append_step created.2
          (sm.get_handle (h.id + id_trans) h.is_reverse)) created.1)
  | _, _ => none

/-- The loop `for (auto& pos_range : consensus_mapping)` (lines 601-616). -/
def embed_consensus (block_graphs : List graph_t) (id_mapping : List Nat) :
    List path_position_range_t → graph_t → Option graph_t
  | [], smoothed => some smoothed
  | pos_range :: rest, smoothed =>
    match embed_consensus_record block_graphs id_mapping pos_range smoothed with
    | none => none
    | some sm => embed_consensus block_graphs id_mapping rest sm

/-- Accessor `get_path_handle(name)` of the base graph: the handle of the first
path with that name, 0 when there is none. -/
def XG.get_path_handle (graph : XG) (name : String) : Nat :=
  match graph.paths.findIdx? (fun q => q.name == name) with
  | some k => k + 1
  | none => 0

/-- The comparison of the verifier for one assembled path (lines 561-573):
`orig_seq` is spelled by the base path of the same name, `smoothed_seq` by the
assembled path; true when `orig_seq == smoothed_seq`. -/
def verify_path (graph : XG) (smoothed : graph_t) (q : path_t) : Bool :=
  decide (smoothed.spell q.steps
    = some (graph.path_sequence (graph.get_path_handle q.name)))

/-- The verifier (lines 559-580) over all paths of the assembled graph: false
stands for the `exit(1)` taken at the first mismatch. -/
def verify (graph : XG) (smoothed : graph_t) : Bool :=
  smoothed.paths.all (verify_path graph smoothed)

/-- Insertion of a record into a sorted list, before the first element that is
not less than it. -/
def insert_record (a : path_position_range_t) :
    List path_position_range_t → List path_position_range_t
  | [] => [a]
  | b :: l => if range_less b a then b :: insert_record a l else a :: b :: l

/-- The call `ips4o::parallel::sort(begin, end, range_less)`. The library is
not part of the sources; it is modelled by insertion sort, which is what the
library runs on short inputs. Records with equal keys keep their input order. -/
def sort_records : List path_position_range_t → List path_position_range_t
  | [] => []
  | a :: l => insert_record a (sort_records l)

/-- How a run of the lacing phase ends: with the assembled graph, with
`exit(status)`, or in undefined behaviour. -/
inductive outcome where
  | returned (smoothed : graph_t)
  | exited (status : Nat)
  | undefined
  deriving DecidableEq, Repr

/-- The lacing phase of `smooth_and_lace` (lines 423-619): sort, Pass A,
Pass B, verification, sort and embedding of the consensus records. -/
def lace (graph : XG) (block_graphs : List graph_t)
    (path_mapping consensus_mapping : List path_position_range_t) : outcome :=
  let sorted := sort_records path_mapping
  let merged := pass_A block_graphs
  match pass_B graph block_graphs merged.2 sorted merged.1 with
  | none => outcome.undefined
  | some smoothed =>
    if verify graph smoothed then
      match embed_consensus block_graphs merged.2 (sort_records consensus_mapping) smoothed with
      | none => outcome.undefined
      | some final => outcome.returned final
    else outcome.exited 1

/-! ## The alignment graph (`spoa::Graph`) and `build_odgi` (lines 675-728) -/

/-- An edge of the alignment graph: its end node and the labels of the
sequences that use it. -/
structure poa_edge where
  end_node_id : Nat
  sequence_labels : List Nat
  deriving DecidableEq, Repr

/-- A node of the alignment graph: the decoded symbol
`graph->decoder(node->code())` and the out-edges. -/
structure poa_node where
  symbol : Char
  out_edges : List poa_edge
  deriving DecidableEq, Repr

/-- The alignment graph as `build_odgi` reads it. -/
structure poa_graph where
  nodes : List poa_node
  sequences_begin_nodes_ids : List Nat
  consensus : List Nat
  deriving DecidableEq, Repr

/-- Method `Node::successor(dst, label)` of the alignment library: the end of
the first out-edge that carries the label, if any. -/
def poa_node.successor (n : poa_node) (label : Nat) : Option Nat :=
  match n.out_edges.find? (fun e => e.sequence_labels.contains label) with
  | some e => some e.end_node_id
  | none => none

/-- The loop `while (true) { steps.push_back(...); if (!successor(node_id, i)) break; }`
of `build_odgi`: the node ids visited from `node_id` on. `none` when a node id
is out of range or the fuel is used up. -/
def sequence_walk (graph : poa_graph) (label : Nat) : Nat → Nat → Option (List Nat)
  | 0, _ => none
  | fuel + 1, node_id =>
    match graph.nodes[node_id]? with
    | none => none
    | some n =>
      match n.successor label with
      | none => some [node_id]
      | some next =>
        match sequence_walk graph label fuel next with
        | none => none
        | some rest => some (node_id :: rest)

/-- Method `create_handle(sequence, id)` of `odgi::graph_t`. -/
def graph_t.create_handle_with_id (g : graph_t) (seq : Sequence) (id : Nat) : graph_t :=
  { g with nodes := g.nodes ++ [(id, seq)] }

/-- Method `flip(handle)`. -/
def flip (h : handle_t) : handle_t :=
  { id := h.id, is_reverse := !h.is_reverse }

/-- The first loop of `build_odgi` (lines 690-693): node `i` becomes the node
with id `i + 1` holding its decoded symbol. -/
def build_nodes (graph : poa_graph) (output : graph_t) : graph_t :=
  graph.nodes.enum.foldl
    (fun out p => out.create_handle_with_id [p.2.symbol] (p.1 + 1)) output

/-- The second loop of `build_odgi` (lines 695-699). -/
def build_edges (graph : poa_graph) (output : graph_t) : graph_t :=
  graph.nodes.enum.foldl
    (fun out p => p.2.out_edges.foldl
      (fun o e => o.create_edge (o.get_handle (p.1 + 1) false)
        (o.get_handle (e.end_node_id + 1) false)) out)
    output

/-- Appends the handles to the path `p`, in order. -/
def append_steps (output : graph_t) (p : Nat) (handles : List handle_t) : graph_t :=
  handles.foldl (fun o h => o.append_step p h) output

/-- One iteration of the third loop of `build_odgi` (lines 702-719), for the
sequence number `i` named `name`. -/
def build_sequence_path (graph : poa_graph) (aln_is_reverse : List Bool)
    (output : graph_t) (i : Nat) (name : String) : Option graph_t :=
  let created := output.create_path_handle name
  match graph.sequences_begin_nodes_ids[i]? with
  | none => none
  | some node_id =>
    match sequence_walk graph i graph.nodes.length node_id with
    | none => none
    | some ids =>
      let steps := ids.map (fun id => created.1.get_handle (id + 1) false)
      match aln_is_reverse[i]? with
      | none => none
      | some true => some (append_steps created.1 created.2 (steps.reverse.map flip))
      | some false => some (append_steps created.1 created.2 steps)

/-- The third loop of `build_odgi` over the numbered sequence names. -/
def build_sequence_paths (graph : poa_graph) (aln_is_reverse : List Bool) :
    List (Nat × String) → graph_t → Option graph_t
  | [], output => some output
  | (i, name) :: rest, output =>
    match build_sequence_path graph aln_is_reverse output i name with
    | none => none
    | some out => build_sequence_paths graph aln_is_reverse rest out

/-- The consensus part of `build_odgi` (lines 722-727). -/
def build_consensus_path (graph : poa_graph) (output : graph_t) (consensus_name : String)
    (include_consensus : Bool) : graph_t :=
  if include_consensus then
    let created := output.create_path_handle consensus_name
    append_steps created.1 created.2
      (graph.consensus.map (fun id => created.1.get_handle (id + 1) false))
  else output

/-- The function `build_odgi`. The vector `in_consensus` it fills first is not
read afterwards and is left out. -/
def build_odgi (graph : poa_graph) (output : graph_t) (sequence_names : List String)
    (aln_is_reverse : List Bool) (consensus_name : String) (include_consensus : Bool) :
    Option graph_t :=
  match build_sequence_paths graph aln_is_reverse sequence_names.enum
      (build_edges graph (build_nodes graph output)) with
  | none => none
  | some out => some (build_consensus_path graph out consensus_name include_consensus)

/-! ## The block smoother `smooth` (lines 176-276) -/

/-- A `path_range_t`: the steps `begin` and `end` of a Base Path Range. -/
structure path_range_t where
  begin : step_handle_t
  end_ : step_handle_t
  deriving DecidableEq, Repr

/-- A `block_t`: its path ranges. -/
structure block_t where
  path_ranges : List path_range_t
  deriving DecidableEq, Repr

/-- A `spoa::Alignment`: pairs of node id and sequence position. -/
abbrev alignment_t := List (Int × Int)

/-- The calls into the alignment and graph libraries that `smooth` makes:
`align` returns the alignment and its score, `add_alignment` returns the
extended graph or `none` when it throws `std::invalid_argument`,
`generate_consensus` returns the graph with its consensus set and the consensus
sequence; `unchop` and `apply_ordering` stand for `odgi::algorithms::unchop`
and `apply_ordering(topological_order(..), true)`. -/
structure poa_library where
  createGraph : poa_graph
  align : Sequence → poa_graph → alignment_t × Int
  add_alignment : poa_graph → alignment_t → Sequence → Option poa_graph
  generate_consensus : poa_graph → poa_graph × Sequence
  unchop : graph_t → graph_t
  apply_ordering : graph_t → graph_t

/-- A request made to the alignment library, with the sequence it carries. -/
inductive engine_call where
  | align (seq : Sequence)
  | add_alignment (seq : Sequence)
  | generate_consensus
  deriving DecidableEq, Repr

/-- State of the alignment loop of `smooth`: the alignment graph, the vector
`aln_is_reverse`, the requests made so far, and whether `assert(false)` was
reached. -/
structure align_state where
  poa : poa_graph
  aln_is_reverse : List Bool
  calls : List engine_call
  aborted : Bool

/-- The loop `for (auto& seq : seqs)` of `smooth` (lines 230-254). When
`add_alignment` throws, the handler ends in `assert(false)`: the run stops
there. -/
def align_sequences (lib : poa_library) : List Sequence → align_state → align_state
  | [], st => st
  | seq :: rest, st =>
    let fwd := lib.align seq st.poa
    let rev_seq := reverse_complement seq
    let rev := lib.align rev_seq st.poa
    let calls := st.calls ++ [engine_call.align seq, engine_call.align rev_seq]
    if fwd.2 ≥ rev.2 then
      match lib.add_alignment st.poa fwd.1 seq with
      | some g =>
        align_sequences lib rest
          { poa := g, aln_is_reverse := st.aln_is_reverse ++ [false]
            calls := calls ++ [engine_call.add_alignment seq], aborted := false }
      | none =>
        { poa := st.poa, aln_is_reverse := st.aln_is_reverse
          calls := calls ++ [engine_call.add_alignment seq], aborted := true }
    else
      match lib.add_alignment st.poa rev.1 rev_seq with
      | some g =>
        align_sequences lib rest
          { poa := g, aln_is_reverse := st.aln_is_reverse ++ [true]
            calls := calls ++ [engine_call.add_alignment rev_seq], aborted := false }
      | none =>
        { poa := st.poa, aln_is_reverse := st.aln_is_reverse
          calls := calls ++ [engine_call.add_alignment rev_seq], aborted := true }

/-- The sequences of the ranges of a block (lines 192-199), in range order;
`none` when an extraction loop leaves its path. -/
def collect_block_sequences (graph : XG) : List path_range_t → Option (List Sequence)
  | [] => some []
  | pr :: rest =>
    match collect_sequence graph pr.begin pr.end_, collect_block_sequences graph rest with
    | some seq, some seqs => some (seq :: seqs)
    | _, _ => none

/-- The name given to the sequence of a range (lines 200-203). -/
def range_name (graph : XG) (pr : path_range_t) : String :=
  graph.get_path_name (graph.get_path_handle_of_step pr.begin)
    ++ "_" ++ toString (graph.get_position_of_step pr.begin)

/-- The value `max_sequence_size` (lines 217-220). -/
def max_sequence_size (seqs : List Sequence) : Nat :=
  seqs.foldl (fun m seq => max m seq.length) 0

/-- What a call of `smooth` leaves: the block subgraph it returns (`none` when
the run stops in `assert(false)` or in undefined behaviour) and the requests it
made to the alignment library, in order. -/
structure smooth_run where
  output : Option graph_t
  calls : List engine_call

/-- The function `smooth`. The scoring parameters and the block id are passed
through to the library and not read by the body. -/
def smooth (lib : poa_library) (graph : XG) (block : block_t) (consensus_name : String) :
    smooth_run :=
  match collect_block_sequences graph block.path_ranges with
  | none => { output := none, calls := [] }
  | some seqs =>
    let names := block.path_ranges.map (range_name graph)
    if max_sequence_size seqs = 0 then { output := some graph_t.empty, calls := [] }
    else
      let st := align_sequences lib seqs
        { poa := lib.createGraph, aln_is_reverse := [], calls := [], aborted := false }
      if st.aborted then { output := none, calls := st.calls }
      else
        let consensus := lib.generate_consensus st.poa
        let aln_is_reverse := st.aln_is_reverse ++ [false]
        let calls := st.calls ++ [engine_call.generate_consensus]
        match build_odgi consensus.1 graph_t.empty names aln_is_reverse consensus_name
            (!consensus_name.isEmpty) with
        | none => { output := none, calls := calls }
        | some out => { output := some (lib.apply_ordering (lib.unchop out)), calls := calls }

/-- The commit chosen for a sequence against the alignment graph `g` (lines
236-249): the alignment and the sequence handed to `add_alignment`, and the
flag pushed to `aln_is_reverse`. -/
def chosen_commit (lib : poa_library) (seq : Sequence) (g : poa_graph) :
    alignment_t × Sequence × Bool :=
  if (lib.align seq g).2 ≥ (lib.align (reverse_complement seq) g).2
  then ((lib.align seq g).1, seq, false)
  else ((lib.align (reverse_complement seq) g).1, reverse_complement seq, true)

/-- The end of `smooth_abPOA` (lines 163-173): both branches return the
freshly constructed `output_graph`. -/
def smooth_abPOA_output (seqs_ : List Sequence) : graph_t :=
  let output_graph := graph_t.empty
  if max_sequence_size seqs_ = 0 then output_graph else output_graph

/-- The state in which `smooth` enters its alignment loop. -/
def initial_align_state (lib : poa_library) : align_state :=
  { poa := lib.createGraph, aln_is_reverse := [], calls := [], aborted := false }

/-- A small stand-in for the alignment library, for evaluating `smooth` on
examples: the score of a sequence is its number of `A`, `add_alignment` rejects
a sequence that contains `N` and otherwise appends one node per symbol, and
the graph algorithms are the identity. -/
def example_library : poa_library :=
  { createGraph := { nodes := [], sequences_begin_nodes_ids := [], consensus := [] }
    align := fun seq _ => ([], (seq.count 'A' : Int))
    add_alignment := fun g _ seq =>
      if seq.contains 'N' then none
      else some { g with nodes := g.nodes ++ seq.map (fun c => { symbol := c, out_edges := [] }) }
    generate_consensus := fun g => (g, [])
    unchop := fun g => g
    apply_ordering := fun g => g }

/-! ## Record emission by the worker (lines 366-415) -/

/-- Accessor `get_previous_step` of the base graph; at rank 0 the 64-bit
subtraction wraps. -/
def XG.get_previous_step (_graph : XG) (step : step_handle_t) : step_handle_t :=
  { path := step.path, rank := (step.rank + (2 ^ 64 - 1)) % 2 ^ 64 }

/-- The composite `get_length(get_handle_of_step(step))` on the base graph. -/
def XG.step_length (graph : XG) (step : step_handle_t) : Nat :=
  match graph.step_sequence step with
  | some s => s.length
  | none => 0

/-- The record pushed for the range number `k` of a block (lines 372-386);
`++path_id` makes the target path `k + 1`. -/
def range_record (graph : XG) (block_id : Nat) (k : Nat) (pr : path_range_t) :
    path_position_range_t :=
  { base_path := graph.get_path_handle_of_step pr.begin
    start_pos := graph.get_position_of_step pr.begin
    end_pos := graph.get_position_of_step (graph.get_previous_step pr.end_)
      + graph.step_length (graph.get_previous_step pr.end_)
    start_step := pr.begin
    end_step := pr.end_
    target_path := k + 1
    target_graph_id := block_id }

/-- The loop over `block.path_ranges` (lines 370-387). -/
def emit_path_records (graph : XG) (block : block_t) (block_id : Nat) :
    List path_position_range_t :=
  block.path_ranges.enum.map (fun p => range_record graph block_id p.1 p.2)

/-- Method `get_path_handle(name)` of `odgi::graph_t`; `none` when no path has
the name. -/
def graph_t.get_path_handle (g : graph_t) (name : String) : Option Nat :=
  match g.paths.findIdx? (fun q => q.name == name) with
  | some k => some (k + 1)
  | none => none

/-- The record pushed for the consensus path (lines 392-413); `path_end` adds
up the lengths of the nodes on the path. -/
def emit_consensus_record (block_graph : graph_t) (consensus_name : String)
    (block_id : Nat) : Option path_position_range_t :=
  match block_graph.get_path_handle consensus_name with
  | none => none
  | some consensus_handle =>
    match block_graph.path_steps consensus_handle with
    | none => none
    | some steps =>
      some { base_path := 0
             start_pos := 0
             end_pos := steps.foldl (fun path_end h => path_end + block_graph.get_length h) 0
             start_step := { path := 0, rank := 0 }
             end_step := { path := 0, rank := 0 }
             target_path := consensus_handle
             target_graph_id := block_id }

/-- The consensus name of a block (line 331). -/
def block_consensus_name (consensus_base_name : String) (block_id : Nat) : String :=
  consensus_base_name ++ toString block_id

/-- The statements of the worker that follow the smoother (lines 366-415): the
records appended to `path_mapping` and to `consensus_mapping` for one block,
given its block subgraph. `none` when the consensus path is looked up and does
not exist. -/
def emit_records (graph : XG) (consensus_base_name : String) (block : block_t)
    (block_graph : graph_t) (block_id : Nat)
    (mappings : List path_position_range_t × List path_position_range_t) :
    Option (List path_position_range_t × List path_position_range_t) :=
  if block_graph.get_node_count > 0 then
    let path_mapping := mappings.1 ++ emit_path_records graph block block_id
    if !consensus_base_name.isEmpty then
      match emit_consensus_record block_graph
          (block_consensus_name consensus_base_name block_id) block_id with
      | none => none
      | some c => some (path_mapping, mappings.2 ++ [c])
    else some (path_mapping, mappings.2)
  else some mappings

/-! ## Vocabulary for stating the properties of Pass B -/

/-- The handle `smoothed.get_handle(block.get_id(h) + id_trans, block.get_is_reverse(h))`
that a block step is mapped to. -/
def translate_handle (id_trans : Nat) (h : handle_t) : handle_t :=
  { id := h.id + id_trans, is_reverse := h.is_reverse }

/-- The graph after the optional `create_edge(prev, h)`: unchanged when there
is no previous handle. -/
def link_edge (sm : graph_t) (prev : Option handle_t) (h : handle_t) : graph_t :=
  match prev with
  | none => sm
  | some l => sm.create_edge l h

/-- Relation between the loop variable `last_step` and the steps of the path
being built (the path number `done_count + 1`): either no step was appended yet
and `last_step` is the initial `{0, 0}`, or `last_step` is the last step. -/
def last_step_ok (done_count : Nat) (steps : List handle_t) (last_step : step_handle_t) : Prop :=
  (last_step.path = 0 ∧ steps = [])
    ∨ (steps ≠ [] ∧ last_step = { path := done_count + 1, rank := steps.length - 1 })

/-- The nodes of the assembled graph are the block nodes in block order,
followed by connector nodes, with ids `1..n`. -/
def extends_blocks (block_graphs : List graph_t) (sm : graph_t) : Prop :=
  ∃ extra : List Sequence, sm.nodes = renumber 1 (all_sequences block_graphs ++ extra)

/-- The step the gap extraction starts from (lines 487-493): the end step of
the previous record, or the begin of the base path. -/
def gap_start (graph : XG) (pos_range : path_position_range_t) (st : lace_state) :
    step_handle_t :=
  match st.last_pos_range with
  | some l => l.end_step
  | none => graph.path_begin pos_range.base_path

/-- Invariant of the `while (true)` loop while the path of base path `P` is
built: the assembled paths are the finished paths `done` followed by the path
being built, whose steps are `steps`; the nodes are the block nodes followed by
connector nodes; `last_step` is the last step of the path (or `{0, 0}` before
the first step); the path spells the first `k` steps of the base path. -/
structure building (graph : XG) (block_graphs : List graph_t) (P : Nat)
    (done : List path_t) (steps : List handle_t) (k : Nat) (st : lace_state) : Prop where
  paths : st.smoothed.paths = done ++ [{ name := graph.get_path_name P, steps := steps }]
  path_handle : st.smoothed_path = done.length + 1
  nodes : extends_blocks block_graphs st.smoothed
  last : last_step_ok done.length steps st.last_step
  covered : k ≤ graph.get_step_count P
  spelled : st.smoothed.spell steps = some ((graph.path_steps P).take k).flatten

/-- The steps of the target path of a record, read as the source does:
`block_graphs[target_graph_id]`, then the steps of `target_path`. -/
def target_steps (block_graphs : List graph_t) (r : path_position_range_t) :
    Option (List handle_t) :=
  match block_graphs[r.target_graph_id]? with
  | some block => block.path_steps r.target_path
  | none => none

/-- The sequence spelled by the target path of a record in its block subgraph. -/
def target_sequence (block_graphs : List graph_t) (r : path_position_range_t) :
    Option Sequence :=
  match block_graphs[r.target_graph_id]? with
  | some block => block.path_sequence r.target_path
  | none => none

/-- Condition (i): the target path of the record spells the base sequence of
the step range `[start_step, end_step)`. -/
def target_spells_range (graph : XG) (block_graphs : List graph_t)
    (r : path_position_range_t) : Prop :=
  collect_sequence graph r.start_step r.end_step ≠ none
    ∧ target_sequence block_graphs r = collect_sequence graph r.start_step r.end_step

/-- Condition (ii) on the sorted records: base paths ascend, and consecutive
records of one base path do not overlap. -/
def tiled (records : List path_position_range_t) : Prop :=
  List.Chain' (fun a b => a.base_path < b.base_path
    ∨ (a.base_path = b.base_path ∧ a.end_pos ≤ b.start_pos)) records

/-- The record is coherent with the base graph: its steps are steps of its
base path (the end step may be the past-the-last step), and its positions are
the 64-bit offsets of its steps, as the driver computes them. -/
def coherent (graph : XG) (r : path_position_range_t) : Prop :=
  r.start_step.path = r.base_path
    ∧ r.end_step.path = r.base_path
    ∧ r.end_step.rank ≤ graph.get_step_count r.base_path
    ∧ r.start_pos = graph.get_position_of_step r.start_step
    ∧ r.end_pos = graph.get_position_of_step r.end_step
    ∧ r.end_pos < 2 ^ 64

/-- The target path of the record has at least one step. -/
def target_nonempty (block_graphs : List graph_t) (r : path_position_range_t) : Prop :=
  (target_steps block_graphs r).getD [] ≠ []

/-- The base paths for which Pass B creates a path, in creation order: one per
maximal run of consecutive records with the same base path. -/
def laced_paths : List path_position_range_t → List Nat
  | [] => []
  | r :: rest =>
    if last_of_path r rest then r.base_path :: laced_paths rest
    else laced_paths rest

/-- The listed assembled paths carry the names of the listed base paths, in
order, and spell their sequences in the assembled graph. -/
def paths_spell (graph : XG) (sm : graph_t) (paths : List path_t) (base : List Nat) : Prop :=
  List.Forall₂ (fun q P => q.name = graph.get_path_name P
    ∧ sm.spell q.steps = some (graph.path_sequence P)) paths base

instance (graph : XG) (block_graphs : List graph_t) (r : path_position_range_t) :
    Decidable (target_spells_range graph block_graphs r) := by
  unfold target_spells_range; infer_instance

instance (graph : XG) (r : path_position_range_t) : Decidable (coherent graph r) := by
  unfold coherent; infer_instance

instance (block_graphs : List graph_t) (r : path_position_range_t) :
    Decidable (target_nonempty block_graphs r) := by
  unfold target_nonempty; infer_instance

/-- The edge Pass A creates for a block edge when the offset of the block is
`id_trans`: between the forward handles of the translated node ids. -/
def translated_edge (id_trans : Nat) (e : edge_t) : edge_t :=
  ({ id := id_trans + e.1.id, is_reverse := false },
   { id := id_trans + e.2.id, is_reverse := false })

/-- Both ends of every edge of the graph are nodes of the graph, for a graph
with node ids `1..n`. -/
def edge_ends_exist (g : graph_t) : Prop :=
  ∀ e ∈ g.edges, (1 ≤ e.1.id ∧ e.1.id ≤ g.get_node_count)
    ∧ (1 ≤ e.2.id ∧ e.2.id ≤ g.get_node_count)

instance (g : graph_t) : Decidable (edge_ends_exist g) := by
  unfold edge_ends_exist; infer_instance

/-- The steps `build_odgi` gives to the path of sequence `i` (lines 703-719):
the handles of the successor walk, reversed and flipped when the sequence is
flagged reverse. -/
def sequence_steps (graph : poa_graph) (aln_is_reverse : List Bool) (i : Nat) :
    Option (List handle_t) :=
  match graph.sequences_begin_nodes_ids[i]? with
  | none => none
  | some node_id =>
    match sequence_walk graph i graph.nodes.length node_id with
    | none => none
    | some ids =>
      match aln_is_reverse[i]? with
      | none => none
      | some true =>
        some ((ids.map (fun id => ({ id := id + 1, is_reverse := false } : handle_t))).reverse.map
          flip)
      | some false =>
        some (ids.map (fun id => ({ id := id + 1, is_reverse := false } : handle_t)))

/-- The paths `build_odgi` creates for the numbered sequence names. -/
def sequence_paths (graph : poa_graph) (aln_is_reverse : List Bool) :
    List (Nat × String) → Option (List path_t)
  | [] => some []
  | (i, name) :: rest =>
    match sequence_steps graph aln_is_reverse i, sequence_paths graph aln_is_reverse rest with
    | some steps, some ps => some ({ name := name, steps := steps } :: ps)
    | _, _ => none

/-- The nodes `build_odgi` creates: node `i` of the alignment graph as the
node with id `i + 1` and its symbol as sequence. -/
def poa_nodes (graph : poa_graph) : List (Nat × Sequence) :=
  graph.nodes.enum.map (fun p => (p.1 + 1, [p.2.symbol]))

/-- The letters on which the reverse complement is an involution. -/
def is_nucleotide (c : Char) : Bool :=
  c = 'A' || c = 'C' || c = 'G' || c = 'T' || c = 'N'
    || c = 'a' || c = 'c' || c = 'g' || c = 't' || c = 'n'

/-! ## The seed example: a 30-base path, blocks of 10 and 15 bases, a 5-base gap -/

/-- Base graph with one path of three steps: 10, 5 and 15 bases. -/
def seed_graph : XG :=
  { paths := [{ name := "p"
                steps := [['A','C','G','T','A','C','G','T','A','C'],
                          ['G','G','G','G','G'],
                          ['T','T','T','T','T','C','C','C','C','C','A','A','A','A','A']] }] }

/-- Block subgraph of the first 10 bases, smoothed into two nodes. -/
def seed_block0 : graph_t :=
  { nodes := [(1, ['A','C','G','T','A']), (2, ['C','G','T','A','C'])]
    edges := [({ id := 1, is_reverse := false }, { id := 2, is_reverse := false })]
    paths := [{ name := "p_0"
                steps := [{ id := 1, is_reverse := false }, { id := 2, is_reverse := false }] }] }

/-- Block subgraph of the last 15 bases, one node. -/
def seed_block1 : graph_t :=
  { nodes := [(1, ['T','T','T','T','T','C','C','C','C','C','A','A','A','A','A'])]
    edges := []
    paths := [{ name := "p_15", steps := [{ id := 1, is_reverse := false }] }] }

/-- The two block subgraphs of the seed example. -/
def seed_blocks : List graph_t := [seed_block0, seed_block1]

/-- Record of the first block: bases 0..10, step 0. -/
def seed_record0 : path_position_range_t :=
  { base_path := 1, start_pos := 0, end_pos := 10
    start_step := { path := 1, rank := 0 }, end_step := { path := 1, rank := 1 }
    target_path := 1, target_graph_id := 0 }

/-- Record of the second block: bases 15..30, step 2. -/
def seed_record1 : path_position_range_t :=
  { base_path := 1, start_pos := 15, end_pos := 30
    start_step := { path := 1, rank := 2 }, end_step := { path := 1, rank := 3 }
    target_path := 1, target_graph_id := 1 }

/-- The loop state of the seed example after the first record was embedded. -/
def seed_state : lace_state :=
  { smoothed :=
      { nodes := [(1, ['A','C','G','T','A']), (2, ['C','G','T','A','C']),
                  (3, ['T','T','T','T','T','C','C','C','C','C','A','A','A','A','A'])]
        edges := [({ id := 1, is_reverse := false }, { id := 2, is_reverse := false })]
        paths := [{ name := "p"
                    steps := [{ id := 1, is_reverse := false },
                              { id := 2, is_reverse := false }] }] }
    smoothed_path := 1
    last_step := { path := 1, rank := 1 }
    last_pos_range := some seed_record0
    last_end_pos := 10 }

/-- The graph Pass B builds for the seed example: the three block nodes, the
connector node 4, and the path `p`. -/
def seed_assembled : graph_t :=
  { nodes := [(1, ['A','C','G','T','A']), (2, ['C','G','T','A','C']),
              (3, ['T','T','T','T','T','C','C','C','C','C','A','A','A','A','A']),
              (4, ['G','G','G','G','G'])]
    edges := [({ id := 1, is_reverse := false }, { id := 2, is_reverse := false }),
              ({ id := 2, is_reverse := false }, { id := 4, is_reverse := false }),
              ({ id := 4, is_reverse := false }, { id := 3, is_reverse := false })]
    paths := [{ name := "p"
                steps := [{ id := 1, is_reverse := false }, { id := 2, is_reverse := false },
                          { id := 4, is_reverse := false }, { id := 3, is_reverse := false }] }] }

/-! ## An example with overlapping ranges on the seed path -/

/-- Block subgraph of the first 15 bases (steps 0 and 1). -/
def overlap_block0 : graph_t :=
  { nodes := [(1, ['A','C','G','T','A','C','G','T','A','C','G','G','G','G','G'])]
    edges := []
    paths := [{ name := "p_0", steps := [{ id := 1, is_reverse := false }] }] }

/-- Block subgraph of the last 20 bases (steps 1 and 2). -/
def overlap_block1 : graph_t :=
  { nodes := [(1, ['G','G','G','G','G','T','T','T','T','T','C','C','C','C','C',
                   'A','A','A','A','A'])]
    edges := []
    paths := [{ name := "p_10", steps := [{ id := 1, is_reverse := false }] }] }

/-- The two overlapping block subgraphs. -/
def overlap_blocks : List graph_t := [overlap_block0, overlap_block1]

/-- Record of steps 0..2 of the seed path: bases 0..15. -/
def overlap_record0 : path_position_range_t :=
  { base_path := 1, start_pos := 0, end_pos := 15
    start_step := { path := 1, rank := 0 }, end_step := { path := 1, rank := 2 }
    target_path := 1, target_graph_id := 0 }

/-- Record of steps 1..3 of the seed path: bases 10..30. -/
def overlap_record1 : path_position_range_t :=
  { base_path := 1, start_pos := 10, end_pos := 30
    start_step := { path := 1, rank := 1 }, end_step := { path := 1, rank := 3 }
    target_path := 1, target_graph_id := 1 }

/-! ## A base graph with a path that no block covers -/

/-- The seed path and a second path `q` that no record covers. -/
def two_path_graph : XG :=
  { paths := seed_graph.paths ++ [{ name := "q", steps := [['A','C']] }] }

/-! ## A small alignment graph -/

/-- An alignment graph of two nodes `A` and `C` joined by one edge that the
sequence number 0 uses; the consensus visits both nodes. -/
def example_poa : poa_graph :=
  { nodes := [{ symbol := 'A', out_edges := [{ end_node_id := 1, sequence_labels := [0] }] },
              { symbol := 'C', out_edges := [] }]
    sequences_begin_nodes_ids := [0]
    consensus := [0, 1] }

/-- The graph `build_odgi` makes of `example_poa` for one forward sequence
named `s` and the consensus name `c`. -/
def example_poa_output : graph_t :=
  { nodes := [(1, ['A']), (2, ['C'])]
    edges := [({ id := 1, is_reverse := false }, { id := 2, is_reverse := false })]
    paths := [{ name := "s"
                steps := [{ id := 1, is_reverse := false }, { id := 2, is_reverse := false }] },
              { name := "c"
                steps := [{ id := 1, is_reverse := false }, { id := 2, is_reverse := false }] }] }

/-- The value of a string of decimal digits. -/
def digit_value (l : List Char) : Nat :=
  l.foldl (fun acc c => 10 * acc + (c.toNat - 48)) 0

/-! ## The abPOA smoother `smooth_abPOA` (lines 45-174) -/

/-- The table `nst_nt4_table` (lines 81-98). -/
def nst_nt4_table : List Nat :=
  [
    4, 4, 4, 4, 4, 4, 4, 4, 4, 4, 4, 4, 4, 4, 4, 4,
    4, 4, 4, 4, 4, 4, 4, 4, 4, 4, 4, 4, 4, 4, 4, 4,
    4, 4, 4, 4, 4, 4, 4, 4, 4, 4, 4, 4, 4, 5, 4, 4,
    4, 4, 4, 4, 4, 4, 4, 4, 4, 4, 4, 4, 4, 4, 4, 4,
    4, 0, 4, 1, 4, 4, 4, 2, 4, 4, 4, 4, 4, 4, 4, 4,
    4, 4, 4, 4, 3, 4, 4, 4, 4, 4, 4, 4, 4, 4, 4, 4,
    4, 0, 4, 1, 4, 4, 4, 2, 4, 4, 4, 4, 4, 4, 4, 4,
    4, 4, 4, 4, 3, 4, 4, 4, 4, 4, 4, 4, 4, 4, 4, 4,
    4, 4, 4, 4, 4, 4, 4, 4, 4, 4, 4, 4, 4, 4, 4, 4,
    4, 4, 4, 4, 4, 4, 4, 4, 4, 4, 4, 4, 4, 4, 4, 4,
    4, 4, 4, 4, 4, 4, 4, 4, 4, 4, 4, 4, 4, 4, 4, 4,
    4, 4, 4, 4, 4, 4, 4, 4, 4, 4, 4, 4, 4, 4, 4, 4,
    4, 4, 4, 4, 4, 4, 4, 4, 4, 4, 4, 4, 4, 4, 4, 4,
    4, 4, 4, 4, 4, 4, 4, 4, 4, 4, 4, 4, 4, 4, 4, 4,
    4, 4, 4, 4, 4, 4, 4, 4, 4, 4, 4, 4, 4, 4, 4, 4,
    4, 4, 4, 4, 4, 4, 4, 4, 4, 4, 4, 4, 4, 4, 4, 4 ]

/-- The encoding in words: `A`, `C`, `G`, `T` of either case are 0, 1, 2, 3,
the gap sign `-` is 5, and `N`, `n` and every other byte are 4. -/
def nt4_code (byte : Nat) : Nat :=
  if byte = 'A'.toNat ∨ byte = 'a'.toNat then 0
  else if byte = 'C'.toNat ∨ byte = 'c'.toNat then 1
  else if byte = 'G'.toNat ∨ byte = 'g'.toNat then 2
  else if byte = 'T'.toNat ∨ byte = 't'.toNat then 3
  else if byte = 'N'.toNat ∨ byte = 'n'.toNat then 4
  else if byte = '-'.toNat then 5
  else 4

/-- The index `(int)seqs_[i].c_str()[j]` of line 109 for a byte of the
sequence. Whether `char` is signed is left to the platform: where it is, a byte
above 127 converts to a negative index. -/
def char_index (char_is_signed : Bool) (byte : Nat) : Int :=
  if char_is_signed && decide (128 ≤ byte) then (byte : Int) - 256 else (byte : Int)

/-- The lookup `nst_nt4_table[(int)c]` of line 109; `none` when the index is
outside the table. -/
def encode_byte (char_is_signed : Bool) (byte : Nat) : Option Nat :=
  if char_index char_is_signed byte < 0 then none
  else nst_nt4_table[(char_index char_is_signed byte).toNat]?

/-- The inner loop of lines 108-110: the row `bseqs[i]` of one sequence. -/
def encode_sequence (char_is_signed : Bool) : Sequence → Option (List Nat)
  | [] => some []
  | c :: rest =>
    match encode_byte char_is_signed c.toNat, encode_sequence char_is_signed rest with
    | some v, some vs => some (v :: vs)
    | _, _ => none

/-- The loop of lines 105-111: the rows `bseqs`. -/
def encode_sequences (char_is_signed : Bool) : List Sequence → Option (List (List Nat))
  | [] => some []
  | seq :: rest =>
    match encode_sequence char_is_signed seq, encode_sequences char_is_signed rest with
    | some row, some rows => some (row :: rows)
    | _, _ => none

/-- The function `smooth_abPOA`. The sequences are collected as in `smooth`
and encoded; the calls into the abPOA library (lines 116-119) print to standard
output and leave `output_graph` alone; they read `seq_lens[0]`, which does not
exist for a block without ranges. The block id and the consensus name are not
read by the body. -/
def smooth_abPOA (char_is_signed : Bool) (graph : XG) (block : block_t) : Option graph_t :=
  match collect_block_sequences graph block.path_ranges with
  | none => none
  | some seqs_ =>
    match encode_sequences char_is_signed seqs_ with
    | none => none
    | some _ =>
      match (seqs_.map List.length)[0]? with
      | none => none
      | some _ => some (smooth_abPOA_output seqs_)

/-! ## The per-block worker of `smooth_and_lace` (lines 319-416) -/

/-- The vectors the workers share: `block_graphs`, `path_mapping` and
`consensus_mapping`. -/
structure driver_state where
  block_graphs : List graph_t
  path_mapping : List path_position_range_t
  consensus_mapping : List path_position_range_t
  deriving DecidableEq, Repr

/-- Why the process does not go on: a call of `exit(status)`, or undefined
behaviour. -/
inductive stop where
  | exited (status : Nat)
  | undefined
  deriving DecidableEq, Repr

/-- The call `exit(status)`: no statement after it is run. -/
def exit_process (status : Nat) : Except stop Unit :=
  Except.error (stop.exited status)

/-- The body of the lambda handed to `paryfor::parallel_for` (lines 322-416)
for the block `block_id`. The alignment engine it creates is not used. -/
def worker (char_is_signed : Bool) (graph : XG) (blocks : List block_t)
    (consensus_base_name : String) (block_id : Nat) (st : driver_state) :
    Except stop driver_state :=
  match blocks[block_id]? with
  | none => Except.error stop.undefined
  | some block =>
    match smooth_abPOA char_is_signed graph block with
    | none => Except.error stop.undefined
    | some block_graph =>
      (exit_process 0).bind (fun _ =>
        match emit_records graph consensus_base_name block block_graph block_id
            (st.path_mapping, st.consensus_mapping) with
        | none => Except.error stop.undefined
        | some m =>
          Except.ok { block_graphs := st.block_graphs.set block_id block_graph
                      path_mapping := m.1
                      consensus_mapping := m.2 })

/-- The workers run one after the other in the order `schedule` of block ids. -/
def run_workers (char_is_signed : Bool) (graph : XG) (blocks : List block_t)
    (consensus_base_name : String) : List Nat → driver_state → Except stop driver_state
  | [], st => Except.ok st
  | block_id :: rest, st =>
    match worker char_is_signed graph blocks consensus_base_name block_id st with
    | Except.error e => Except.error e
    | Except.ok st1 => run_workers char_is_signed graph blocks consensus_base_name rest st1

/-- The function `smooth_and_lace`: the workers of all blocks, in the order
`schedule` in which they finish, then the lacing phase. -/
def smooth_and_lace (char_is_signed : Bool) (graph : XG) (blocks : List block_t)
    (consensus_base_name : String) (schedule : List Nat) : outcome :=
  match run_workers char_is_signed graph blocks consensus_base_name schedule
      { block_graphs := blocks.map (fun _ => graph_t.empty)
        path_mapping := [], consensus_mapping := [] } with
  | Except.error (stop.exited status) => outcome.exited status
  | Except.error stop.undefined => outcome.undefined
  | Except.ok st => lace graph st.block_graphs st.path_mapping st.consensus_mapping

/-! ## Option handling of `main` (`src/main.cpp`) -/

/-- Line 210 of `main.cpp`: the value of `consensus_path_prefix`, from the
value of the option `-Q` when it is given. -/
def consensus_path_prefix_value (option_Q : Option String) : String :=
  match option_Q with
  | some given => given
  | none => "Consensus_"

/-- The default that the help text of the option `-Q` announces (line 141). -/
def consensus_path_prefix_help : String := "Consensus"

/-- The six scores `poa_m`, `poa_n`, `poa_g`, `poa_e`, `poa_q`, `poa_c`. -/
structure poa_scores where
  poa_m : Int
  poa_n : Int
  poa_g : Int
  poa_e : Int
  poa_q : Int
  poa_c : Int
  deriving DecidableEq, Repr

/-- How the parameter handling of lines 310-349 ends: with the scores, with
`return status` from `main`, or with the exception of `std::stoi`. -/
inductive parse_outcome where
  | parsed (scores : poa_scores)
  | returned (status : Nat)
  | thrown
  deriving DecidableEq, Repr

/-- The conversion `std::transform(.., std::stoi)` of line 327; `none` when
`stoi` throws on one of the strings. -/
def convert_params (stoi : String → Option Int) : List String → Option (List Int)
  | [] => some []
  | s :: rest =>
    match stoi s, convert_params stoi rest with
    | some v, some vs => some (v :: vs)
    | _, _ => none

/-- Lines 310-349 of `main.cpp`. `poa_params` is the value of the option `-p`
(empty when the option is absent); `split` stands for `smoothxg::split`
at the commas and `stoi` for `std::stoi`. -/
def parse_poa_params (split : String → List String) (stoi : String → Option Int)
    (poa_params : String) (use_abpoa : Bool) : parse_outcome :=
  if !poa_params.isEmpty then
    if (split poa_params).length ≠ 4 ∧ (split poa_params).length ≠ 6 then
      parse_outcome.returned 1
    else
      match convert_params stoi (split poa_params) with
      | none => parse_outcome.thrown
      | some params =>
        if params.length = 6 then
          parse_outcome.parsed
            { poa_m := params.getD 0 0, poa_n := params.getD 1 0, poa_g := params.getD 2 0
              poa_e := params.getD 3 0, poa_q := params.getD 4 0, poa_c := params.getD 5 0 }
        else if !use_abpoa then
          parse_outcome.parsed
            { poa_m := params.getD 0 0, poa_n := params.getD 1 0, poa_g := params.getD 2 0
              poa_e := params.getD 3 0, poa_q := params.getD 2 0, poa_c := params.getD 3 0 }
        else
          parse_outcome.parsed
            { poa_m := params.getD 0 0, poa_n := params.getD 1 0, poa_g := params.getD 2 0
              poa_e := params.getD 3 0, poa_q := 0, poa_c := 0 }
  else
    parse_outcome.parsed
      { poa_m := 1, poa_n := 4, poa_g := 6, poa_e := 2, poa_q := 26, poa_c := 1 }

/-! ## A block with a zero-length range -/

/-- A block of two ranges on the seed path: the first step, and the empty
range that begins and ends at the second step. -/
def zero_range_block : block_t :=
  { path_ranges := [{ begin := { path := 1, rank := 0 }, end_ := { path := 1, rank := 1 } },
                    { begin := { path := 1, rank := 1 }, end_ := { path := 1, rank := 1 } }] }

/-! ## Counting the connector nodes of Pass B -/

/-- The number of times Pass B takes the gap branch (line 485) or the trailing
branch (line 543) on the sorted records, when `last_end_pos` holds the given
value at the first record. -/
def connector_count (graph : XG) : List path_position_range_t → Nat → Nat
  | [], _ => 0
  | r :: rest, last_end_pos =>
    (if gap_detected r.start_pos last_end_pos then 1 else 0)
      + (if last_of_path r rest then
          (if graph.get_path_length r.base_path > r.end_pos then 1 else 0)
            + connector_count graph rest 0
         else connector_count graph rest r.end_pos)

/-- The graph `build_odgi` makes of `example_poa` for one sequence named `s`
that is flagged reverse, and the consensus name `c`. -/
def example_poa_reversed : graph_t :=
  { nodes := [(1, ['A']), (2, ['C'])]
    edges := [({ id := 1, is_reverse := false }, { id := 2, is_reverse := false })]
    paths := [{ name := "s"
                steps := [{ id := 2, is_reverse := true }, { id := 1, is_reverse := true }] },
              { name := "c"
                steps := [{ id := 1, is_reverse := false }, { id := 2, is_reverse := false }] }] }

/-- An alignment graph of the one node `N`, which one sequence uses: the graph
after the reverse complement of the sequence `X` was committed. -/
def unknown_letter_poa : poa_graph :=
  { nodes := [{ symbol := 'N', out_edges := [] }]
    sequences_begin_nodes_ids := [0]
    consensus := [] }

/-- The graph `build_odgi` makes of `unknown_letter_poa` for one sequence named
`s` that is flagged reverse, without consensus path. -/
def unknown_letter_output : graph_t :=
  { nodes := [(1, ['N'])]
    edges := []
    paths := [{ name := "s", steps := [{ id := 1, is_reverse := true }] }] }

/-! ## Record emission for all blocks, and the consensus paths -/

/-- The statements of lines 366-415 run for the blocks in the order `schedule`
in which the workers reach them, on the given block subgraphs. -/
def emit_all (graph : XG) (consensus_base_name : String) (blocks : List block_t)
    (block_graphs : List graph_t) :
    List Nat → List path_position_range_t × List path_position_range_t →
    Option (List path_position_range_t × List path_position_range_t)
  | [], mappings => some mappings
  | block_id :: rest, mappings =>
    match blocks[block_id]?, block_graphs[block_id]? with
    | some block, some block_graph =>
      match emit_records graph consensus_base_name block block_graph block_id mappings with
      | none => none
      | some emitted => emit_all graph consensus_base_name blocks block_graphs rest emitted
    | _, _ => none

/-- The block subgraph number `b` has at least one node. -/
def nonempty_block (block_graphs : List graph_t) (b : Nat) : Bool :=
  match block_graphs[b]? with
  | some g => decide (0 < g.get_node_count)
  | none => false

/-- The indices of the non-empty block subgraphs, ascending. -/
def nonempty_blocks (block_graphs : List graph_t) : List Nat :=
  (List.range block_graphs.length).filter (nonempty_block block_graphs)

/-- Every step of every path of the graph is on a node of the graph, the node
ids being `1..n`. -/
def steps_on_nodes (g : graph_t) : Prop :=
  ∀ q ∈ g.paths, ∀ h ∈ q.steps, 1 ≤ h.id ∧ h.id ≤ g.get_node_count

instance (g : graph_t) : Decidable (steps_on_nodes g) := by
  unfold steps_on_nodes; infer_instance

/-- The path the consensus loop (lines 602-615) creates for a record: named as
the target path of the block, with the translated steps of that path. -/
def consensus_path_of (block_graphs : List graph_t) (id_mapping : List Nat)
    (pos_range : path_position_range_t) : Option path_t :=
  match block_graphs[pos_range.target_graph_id]?, id_mapping[pos_range.target_graph_id]? with
  | some block, some id_trans =>
    match block.path_steps pos_range.target_path with
    | none => none
    | some steps =>
      some { name := block.get_path_name pos_range.target_path
             steps := steps.map (translate_handle id_trans) }
  | _, _ => none

/-- The paths the consensus loop creates for a list of records, in order. -/
def consensus_paths (block_graphs : List graph_t) (id_mapping : List Nat) :
    List path_position_range_t → Option (List path_t)
  | [] => some []
  | pos_range :: rest =>
    match consensus_path_of block_graphs id_mapping pos_range,
        consensus_paths block_graphs id_mapping rest with
    | some q, some qs => some (q :: qs)
    | _, _ => none

/-! ## An example with consensus paths -/

/-- The first block subgraph of the seed example with its consensus path. -/
def consensus_block0 : graph_t :=
  { nodes := seed_block0.nodes
    edges := seed_block0.edges
    paths := seed_block0.paths ++
      [{ name := "Consensus_0"
         steps := [{ id := 1, is_reverse := false }, { id := 2, is_reverse := false }] }] }

/-- Two blocks on the seed path: the first step, and an empty range. -/
def consensus_example_blocks : List block_t :=
  [{ path_ranges := [{ begin := { path := 1, rank := 0 }, end_ := { path := 1, rank := 1 } }] },
   { path_ranges := [{ begin := { path := 1, rank := 1 }, end_ := { path := 1, rank := 1 } }] }]

/-- The consensus record of the first block of the example. -/
def consensus_example_record : path_position_range_t :=
  { base_path := 0, start_pos := 0, end_pos := 10
    start_step := { path := 0, rank := 0 }, end_step := { path := 0, rank := 0 }
    target_path := 2, target_graph_id := 0 }

/-! ## Step intervals of the ranges -/

/-- The ranks of the steps of a Base Path Range, from `begin` up to `end`. -/
def step_interval (pr : path_range_t) : List Nat :=
  List.range' pr.begin.rank (pr.end_.rank - pr.begin.rank)

/-- Two ranges of one base path have no step in common. -/
def disjoint_ranges (x y : path_range_t) : Prop :=
  ∀ k ∈ step_interval x, k ∉ step_interval y

instance (x y : path_range_t) : Decidable (disjoint_ranges x y) := by
  unfold disjoint_ranges; infer_instance

/-- The range of the first two steps of the seed path. -/
def covering_range : path_range_t :=
  { begin := { path := 1, rank := 0 }, end_ := { path := 1, rank := 2 } }

/-- The empty range at the second step of the seed path. -/
def inner_empty_range : path_range_t :=
  { begin := { path := 1, rank := 1 }, end_ := { path := 1, rank := 1 } }

/-- The second block subgraph of the seed example with its consensus path. -/
def consensus_block1 : graph_t :=
  { nodes := seed_block1.nodes
    edges := seed_block1.edges
    paths := seed_block1.paths ++
      [{ name := "Consensus_1", steps := [{ id := 1, is_reverse := false }] }] }

/-- The consensus record of the second block of the seed example. -/
def consensus_example_record1 : path_position_range_t :=
  { base_path := 0, start_pos := 0, end_pos := 15
    start_step := { path := 0, rank := 0 }, end_step := { path := 0, rank := 0 }
    target_path := 2, target_graph_id := 1 }

/-! ## Embedded paths -/

/-- The two oriented handles are joined by an edge of the graph: the edge from
`s` to `t`, which a bidirected graph also holds as the edge from `flip t` to
`flip s`. -/
def joined (g : graph_t) (s t : handle_t) : Prop :=
  (s, t) ∈ g.edges ∨ (flip t, flip s) ∈ g.edges

instance (g : graph_t) (s t : handle_t) : Decidable (joined g s t) := by
  unfold joined; infer_instance

/-- Every two consecutive steps of the list are joined by an edge. -/
def embedded (g : graph_t) (steps : List handle_t) : Prop :=
  List.Chain' (joined g) steps

/-- Every edge of the graph joins two forward handles, as the edges that
`build_odgi` creates do. -/
def forward_edges (g : graph_t) : Prop :=
  ∀ e ∈ g.edges, e.1.is_reverse = false ∧ e.2.is_reverse = false

instance (g : graph_t) : Decidable (forward_edges g) := by
  unfold forward_edges; infer_instance

/-- Every path of every block subgraph, with its steps translated by the
offset of its block, is embedded in the graph. -/
def block_paths_embedded (block_graphs : List graph_t) (id_mapping : List Nat)
    (sm : graph_t) : Prop :=
  ∀ (b : Nat) (block : graph_t) (o : Nat), block_graphs[b]? = some block →
    id_mapping[b]? = some o →
    ∀ q ∈ block.paths, embedded sm (q.steps.map (translate_handle o))

/-- The assembled graph of the seed example with the consensus paths of its
two blocks. -/
def consensus_assembled : graph_t :=
  { nodes := seed_assembled.nodes
    edges := seed_assembled.edges
    paths := seed_assembled.paths ++
      [{ name := "Consensus_0"
         steps := [{ id := 1, is_reverse := false }, { id := 2, is_reverse := false }] },
       { name := "Consensus_1", steps := [{ id := 3, is_reverse := false }] }] }

end smoothxg

namespace smoothxg

/-! ## Properties -/

theorem renumber_cons (start : Nat) (s : Sequence) (rest : List Sequence) :
    renumber start (s :: rest) = (start, s) :: renumber (start + 1) rest := by
  simp [renumber, List.range'_succ]

theorem renumber_append (start : Nat) (l1 l2 : List Sequence) :
    renumber start (l1 ++ l2) = renumber start l1 ++ renumber (start + l1.length) l2 := by
  induction l1 generalizing start with
  | nil => simp [renumber]
  | cons s rest ih =>
    simp only [List.cons_append, renumber_cons, ih, List.length_cons]
    have h : start + 1 + rest.length = start + (rest.length + 1) := by omega
    rw [h]

theorem renumber_length (start : Nat) (l : List Sequence) :
    (renumber start l).length = l.length := by
  simp [renumber]

theorem renumber_getElem? (start : Nat) (l : List Sequence) (i : Nat) :
    (renumber start l)[i]? = (l[i]?).map (fun s => (start + i, s)) := by
  induction l generalizing start i with
  | nil => simp [renumber]
  | cons s rest ih =>
    rw [renumber_cons]
    cases i with
    | zero => simp
    | succ j =>
      simp only [List.getElem?_cons_succ, ih]
      congr 1
      funext s
      congr 1
      omega

theorem renumber_find (start : Nat) (l : List Sequence) (i : Nat) :
    (renumber start l).find? (fun n => n.1 == start + i) = (renumber start l)[i]? := by
  induction l generalizing start i with
  | nil => simp [renumber]
  | cons s rest ih =>
    rw [renumber_cons]
    cases i with
    | zero => simp
    | succ j =>
      have h1 : (start == start + (j + 1)) = false := by
        simp
      have h2 : start + (j + 1) = start + 1 + j := by omega
      rw [List.find?_cons, h1, List.getElem?_cons_succ, h2]
      exact ih (start + 1) j

end smoothxg

namespace smoothxg

/-! ### Pass A -/

theorem create_edge_nodes (g : graph_t) (a b : handle_t) :
    (g.create_edge a b).nodes = g.nodes := by
  unfold graph_t.create_edge; split <;> rfl

theorem create_edge_paths (g : graph_t) (a b : handle_t) :
    (g.create_edge a b).paths = g.paths := by
  unfold graph_t.create_edge; split <;> rfl

theorem foldl_create_handle (l : List (Nat × Sequence)) (sm : graph_t) :
    l.foldl (fun sm n => (sm.create_handle n.2).1) sm =
      { sm with nodes := sm.nodes ++ renumber (sm.nodes.length + 1) (l.map Prod.snd) } := by
  induction l generalizing sm with
  | nil => simp [renumber]
  | cons n rest ih =>
    rw [List.foldl_cons, ih]
    simp [graph_t.create_handle, renumber_cons]

theorem add_block_nodes_eq (sm block : graph_t) :
    add_block_nodes sm block =
      { sm with nodes := sm.nodes ++ renumber (sm.nodes.length + 1) block.sequences } :=
  foldl_create_handle block.nodes sm

theorem foldl_create_edge_nodes (id_trans : Nat) (l : List edge_t) (sm : graph_t) :
    (l.foldl (fun sm e => sm.create_edge (sm.get_handle (id_trans + e.1.id) false)
      (sm.get_handle (id_trans + e.2.id) false)) sm).nodes = sm.nodes := by
  induction l generalizing sm with
  | nil => rfl
  | cons e rest ih => rw [List.foldl_cons, ih, create_edge_nodes]

theorem foldl_create_edge_paths (id_trans : Nat) (l : List edge_t) (sm : graph_t) :
    (l.foldl (fun sm e => sm.create_edge (sm.get_handle (id_trans + e.1.id) false)
      (sm.get_handle (id_trans + e.2.id) false)) sm).paths = sm.paths := by
  induction l generalizing sm with
  | nil => rfl
  | cons e rest ih => rw [List.foldl_cons, ih, create_edge_paths]

theorem sequences_of_no_nodes (block : graph_t) (h : block.get_node_count = 0) :
    block.sequences = [] := by
  have : block.nodes = [] := List.length_eq_zero.mp h
  simp [graph_t.sequences, this]

theorem merge_block_mapping (st : graph_t × List Nat) (block : graph_t) :
    (merge_block st block).2 = st.2 ++ [st.1.get_node_count] := by
  unfold merge_block; split <;> rfl

theorem merge_block_nodes (st : graph_t × List Nat) (block : graph_t) :
    (merge_block st block).1.nodes =
      st.1.nodes ++ renumber (st.1.nodes.length + 1) block.sequences := by
  unfold merge_block
  split
  · next h => simp [sequences_of_no_nodes block h, renumber]
  · simp only [add_block_edges, foldl_create_edge_nodes, add_block_nodes_eq]

theorem merge_block_paths (st : graph_t × List Nat) (block : graph_t) :
    (merge_block st block).1.paths = st.1.paths := by
  unfold merge_block
  split
  · rfl
  · simp only [add_block_edges, foldl_create_edge_paths, add_block_nodes_eq]

theorem merge_blocks_nodes (block_graphs : List graph_t) (st : graph_t × List Nat) :
    (merge_blocks st block_graphs).1.nodes =
      st.1.nodes ++ renumber (st.1.nodes.length + 1) (all_sequences block_graphs) := by
  induction block_graphs generalizing st with
  | nil => simp [merge_blocks, all_sequences, renumber]
  | cons block rest ih =>
    have h := ih (merge_block st block)
    simp only [merge_blocks, List.foldl_cons] at h ⊢
    rw [h, merge_block_nodes]
    simp only [all_sequences, List.map_cons, List.flatten_cons, renumber_append, List.length_append,
      renumber_length, List.append_assoc]
    congr 2
    have e : st.1.nodes.length + block.sequences.length + 1
        = st.1.nodes.length + 1 + block.sequences.length := by omega
    rw [e]

theorem merge_blocks_paths (block_graphs : List graph_t) (st : graph_t × List Nat) :
    (merge_blocks st block_graphs).1.paths = st.1.paths := by
  induction block_graphs generalizing st with
  | nil => rfl
  | cons block rest ih =>
    have h := ih (merge_block st block)
    simp only [merge_blocks, List.foldl_cons] at h ⊢
    rw [h, merge_block_paths]

theorem merge_blocks_mapping (block_graphs : List graph_t) (st : graph_t × List Nat) :
    (merge_blocks st block_graphs).2 =
      st.2 ++ block_offsets st.1.get_node_count block_graphs := by
  induction block_graphs generalizing st with
  | nil => simp [merge_blocks, block_offsets]
  | cons block rest ih =>
    have h := ih (merge_block st block)
    simp only [merge_blocks, List.foldl_cons] at h ⊢
    rw [h, merge_block_mapping]
    simp only [block_offsets, List.append_assoc, List.singleton_append]
    congr 2
    simp [graph_t.get_node_count, merge_block_nodes, renumber_length, graph_t.sequences]

end smoothxg

namespace smoothxg

theorem all_sequences_length (l : List graph_t) :
    (all_sequences l).length = total_node_count l := by
  induction l with
  | nil => rfl
  | cons b rest ih =>
    simp only [all_sequences, total_node_count, List.map_cons, List.flatten_cons,
      List.length_append, List.sum_cons] at ih ⊢
    rw [ih]
    simp [graph_t.sequences, graph_t.get_node_count]

theorem all_sequences_append (l1 l2 : List graph_t) :
    all_sequences (l1 ++ l2) = all_sequences l1 ++ all_sequences l2 := by
  simp [all_sequences]

theorem total_node_count_append (l1 l2 : List graph_t) :
    total_node_count (l1 ++ l2) = total_node_count l1 + total_node_count l2 := by
  simp [total_node_count]

theorem block_offsets_length (n : Nat) (l : List graph_t) :
    (block_offsets n l).length = l.length := by
  induction l generalizing n with
  | nil => rfl
  | cons b rest ih => simp [block_offsets, ih]

theorem block_offsets_getElem? (n : Nat) (l : List graph_t) (b : Nat) (hb : b < l.length) :
    (block_offsets n l)[b]? = some (n + total_node_count (l.take b)) := by
  induction l generalizing n b with
  | nil => simp at hb
  | cons blk rest ih =>
    cases b with
    | zero => simp [block_offsets, total_node_count]
    | succ c =>
      have hc : c < rest.length := by simpa using hb
      simp only [block_offsets, List.getElem?_cons_succ, ih _ c hc, List.take_succ_cons]
      simp only [total_node_count, List.map_cons, List.sum_cons]
      congr 1
      omega

theorem pass_A_nodes (block_graphs : List graph_t) :
    (pass_A block_graphs).1.nodes = renumber 1 (all_sequences block_graphs) := by
  simp [pass_A, merge_blocks_nodes, graph_t.empty]

theorem pass_A_paths (block_graphs : List graph_t) :
    (pass_A block_graphs).1.paths = [] := by
  simp [pass_A, merge_blocks_paths, graph_t.empty]

theorem pass_A_mapping (block_graphs : List graph_t) :
    (pass_A block_graphs).2 = block_offsets 0 block_graphs := by
  simp [pass_A, merge_blocks_mapping, graph_t.empty, graph_t.get_node_count]

theorem pass_A_node_count (block_graphs : List graph_t) :
    (pass_A block_graphs).1.get_node_count = total_node_count block_graphs := by
  simp [graph_t.get_node_count, pass_A_nodes, renumber_length, all_sequences_length]

theorem split_at_block (block_graphs : List graph_t) (b : Nat) (block : graph_t)
    (hb : block_graphs[b]? = some block) :
    block_graphs = block_graphs.take b ++ block :: block_graphs.drop (b + 1) := by
  have hlt : b < block_graphs.length := by
    rcases List.getElem?_eq_some.mp hb with ⟨h, _⟩
    exact h
  have hget : block_graphs[b] = block := by
    rcases List.getElem?_eq_some.mp hb with ⟨_, h⟩
    exact h
  conv_lhs => rw [← List.take_append_drop b block_graphs]
  rw [List.drop_eq_getElem_cons hlt, hget]

theorem all_sequences_getElem? (block_graphs : List graph_t) (b : Nat) (block : graph_t)
    (hb : block_graphs[b]? = some block) (j : Nat) (hj : j < block.sequences.length) :
    (all_sequences block_graphs)[total_node_count (block_graphs.take b) + j]?
      = block.sequences[j]? := by
  have hsplit := split_at_block block_graphs b block hb
  have e : all_sequences block_graphs =
      all_sequences (block_graphs.take b) ++
        (block.sequences ++ all_sequences (block_graphs.drop (b + 1))) := by
    conv_lhs => rw [hsplit]
    simp [all_sequences]
  rw [e, ← all_sequences_length]
  rw [List.getElem?_append_right (by omega)]
  simp only [Nat.add_sub_cancel_left]
  rw [List.getElem?_append_left hj]

theorem node_sequence_compact (g : graph_t) (hg : compact_ids g) (i : Nat) :
    g.node_sequence (1 + i) = g.sequences[i]? := by
  unfold graph_t.node_sequence
  rw [hg, renumber_find, renumber_getElem?]
  cases g.sequences[i]? <;> rfl

theorem node_sequence_zero (g : graph_t) (hg : compact_ids g) :
    g.node_sequence 0 = none := by
  unfold graph_t.node_sequence
  rw [hg]
  have : ∀ (l : List Sequence) (s : Nat), 0 < s →
      (renumber s l).find? (fun n => n.1 == 0) = none := by
    intro l
    induction l with
    | nil => intro s _; simp [renumber]
    | cons x rest ih =>
      intro s hs
      rw [renumber_cons, List.find?_cons]
      have : (s == 0) = false := by simp; omega
      simp only [this]
      exact ih (s + 1) (by omega)
  rw [this _ 1 (by omega)]

theorem pass_A_compact (block_graphs : List graph_t) :
    compact_ids (pass_A block_graphs).1 := by
  unfold compact_ids
  have h := pass_A_nodes block_graphs
  have hs : (pass_A block_graphs).1.sequences = all_sequences block_graphs := by
    simp [graph_t.sequences, h, renumber]
    rw [List.map_snd_zip]
    simp
  rw [hs, h]

end smoothxg

namespace smoothxg

/-- C6: Pass A records for block `b` the sum of the node counts of the blocks
before it, which is the node count of the assembled graph after blocks
`0..b-1`; the `j`-th node of block `b` is appended with global id
`id_mapping[b] + j + 1`, and when the block's ids are `1..n` the node with
local id `k` is the node with global id `id_mapping[b] + k`, with the same
sequence. -/
theorem id_translation_pass_A (block_graphs : List graph_t) (b : Nat) (block : graph_t)
    (hb : block_graphs[b]? = some block) :
    (pass_A block_graphs).2[b]? = some (total_node_count (block_graphs.take b))
    ∧ (pass_A (block_graphs.take b)).1.get_node_count
        = total_node_count (block_graphs.take b)
    ∧ (∀ j n, block.nodes[j]? = some n →
        (pass_A block_graphs).1.nodes[total_node_count (block_graphs.take b) + j]?
          = some (total_node_count (block_graphs.take b) + j + 1, n.2))
    ∧ (compact_ids block → ∀ k s, block.node_sequence k = some s →
        (pass_A block_graphs).1.node_sequence (total_node_count (block_graphs.take b) + k)
          = some s) := by
  have hlt : b < block_graphs.length := (List.getElem?_eq_some.mp hb).1
  refine ⟨?_, pass_A_node_count _, ?_, ?_⟩
  · rw [pass_A_mapping, block_offsets_getElem? 0 block_graphs b hlt]
    simp
  · intro j n hn
    have hj : j < block.sequences.length := by
      have := (List.getElem?_eq_some.mp hn).1
      simpa [graph_t.sequences] using this
    have hseq : block.sequences[j]? = some n.2 := by
      simp [graph_t.sequences, List.getElem?_map, hn]
    rw [pass_A_nodes, renumber_getElem?, all_sequences_getElem? block_graphs b block hb j hj, hseq]
    simp only [Option.map_some', Option.some.injEq, Prod.mk.injEq, and_true]
    omega
  · intro hc k s hs
    cases k with
    | zero => rw [node_sequence_zero block hc] at hs; cases hs
    | succ i =>
      have h1 : block.sequences[i]? = some s := by
        rw [← node_sequence_compact block hc i, Nat.add_comm 1 i]; exact hs
      have hi : i < block.sequences.length := (List.getElem?_eq_some.mp h1).1
      have e : total_node_count (block_graphs.take b) + (i + 1)
          = 1 + (total_node_count (block_graphs.take b) + i) := by omega
      rw [e, node_sequence_compact _ (pass_A_compact block_graphs)]
      have hs2 : (pass_A block_graphs).1.sequences = all_sequences block_graphs := by
        have h := pass_A_nodes block_graphs
        simp [graph_t.sequences, h, renumber]
        rw [List.map_snd_zip]
        simp
      rw [hs2, all_sequences_getElem? block_graphs b block hb i hi, h1]

/-- C6 witness: the second block of the seed example gets the offset 2. -/
theorem id_translation_pass_A_witness :
    seed_blocks[1]? = some seed_block1
    ∧ (pass_A seed_blocks).2[1]? = some (total_node_count (seed_blocks.take 1)) :=
  ⟨by decide, (id_translation_pass_A seed_blocks 1 seed_block1 (by decide)).1⟩

end smoothxg

namespace smoothxg

theorem merge_block_of_no_nodes (st : graph_t × List Nat) (e : graph_t)
    (he : e.get_node_count = 0) :
    merge_block st e = (st.1, st.2 ++ [st.1.get_node_count]) := by
  simp [merge_block, he]

theorem merge_block_fst (g : graph_t) (m m' : List Nat) (block : graph_t) :
    (merge_block (g, m) block).1 = (merge_block (g, m') block).1 := by
  unfold merge_block; split <;> rfl

theorem merge_blocks_fst (l : List graph_t) (g : graph_t) (m m' : List Nat) :
    (merge_blocks (g, m) l).1 = (merge_blocks (g, m') l).1 := by
  induction l generalizing g m m' with
  | nil => rfl
  | cons b rest ih =>
    simp only [merge_blocks, List.foldl_cons] at ih ⊢
    have h1 : merge_block (g, m) b = ((merge_block (g, m) b).1, (merge_block (g, m) b).2) := rfl
    have h2 : merge_block (g, m') b = ((merge_block (g, m') b).1, (merge_block (g, m') b).2) := rfl
    rw [h1, h2, merge_block_fst g m m' b]
    exact ih _ _ _

theorem block_offsets_append (n : Nat) (l1 l2 : List graph_t) :
    block_offsets n (l1 ++ l2)
      = block_offsets n l1 ++ block_offsets (n + total_node_count l1) l2 := by
  induction l1 generalizing n with
  | nil => simp [block_offsets, total_node_count]
  | cons b rest ih =>
    have e : total_node_count (b :: rest) = b.get_node_count + total_node_count rest := by
      simp [total_node_count]
    rw [List.cons_append, block_offsets, ih, e, block_offsets, Nat.add_assoc, List.cons_append]

theorem eraseIdx_middle {α : Type} (l1 : List α) (x : α) (l2 : List α) :
    (l1 ++ x :: l2).eraseIdx l1.length = l1 ++ l2 := by
  induction l1 with
  | nil => rfl
  | cons a rest ih => simp [List.eraseIdx, ih]

/-- C7: a block subgraph without nodes adds no node and no edge but gets its
entry in `id_mapping`; `id_mapping` has one entry per block; the assembled
graph and the entries of the other blocks are the same as without the empty
block, and the entry after the empty block equals its own entry. -/
theorem empty_block_pass_A (pre post : List graph_t) (e : graph_t)
    (he : e.get_node_count = 0) :
    (∀ st : graph_t × List Nat,
        (merge_block st e).1 = st.1 ∧ (merge_block st e).2 = st.2 ++ [st.1.get_node_count])
    ∧ (pass_A (pre ++ e :: post)).2.length = (pre ++ e :: post).length
    ∧ (pass_A (pre ++ e :: post)).1 = (pass_A (pre ++ post)).1
    ∧ (pass_A (pre ++ e :: post)).2.eraseIdx pre.length = (pass_A (pre ++ post)).2
    ∧ (post ≠ [] → (pass_A (pre ++ e :: post)).2[pre.length + 1]?
        = (pass_A (pre ++ e :: post)).2[pre.length]?) := by
  have hoff : block_offsets 0 (pre ++ e :: post)
      = block_offsets 0 pre ++ total_node_count pre :: block_offsets (total_node_count pre) post := by
    rw [block_offsets_append]
    simp [block_offsets, he]
  refine ⟨?_, ?_, ?_, ?_, ?_⟩
  · intro st
    rw [merge_block_of_no_nodes st e he]
    exact ⟨rfl, rfl⟩
  · rw [pass_A_mapping, block_offsets_length]
  · simp only [pass_A, merge_blocks, List.foldl_append, List.foldl_cons]
    rw [merge_block_of_no_nodes _ e he]
    exact merge_blocks_fst post _ _ _
  · rw [pass_A_mapping, pass_A_mapping, hoff, block_offsets_append]
    have hl : pre.length = (block_offsets 0 pre).length := (block_offsets_length 0 pre).symm
    rw [hl, eraseIdx_middle]
    simp
  · intro hpost
    rw [pass_A_mapping, hoff]
    have hl : pre.length = (block_offsets 0 pre).length := (block_offsets_length 0 pre).symm
    cases post with
    | nil => exact absurd rfl hpost
    | cons p ps =>
      rw [hl, List.getElem?_append_right (by omega), List.getElem?_append_right (by omega)]
      simp [block_offsets]

/-- C7 witness: an empty block between the two blocks of the seed example. -/
theorem empty_block_pass_A_witness :
    graph_t.empty.get_node_count = 0
    ∧ (pass_A ([seed_block0] ++ graph_t.empty :: [seed_block1])).1
        = (pass_A ([seed_block0] ++ [seed_block1])).1 :=
  ⟨rfl, (empty_block_pass_A [seed_block0] [seed_block1] graph_t.empty rfl).2.2.1⟩

end smoothxg

namespace smoothxg

/-! ### Gap detection -/

theorem gap_detected_iff_ne (start_pos last_end_pos : Nat)
    (h1 : start_pos < 2 ^ 64) (h2 : last_end_pos < 2 ^ 64) :
    gap_detected start_pos last_end_pos = true ↔ start_pos ≠ last_end_pos := by
  have e : (2 : Nat) ^ 64 = 18446744073709551616 := by norm_num
  rw [e] at h1 h2
  simp only [gap_detected, e, decide_eq_true_eq]
  omega

/-- C4: evaluation of the gap test where the record starts before the end of
the previous one. The unsigned difference `10 - 15` wraps to a positive value,
a gap is detected, and the extraction loop is started from step 2 towards
step 1, which it never meets. -/
theorem gap_detected_on_overlap :
    gap_detected overlap_record1.start_pos overlap_record0.end_pos = true
    ∧ overlap_record1.start_pos < overlap_record0.end_pos
    ∧ collect_sequence seed_graph overlap_record0.end_step overlap_record1.start_step = none
    ∧ pass_B seed_graph overlap_blocks (pass_A overlap_blocks).2
        [overlap_record0, overlap_record1] (pass_A overlap_blocks).1 = none := by
  refine ⟨by decide, by decide, by decide, by decide⟩

end smoothxg

namespace smoothxg

/-! ### Graph operations on the path being built -/

theorem append_to_last (done : List path_t) (q : path_t) (h : handle_t) :
    graph_t.append_to (done ++ [q]) done.length h
      = done ++ [{ q with steps := q.steps ++ [h] }] := by
  induction done with
  | nil => rfl
  | cons a rest ih => simp [graph_t.append_to, ih]

theorem append_to_names (paths : List path_t) (k : Nat) (h : handle_t) :
    (graph_t.append_to paths k h).map path_t.name = paths.map path_t.name := by
  induction paths generalizing k with
  | nil => rfl
  | cons a rest ih =>
    cases k with
    | zero => rfl
    | succ j => simp [graph_t.append_to, ih]

theorem append_step_last (sm : graph_t) (done : List path_t) (nm : String)
    (steps : List handle_t) (h : handle_t)
    (hp : sm.paths = done ++ [{ name := nm, steps := steps }]) :
    (sm.append_step (done.length + 1) h).paths
      = done ++ [{ name := nm, steps := steps ++ [h] }] := by
  simp only [graph_t.append_step, hp, append_to_last]

theorem append_step_nodes (sm : graph_t) (p : Nat) (h : handle_t) :
    (sm.append_step p h).nodes = sm.nodes := by
  cases p <;> rfl

theorem append_step_edges (sm : graph_t) (p : Nat) (h : handle_t) :
    (sm.append_step p h).edges = sm.edges := by
  cases p <;> rfl

theorem append_step_names (sm : graph_t) (p : Nat) (h : handle_t) :
    (sm.append_step p h).paths.map path_t.name = sm.paths.map path_t.name := by
  cases p with
  | zero => rfl
  | succ k => exact append_to_names sm.paths k h

theorem path_steps_last (sm : graph_t) (done : List path_t) (nm : String)
    (steps : List handle_t) (hp : sm.paths = done ++ [{ name := nm, steps := steps }]) :
    sm.path_steps (done.length + 1) = some steps := by
  simp [graph_t.path_steps, hp]

theorem get_handle_of_step_last (sm : graph_t) (done : List path_t) (nm : String)
    (steps : List handle_t) (hp : sm.paths = done ++ [{ name := nm, steps := steps }])
    (i : Nat) :
    sm.get_handle_of_step { path := done.length + 1, rank := i } = steps[i]? := by
  simp [graph_t.get_handle_of_step, path_steps_last sm done nm steps hp]

theorem path_back_last (sm : graph_t) (done : List path_t) (nm : String)
    (steps : List handle_t) (hp : sm.paths = done ++ [{ name := nm, steps := steps }])
    (hne : steps ≠ []) :
    sm.path_back (done.length + 1) = { path := done.length + 1, rank := steps.length - 1 } := by
  have hl : steps.length ≠ 0 := by
    intro h; exact hne (List.length_eq_zero.mp h)
  simp [graph_t.path_back, graph_t.get_step_count, path_steps_last sm done nm steps hp, hl]

theorem create_edge_edges_mem (g : graph_t) (a b : handle_t) :
    (a, b) ∈ (g.create_edge a b).edges := by
  unfold graph_t.create_edge
  split
  · assumption
  · simp

end smoothxg

namespace smoothxg

theorem link_edge_nodes (sm : graph_t) (prev : Option handle_t) (h : handle_t) :
    (link_edge sm prev h).nodes = sm.nodes := by
  cases prev with
  | none => rfl
  | some l => exact create_edge_nodes sm l h

theorem link_edge_paths (sm : graph_t) (prev : Option handle_t) (h : handle_t) :
    (link_edge sm prev h).paths = sm.paths := by
  cases prev with
  | none => rfl
  | some l => exact create_edge_paths sm l h

theorem getElem?_length_sub_one {α : Type} (l : List α) :
    l[l.length - 1]? = l.getLast? := by
  rw [List.getLast?_eq_getElem?]

theorem link_from_last_spec (sm : graph_t) (done : List path_t) (nm : String)
    (steps extra : List handle_t) (last_step : step_handle_t) (h : handle_t)
    (hp : sm.paths = done ++ [{ name := nm, steps := steps ++ extra }])
    (hl : last_step_ok done.length steps last_step) :
    link_from_last sm last_step h = some (link_edge sm steps.getLast? h) := by
  rcases hl with ⟨h0, hs⟩ | ⟨hne, hls⟩
  · simp [link_from_last, h0, hs, link_edge]
  · have hlen : 0 < steps.length := List.length_pos.mpr hne
    have hget : sm.get_handle_of_step last_step = steps.getLast? := by
      rw [hls, get_handle_of_step_last sm done nm _ hp,
        List.getElem?_append_left (by omega), getElem?_length_sub_one steps]
    obtain ⟨l, hlast⟩ : ∃ l, steps.getLast? = some l := by
      cases hst : steps.getLast? with
      | none => exact absurd (List.getLast?_eq_none_iff.mp hst) hne
      | some l => exact ⟨l, rfl⟩
    have hpath : last_step.path ≠ 0 := by rw [hls]; simp
    simp [link_from_last, hpath, hget, hlast, link_edge]

theorem embed_fragment_rest (id_trans : Nat) (last_step : step_handle_t)
    (frag : List handle_t) (sm : graph_t) (done : List path_t) (nm : String)
    (steps : List handle_t)
    (hp : sm.paths = done ++ [{ name := nm, steps := steps }]) :
    embed_fragment id_trans (done.length + 1) last_step frag false sm
      = some { sm with paths := done ++
          [{ name := nm, steps := steps ++ frag.map (translate_handle id_trans) }] } := by
  induction frag generalizing sm steps with
  | nil => simp [embed_fragment, ← hp]
  | cons h rest ih =>
    have hp1 := append_step_last sm done nm steps
      (sm.get_handle (h.id + id_trans) h.is_reverse) hp
    simp only [embed_fragment, Bool.false_eq_true, if_false]
    rw [ih _ _ hp1]
    simp [graph_t.get_handle, translate_handle, append_step_nodes, append_step_edges]

theorem embed_fragment_spec (id_trans : Nat) (last_step : step_handle_t)
    (frag : List handle_t) (sm : graph_t) (done : List path_t) (nm : String)
    (steps : List handle_t)
    (hp : sm.paths = done ++ [{ name := nm, steps := steps }])
    (hl : last_step_ok done.length steps last_step) :
    embed_fragment id_trans (done.length + 1) last_step frag true sm
      = some { nodes := sm.nodes
               edges := (match frag.head? with
                 | none => sm
                 | some h => link_edge sm steps.getLast? (translate_handle id_trans h)).edges
               paths := done ++
                 [{ name := nm, steps := steps ++ frag.map (translate_handle id_trans) }] } := by
  cases frag with
  | nil => simp [embed_fragment, ← hp]
  | cons h rest =>
    have hp1 := append_step_last sm done nm steps
      (sm.get_handle (h.id + id_trans) h.is_reverse) hp
    have hlink := link_from_last_spec _ done nm steps _ last_step
      (sm.get_handle (h.id + id_trans) h.is_reverse) hp1 hl
    simp only [embed_fragment, if_true, hlink]
    have hp2 : (link_edge (sm.append_step (done.length + 1)
        (sm.get_handle (h.id + id_trans) h.is_reverse)) steps.getLast?
        (sm.get_handle (h.id + id_trans) h.is_reverse)).paths
        = done ++ [{ name := nm, steps := steps ++
            [sm.get_handle (h.id + id_trans) h.is_reverse] }] := by
      rw [link_edge_paths, hp1]
    rw [embed_fragment_rest _ _ _ _ done nm _ hp2]
    simp only [List.head?_cons, link_edge_nodes, append_step_nodes, List.map_cons,
      List.append_assoc, List.singleton_append, graph_t.get_handle, translate_handle]
    congr 1
    cases steps.getLast? with
    | none => simp [link_edge, append_step_edges]
    | some l =>
      simp only [link_edge, graph_t.create_edge, append_step_edges]
      split <;> rfl

end smoothxg

namespace smoothxg

/-! ### The extraction loop and positions along a base path -/

/-- The steps `a..b` of a list of step sequences, concatenated. -/
theorem flatten_take_split (S : List Sequence) (a b : Nat) (hab : a ≤ b) :
    (S.take b).flatten = (S.take a).flatten ++ ((S.drop a).take (b - a)).flatten := by
  have h : S.take b = S.take a ++ (S.drop a).take (b - a) := by
    have e : b = a + (b - a) := by omega
    conv_lhs => rw [e, List.take_add]
  rw [h, List.flatten_append]

theorem position_mono (S : List Sequence) (a b : Nat) (hab : a ≤ b) :
    (S.take a).flatten.length ≤ (S.take b).flatten.length := by
  rw [flatten_take_split S a b hab, List.length_append]
  omega

theorem prefix_eq_of_position_eq (S : List Sequence) (a b : Nat)
    (h : (S.take a).flatten.length = (S.take b).flatten.length) :
    (S.take a).flatten = (S.take b).flatten := by
  rcases Nat.le_total a b with hab | hba
  · have e := flatten_take_split S a b hab
    rw [e, List.length_append] at h
    have hz : ((S.drop a).take (b - a)).flatten = [] := List.length_eq_zero.mp (by omega)
    rw [e, hz, List.append_nil]
  · have e := flatten_take_split S b a hba
    rw [e, List.length_append] at h
    have hz : ((S.drop b).take (a - b)).flatten = [] := List.length_eq_zero.mp (by omega)
    rw [e, hz, List.append_nil]

theorem collect_fuel_slice (graph : XG) (p : Nat) (fuel a b : Nat)
    (hab : a ≤ b) (hb : b ≤ (graph.path_steps p).length) (hf : b - a + 1 ≤ fuel) :
    collect_sequence_fuel graph fuel { path := p, rank := a } { path := p, rank := b }
      = some (((graph.path_steps p).drop a).take (b - a)).flatten := by
  induction fuel generalizing a with
  | zero => omega
  | succ f ih =>
    unfold collect_sequence_fuel
    by_cases hs : a = b
    · subst hs
      simp
    · have hlt : a < b := by omega
      have hne : ¬ (({ path := p, rank := a } : step_handle_t) = { path := p, rank := b }) := by
        intro h
        exact hs (congrArg step_handle_t.rank h)
      have ha : a < (graph.path_steps p).length := by omega
      have hseq : graph.step_sequence { path := p, rank := a }
          = some ((graph.path_steps p)[a]) := by
        simp [XG.step_sequence, List.getElem?_eq_getElem ha]
      have hrec := ih (a + 1) (by omega) (by omega)
      simp only [XG.get_next_step] at hrec ⊢
      rw [if_neg hne, hseq]
      simp only [hrec]
      have hd : (graph.path_steps p).drop a
          = (graph.path_steps p)[a] :: (graph.path_steps p).drop (a + 1) :=
        List.drop_eq_getElem_cons ha
      have e : b - a = (b - (a + 1)) + 1 := by omega
      rw [hd, e, List.take_succ_cons, List.flatten_cons]

theorem collect_fuel_backwards (graph : XG) (p : Nat) (fuel a b : Nat) (hab : b < a) :
    collect_sequence_fuel graph fuel { path := p, rank := a } { path := p, rank := b }
      = none := by
  induction fuel generalizing a with
  | zero => rfl
  | succ f ih =>
    unfold collect_sequence_fuel
    have hne : ¬ (({ path := p, rank := a } : step_handle_t) = { path := p, rank := b }) := by
      intro h
      have := congrArg step_handle_t.rank h
      simp at this
      omega
    rw [if_neg hne]
    cases graph.step_sequence { path := p, rank := a } with
    | none => rfl
    | some s =>
      have hrec := ih (a + 1) (by omega)
      simp only [XG.get_next_step] at hrec ⊢
      simp only [hrec]

theorem collect_sequence_slice (graph : XG) (p a b : Nat)
    (hab : a ≤ b) (hb : b ≤ graph.get_step_count p) :
    collect_sequence graph { path := p, rank := a } { path := p, rank := b }
      = some (((graph.path_steps p).drop a).take (b - a)).flatten := by
  unfold collect_sequence
  exact collect_fuel_slice graph p _ a b hab hb (by simp only [XG.get_step_count] at hb ⊢; omega)

theorem collect_sequence_some (graph : XG) (p a b : Nat) (seq : Sequence)
    (hb : b ≤ graph.get_step_count p)
    (h : collect_sequence graph { path := p, rank := a } { path := p, rank := b } = some seq) :
    a ≤ b ∧ seq = (((graph.path_steps p).drop a).take (b - a)).flatten := by
  by_cases hab : a ≤ b
  · rw [collect_sequence_slice graph p a b hab hb] at h
    exact ⟨hab, (Option.some.inj h).symm⟩
  · unfold collect_sequence at h
    rw [collect_fuel_backwards graph p _ a b (by omega)] at h
    cases h

end smoothxg

namespace smoothxg

/-! ### Spelling -/

theorem spell_append (g : graph_t) (l1 l2 : List handle_t) (a b : Sequence)
    (h1 : g.spell l1 = some a) (h2 : g.spell l2 = some b) :
    g.spell (l1 ++ l2) = some (a ++ b) := by
  induction l1 generalizing a with
  | nil =>
    simp only [graph_t.spell] at h1
    cases h1
    simpa using h2
  | cons h rest ih =>
    have e1 : g.spell (h :: rest) = (match g.get_sequence h, g.spell rest with
      | some s, some t => some (s ++ t)
      | _, _ => none) := rfl
    have e2 : g.spell (h :: (rest ++ l2)) = (match g.get_sequence h, g.spell (rest ++ l2) with
      | some s, some t => some (s ++ t)
      | _, _ => none) := rfl
    rw [e1] at h1
    rw [List.cons_append, e2]
    cases hs : g.get_sequence h with
    | none => simp [hs] at h1
    | some s =>
      cases hr : g.spell rest with
      | none => simp [hs, hr] at h1
      | some t =>
        simp only [hs, hr, Option.some.injEq] at h1
        rw [ih t hr]
        simp [← h1]

theorem node_sequence_renumber (g : graph_t) (L : List Sequence)
    (hg : g.nodes = renumber 1 L) (i : Nat) :
    g.node_sequence (1 + i) = L[i]? := by
  unfold graph_t.node_sequence
  rw [hg, renumber_find, renumber_getElem?]
  cases L[i]? <;> rfl

theorem spell_congr (g g' : graph_t) (l : List handle_t)
    (h : ∀ x ∈ l, ∀ s, g.get_sequence x = some s → g'.get_sequence x = some s)
    (seq : Sequence) (hs : g.spell l = some seq) : g'.spell l = some seq := by
  induction l generalizing seq with
  | nil => simpa [graph_t.spell] using hs
  | cons x rest ih =>
    simp only [graph_t.spell] at hs ⊢
    cases hx : g.get_sequence x with
    | none => simp [hx] at hs
    | some s =>
      cases hr : g.spell rest with
      | none => simp [hx, hr] at hs
      | some t =>
        simp only [hx, hr, Option.some.injEq] at hs
        rw [h x (List.mem_cons_self _ _) s hx,
          ih (fun y hy => h y (List.mem_cons_of_mem _ hy)) t hr]
        simp [hs]

theorem get_sequence_of_node_sequence (g g' : graph_t) (x y : handle_t)
    (hrev : x.is_reverse = y.is_reverse)
    (h : ∀ s, g.node_sequence x.id = some s → g'.node_sequence y.id = some s)
    (s : Sequence) (hs : g.get_sequence x = some s) : g'.get_sequence y = some s := by
  unfold graph_t.get_sequence at hs ⊢
  cases hn : g.node_sequence x.id with
  | none => simp [hn] at hs
  | some t =>
    rw [h t hn]
    simpa [hn, hrev] using hs

theorem node_sequence_append (g g' : graph_t) (extra : List (Nat × Sequence))
    (hn : g'.nodes = g.nodes ++ extra) (id : Nat) (s : Sequence)
    (h : g.node_sequence id = some s) : g'.node_sequence id = some s := by
  unfold graph_t.node_sequence at h ⊢
  rw [hn, List.find?_append]
  cases hf : g.nodes.find? (fun n => n.1 == id) with
  | none => simp [hf] at h
  | some n => simpa [hf] using h

theorem spell_nodes_append (g g' : graph_t) (extra : List (Nat × Sequence))
    (hn : g'.nodes = g.nodes ++ extra) (l : List handle_t) (seq : Sequence)
    (hs : g.spell l = some seq) : g'.spell l = some seq :=
  spell_congr g g' l
    (fun x _ s hx => get_sequence_of_node_sequence g g' x x rfl
      (fun t ht => node_sequence_append g g' extra hn x.id t ht) s hx) seq hs

theorem spell_translated (block sm : graph_t) (id_trans : Nat)
    (h : ∀ k s, block.node_sequence k = some s → sm.node_sequence (k + id_trans) = some s)
    (frag : List handle_t) (seq : Sequence) (hs : block.spell frag = some seq) :
    sm.spell (frag.map (translate_handle id_trans)) = some seq := by
  induction frag generalizing seq with
  | nil => simpa [graph_t.spell] using hs
  | cons x rest ih =>
    simp only [graph_t.spell, List.map_cons] at hs ⊢
    cases hx : block.get_sequence x with
    | none => simp [hx] at hs
    | some s =>
      cases hr : block.spell rest with
      | none => simp [hx, hr] at hs
      | some t =>
        simp only [hx, hr, Option.some.injEq] at hs
        have hx2 : sm.get_sequence (translate_handle id_trans x) = some s :=
          get_sequence_of_node_sequence block sm x (translate_handle id_trans x) rfl
            (fun u hu => h x.id u hu) s hx
        rw [hx2, ih t hr]
        simp [hs]

/-! ### The node invariant of the assembled graph -/

theorem pass_A_extends (block_graphs : List graph_t) :
    extends_blocks block_graphs (pass_A block_graphs).1 :=
  ⟨[], by rw [pass_A_nodes, List.append_nil]⟩

theorem create_handle_extends (block_graphs : List graph_t) (sm : graph_t) (seq : Sequence)
    (h : extends_blocks block_graphs sm) :
    extends_blocks block_graphs (sm.create_handle seq).1 := by
  obtain ⟨extra, he⟩ := h
  refine ⟨extra ++ [seq], ?_⟩
  have hl : sm.nodes.length = (all_sequences block_graphs ++ extra).length := by
    rw [he, renumber_length]
  simp only [graph_t.create_handle]
  rw [← List.append_assoc, renumber_append, ← he, hl]
  simp [renumber, Nat.add_comm]

theorem new_node_sequence (block_graphs : List graph_t) (sm : graph_t) (seq : Sequence)
    (h : extends_blocks block_graphs sm) :
    (sm.create_handle seq).1.node_sequence (sm.create_handle seq).2.id = some seq := by
  obtain ⟨extra, he⟩ := h
  have hl : sm.nodes.length = (all_sequences block_graphs ++ extra).length := by
    rw [he, renumber_length]
  have hn : (sm.create_handle seq).1.nodes
      = renumber 1 ((all_sequences block_graphs ++ extra) ++ [seq]) := by
    simp only [graph_t.create_handle]
    rw [renumber_append, ← he, hl]
    simp [renumber, Nat.add_comm]
  have hid : (sm.create_handle seq).2.id = 1 + sm.nodes.length := by
    simp [graph_t.create_handle, Nat.add_comm]
  rw [hid, node_sequence_renumber _ _ hn, hl, List.getElem?_append_right (le_refl _)]
  simp

theorem translated_node_sequence (block_graphs : List graph_t) (sm : graph_t)
    (h : extends_blocks block_graphs sm) (b : Nat) (block : graph_t)
    (hb : block_graphs[b]? = some block) (hc : compact_ids block) (k : Nat) (s : Sequence)
    (hs : block.node_sequence k = some s) :
    sm.node_sequence (k + total_node_count (block_graphs.take b)) = some s := by
  obtain ⟨extra, he⟩ := h
  cases k with
  | zero => rw [node_sequence_zero block hc] at hs; cases hs
  | succ i =>
    have h1 : block.sequences[i]? = some s := by
      rw [← node_sequence_compact block hc i, Nat.add_comm 1 i]; exact hs
    have hi : i < block.sequences.length := (List.getElem?_eq_some.mp h1).1
    have e : i + 1 + total_node_count (block_graphs.take b)
        = 1 + (total_node_count (block_graphs.take b) + i) := by omega
    rw [e, node_sequence_renumber _ _ he]
    have h2 := all_sequences_getElem? block_graphs b block hb i hi
    have hlt : total_node_count (block_graphs.take b) + i < (all_sequences block_graphs).length := by
      have := (List.getElem?_eq_some.mp (h2.trans h1)).1
      exact this
    rw [List.getElem?_append_left hlt, h2, h1]

end smoothxg

namespace smoothxg

/-! ### The gap branch -/

theorem fill_gap_spec (graph : XG) (done : List path_t) (nm : String)
    (steps : List handle_t) (st : lace_state) (r : path_position_range_t) (seq : Sequence)
    (hp : st.smoothed.paths = done ++ [{ name := nm, steps := steps }])
    (hh : st.smoothed_path = done.length + 1)
    (hl : last_step_ok done.length steps st.last_step)
    (hc : collect_sequence graph (gap_start graph r st) r.start_step = some seq) :
    fill_gap graph r st = some
      { smoothed := link_edge
          { nodes := st.smoothed.nodes ++ [(st.smoothed.nodes.length + 1, seq)]
            edges := st.smoothed.edges
            paths := done ++ [{ name := nm, steps := steps ++
              [{ id := st.smoothed.nodes.length + 1, is_reverse := false }] }] }
          steps.getLast? { id := st.smoothed.nodes.length + 1, is_reverse := false }
        smoothed_path := st.smoothed_path
        last_step := { path := done.length + 1, rank := steps.length }
        last_pos_range := st.last_pos_range
        last_end_pos := st.last_end_pos } := by
  have hc2 : collect_sequence graph
      (match st.last_pos_range with
        | some l => l.end_step
        | none => graph.path_begin r.base_path) r.start_step = some seq := hc
  have hp1 : ((st.smoothed.create_handle seq).1.append_step (done.length + 1)
      (st.smoothed.create_handle seq).2).paths
      = done ++ [{ name := nm, steps := steps ++ [(st.smoothed.create_handle seq).2] }] :=
    append_step_last _ done nm steps _ hp
  have hlink := link_from_last_spec _ done nm steps _ st.last_step
    (st.smoothed.create_handle seq).2 hp1 hl
  have hback : (link_edge ((st.smoothed.create_handle seq).1.append_step (done.length + 1)
      (st.smoothed.create_handle seq).2) steps.getLast?
      (st.smoothed.create_handle seq).2).path_back (done.length + 1)
      = { path := done.length + 1, rank := steps.length } := by
    rw [path_back_last _ done nm (steps ++ [(st.smoothed.create_handle seq).2])
      (by rw [link_edge_paths, hp1]) (by simp)]
    simp
  have hsm : (st.smoothed.create_handle seq).1.append_step (done.length + 1)
      (st.smoothed.create_handle seq).2
      = { nodes := st.smoothed.nodes ++ [(st.smoothed.nodes.length + 1, seq)]
          edges := st.smoothed.edges
          paths := done ++ [{ name := nm, steps := steps ++
            [{ id := st.smoothed.nodes.length + 1, is_reverse := false }] }] } := by
    have h1 := hp1
    have h2 := append_step_nodes (st.smoothed.create_handle seq).1 (done.length + 1)
      (st.smoothed.create_handle seq).2
    have h3 := append_step_edges (st.smoothed.create_handle seq).1 (done.length + 1)
      (st.smoothed.create_handle seq).2
    generalize (st.smoothed.create_handle seq).1.append_step (done.length + 1)
      (st.smoothed.create_handle seq).2 = g at h1 h2 h3
    cases g
    simp only [graph_t.create_handle] at h1 h2 h3
    simp only [h1, h2, h3]
  unfold fill_gap
  simp only [hc2, hh, hlink, hback]
  rw [hsm]
  rfl

end smoothxg

namespace smoothxg

theorem extends_blocks_of_nodes (block_graphs : List graph_t) (g g' : graph_t)
    (hn : g'.nodes = g.nodes) (h : extends_blocks block_graphs g) :
    extends_blocks block_graphs g' := by
  obtain ⟨extra, he⟩ := h
  exact ⟨extra, by rw [hn, he]⟩

theorem step_eta (x : step_handle_t) (P : Nat) (h : x.path = P) :
    x = { path := P, rank := x.rank } := by
  cases x
  simp only at h
  simp [h]

theorem fill_or_skip (graph : XG) (block_graphs : List graph_t) (P : Nat)
    (done : List path_t) (steps : List handle_t) (k : Nat) (st : lace_state)
    (r : path_position_range_t) (s : Nat)
    (hb : building graph block_graphs P done steps k st)
    (hstart : gap_start graph r st = { path := P, rank := k })
    (hpos : st.last_end_pos = graph.get_position_of_step { path := P, rank := k })
    (hle : st.last_end_pos ≤ r.start_pos)
    (hs : r.start_step = { path := P, rank := s })
    (hsk : s ≤ graph.get_step_count P)
    (hspos : r.start_pos = graph.get_position_of_step { path := P, rank := s })
    (hlt : r.start_pos < 2 ^ 64) :
    ∃ st1 steps1,
      (if gap_detected r.start_pos st.last_end_pos then fill_gap graph r st else some st)
        = some st1
      ∧ building graph block_graphs P done steps1 s st1
      ∧ st1.last_pos_range = st.last_pos_range
      ∧ st1.last_end_pos = st.last_end_pos
      ∧ (∃ extra, st1.smoothed.nodes = st.smoothed.nodes ++ extra)
      ∧ st1.smoothed.edges = (if gap_detected r.start_pos st.last_end_pos
          then link_edge st.smoothed steps.getLast?
            { id := st.smoothed.nodes.length + 1, is_reverse := false }
          else st.smoothed).edges := by
  by_cases hg : gap_detected r.start_pos st.last_end_pos = true
  · have hne := (gap_detected_iff_ne _ _ hlt (by omega)).mp hg
    have hks : k < s := by
      by_contra hcon
      have hm := position_mono (graph.path_steps P) s k (by omega)
      simp only [XG.get_position_of_step] at hpos hspos
      omega
    have hc : collect_sequence graph (gap_start graph r st) r.start_step
        = some (((graph.path_steps P).drop k).take (s - k)).flatten := by
      rw [hstart, hs]
      exact collect_sequence_slice graph P k s (by omega) hsk
    have hspec := fill_gap_spec graph done (graph.get_path_name P) steps st r _
      hb.paths hb.path_handle hb.last hc
    rw [if_pos hg, hspec]
    refine ⟨_, steps ++ [{ id := st.smoothed.nodes.length + 1, is_reverse := false }],
      rfl, ?_, rfl, rfl, ⟨[(st.smoothed.nodes.length + 1,
        (((graph.path_steps P).drop k).take (s - k)).flatten)], ?_⟩, ?_⟩
    · have hn : ∀ sq : Sequence, (link_edge
          { nodes := st.smoothed.nodes ++ [(st.smoothed.nodes.length + 1, sq)]
            edges := st.smoothed.edges
            paths := done ++ [{ name := graph.get_path_name P, steps := steps ++
              [{ id := st.smoothed.nodes.length + 1, is_reverse := false }] }] }
          steps.getLast? { id := st.smoothed.nodes.length + 1, is_reverse := false }).nodes
          = (st.smoothed.create_handle sq).1.nodes := by
        intro sq
        rw [link_edge_nodes]
        rfl
      refine ⟨?_, hb.path_handle, ?_, ?_, hsk, ?_⟩
      · simp only [link_edge_paths]
      · exact extends_blocks_of_nodes _ _ _ (hn _) (create_handle_extends _ _ _ hb.nodes)
      · right
        exact ⟨by simp, by simp⟩
      · rw [flatten_take_split (graph.path_steps P) k s (by omega)]
        apply spell_append
        · exact spell_nodes_append st.smoothed _ [(st.smoothed.nodes.length + 1,
              (((graph.path_steps P).drop k).take (s - k)).flatten)]
            (by simp only [link_edge_nodes]) steps _ hb.spelled
        · have hnew := new_node_sequence block_graphs st.smoothed
            (((graph.path_steps P).drop k).take (s - k)).flatten hb.nodes
          have hns : ∀ t, (st.smoothed.create_handle
              (((graph.path_steps P).drop k).take (s - k)).flatten).1.node_sequence
                (st.smoothed.nodes.length + 1) = some t →
              (link_edge
                { nodes := st.smoothed.nodes ++ [(st.smoothed.nodes.length + 1,
                    (((graph.path_steps P).drop k).take (s - k)).flatten)]
                  edges := st.smoothed.edges
                  paths := done ++ [{ name := graph.get_path_name P, steps := steps ++
                    [{ id := st.smoothed.nodes.length + 1, is_reverse := false }] }] }
                steps.getLast?
                { id := st.smoothed.nodes.length + 1, is_reverse := false }).node_sequence
                  (st.smoothed.nodes.length + 1) = some t := by
            intro t ht
            exact node_sequence_append _ _ [] (by rw [hn, List.append_nil]) _ _ ht
          have hget := hns _ hnew
          simp only [graph_t.spell, graph_t.get_sequence, hget]
          simp
    · simp only [link_edge_nodes]
    · rw [if_pos hg]
      cases steps.getLast? with
      | none => rfl
      | some l =>
        simp only [link_edge, graph_t.create_edge]
        split <;> rfl
  · have heq : r.start_pos = st.last_end_pos := by
      by_contra hcon
      exact hg ((gap_detected_iff_ne _ _ hlt (by omega)).mpr hcon)
    have hpre : ((graph.path_steps P).take k).flatten = ((graph.path_steps P).take s).flatten := by
      apply prefix_eq_of_position_eq
      simp only [XG.get_position_of_step] at hpos hspos
      omega
    rw [if_neg hg]
    refine ⟨st, steps, rfl, ⟨hb.paths, hb.path_handle, hb.nodes, hb.last, hsk, ?_⟩,
      rfl, rfl, ⟨[], by simp⟩, by rw [if_neg hg]⟩
    rw [← hpre]
    exact hb.spelled

end smoothxg

namespace smoothxg

/-! ### One record -/

theorem pass_A_mapping_getElem? (block_graphs : List graph_t) (b : Nat) (block : graph_t)
    (hb : block_graphs[b]? = some block) :
    (pass_A block_graphs).2[b]? = some (total_node_count (block_graphs.take b)) := by
  have hlt : b < block_graphs.length := (List.getElem?_eq_some.mp hb).1
  rw [pass_A_mapping, block_offsets_getElem? 0 block_graphs b hlt]
  simp

theorem lace_range_spec (graph : XG) (block_graphs : List graph_t) (P : Nat)
    (finished : List path_t) (steps : List handle_t) (k : Nat) (st : lace_state)
    (r : path_position_range_t)
    (hb : building graph block_graphs P finished steps k st)
    (hP : r.base_path = P)
    (hstart : gap_start graph r st = { path := P, rank := k })
    (hpos : st.last_end_pos = graph.get_position_of_step { path := P, rank := k })
    (hle : st.last_end_pos ≤ r.start_pos)
    (hco : coherent graph r)
    (hi : target_spells_range graph block_graphs r)
    (hiii : ∀ block ∈ block_graphs, compact_ids block)
    (hv : target_nonempty block_graphs r) :
    ∃ st1 steps1, lace_range graph block_graphs (pass_A block_graphs).2 r st = some st1
      ∧ building graph block_graphs P finished steps1 r.end_step.rank st1
      ∧ steps1 ≠ []
      ∧ st1.last_pos_range = some r
      ∧ st1.last_end_pos = r.end_pos
      ∧ ∃ extra, st1.smoothed.nodes = st.smoothed.nodes ++ extra := by
  subst hP
  obtain ⟨hsp, hep, hek, hspos, hepos, hlt⟩ := hco
  obtain ⟨hcne, htgt⟩ := hi
  have hs := step_eta r.start_step r.base_path hsp
  have he := step_eta r.end_step r.base_path hep
  cases hblk : block_graphs[r.target_graph_id]? with
  | none =>
    simp only [target_sequence, hblk] at htgt
    exact absurd htgt.symm hcne
  | some block =>
    cases hfr : block.path_steps r.target_path with
    | none =>
      simp only [target_sequence, hblk, graph_t.path_sequence, hfr] at htgt
      exact absurd htgt.symm hcne
    | some frag =>
      simp only [target_sequence, hblk, graph_t.path_sequence, hfr] at htgt
      cases hcol : collect_sequence graph r.start_step r.end_step with
      | none => exact absurd hcol hcne
      | some seq =>
        rw [hcol] at htgt
        have hcol2 := hcol
        rw [hs, he] at hcol2
        obtain ⟨hse, hseq⟩ := collect_sequence_some graph r.base_path _ _ seq hek hcol2
        have hfne : frag ≠ [] := by
          simpa [target_nonempty, target_steps, hblk, hfr] using hv
        have hspos2 : r.start_pos = graph.get_position_of_step
            { path := r.base_path, rank := r.start_step.rank } := by rw [← hs]; exact hspos
        have hepos2 : r.end_pos = graph.get_position_of_step
            { path := r.base_path, rank := r.end_step.rank } := by rw [← he]; exact hepos
        have hslt : r.start_pos < 2 ^ 64 := by
          have hm := position_mono (graph.path_steps r.base_path) _ _ hse
          simp only [XG.get_position_of_step] at hspos2 hepos2
          omega
        obtain ⟨st1, steps1, hfill, hb1, hlpr, hlep, ⟨extra, hx⟩, _⟩ :=
          fill_or_skip graph block_graphs r.base_path finished steps k st r r.start_step.rank
            hb hstart hpos hle hs (by omega) hspos2 hslt
        have hid := pass_A_mapping_getElem? block_graphs _ block hblk
        have htr := translated_node_sequence block_graphs st1.smoothed hb1.nodes
          r.target_graph_id block hblk (hiii block (List.getElem?_mem hblk))
        generalize total_node_count (block_graphs.take r.target_graph_id) = T at hid htr
        have hfrag := embed_fragment_spec T st1.last_step frag st1.smoothed finished
          (graph.get_path_name r.base_path) steps1 hb1.paths hb1.last
        obtain ⟨G, hG, hGn, hGp⟩ : ∃ G : graph_t,
            embed_fragment T (finished.length + 1) st1.last_step frag true st1.smoothed = some G
            ∧ G.nodes = st1.smoothed.nodes
            ∧ G.paths = finished ++ [{ name := graph.get_path_name r.base_path,
                                       steps := steps1 ++ frag.map (translate_handle T) }] :=
          ⟨_, hfrag, rfl, rfl⟩
        have hrun : lace_range graph block_graphs (pass_A block_graphs).2 r st = some
            { smoothed := G
              smoothed_path := finished.length + 1
              last_step := G.path_back (finished.length + 1)
              last_pos_range := some r
              last_end_pos := r.end_pos } := by
          unfold lace_range
          simp only [hfill, hblk, hid, hfr, hb1.path_handle, hG]
        refine ⟨_, steps1 ++ frag.map (translate_handle T), hrun, ?_, by simp [hfne],
          rfl, rfl, ⟨extra, by rw [← hx]; exact hGn⟩⟩
        refine ⟨hGp, rfl, extends_blocks_of_nodes _ st1.smoothed _ hGn hb1.nodes, ?_, hek, ?_⟩
        · right
          exact ⟨by simp [hfne], path_back_last G finished _ _ hGp (by simp [hfne])⟩
        · rw [flatten_take_split (graph.path_steps r.base_path) _ _ hse, ← hseq]
          apply spell_append
          · exact spell_nodes_append st1.smoothed _ [] (by simp [hGn]) steps1 _ hb1.spelled
          · apply spell_translated block
            · intro i s hs
              exact node_sequence_append st1.smoothed _ [] (by simp [hGn]) _ _ (htr i s hs)
            · exact htgt

end smoothxg

namespace smoothxg

/-! ### The trailing sequence -/

theorem lace_trailing_eq (graph : XG) (finished : List path_t) (nm : String)
    (steps : List handle_t) (st : lace_state) (r : path_position_range_t)
    (seq : Sequence) (l : handle_t)
    (hp : st.smoothed.paths = finished ++ [{ name := nm, steps := steps }])
    (hh : st.smoothed_path = finished.length + 1)
    (hl : st.smoothed.get_handle_of_step st.last_step = some l)
    (hlen : graph.get_path_length r.base_path > st.last_end_pos)
    (hc : collect_sequence graph r.end_step (graph.path_end r.base_path) = some seq) :
    lace_trailing graph r st = some
      { nodes := st.smoothed.nodes ++ [(st.smoothed.nodes.length + 1, seq)]
        edges := (st.smoothed.create_edge l
          { id := st.smoothed.nodes.length + 1, is_reverse := false }).edges
        paths := finished ++ [{ name := nm, steps := steps ++
          [{ id := st.smoothed.nodes.length + 1, is_reverse := false }] }] } := by
  have hl1 : (st.smoothed.create_handle seq).1.get_handle_of_step st.last_step = some l := hl
  have hp1 : ((st.smoothed.create_handle seq).1.create_edge l
      (st.smoothed.create_handle seq).2).paths
      = finished ++ [{ name := nm, steps := steps }] := by
    rw [create_edge_paths]; exact hp
  have hp2 := append_step_last _ finished nm steps (st.smoothed.create_handle seq).2 hp1
  have hn2 := append_step_nodes ((st.smoothed.create_handle seq).1.create_edge l
      (st.smoothed.create_handle seq).2) (finished.length + 1) (st.smoothed.create_handle seq).2
  have he2 := append_step_edges ((st.smoothed.create_handle seq).1.create_edge l
      (st.smoothed.create_handle seq).2) (finished.length + 1) (st.smoothed.create_handle seq).2
  unfold lace_trailing
  rw [if_pos hlen]
  simp only [hc, hl1, hh]
  generalize ((st.smoothed.create_handle seq).1.create_edge l
      (st.smoothed.create_handle seq).2).append_step (finished.length + 1)
      (st.smoothed.create_handle seq).2 = g at hp2 hn2 he2
  cases g
  simp only [create_edge_nodes] at hn2
  simp only at hp2 hn2 he2
  simp only [hp2, hn2, he2, graph_t.create_handle]
  congr 2
  unfold graph_t.create_edge
  split <;> rfl

theorem flatten_take_count (S : List Sequence) :
    (S.take S.length).flatten = S.flatten := by
  rw [List.take_length]

theorem lace_trailing_spec (graph : XG) (block_graphs : List graph_t) (P : Nat)
    (finished : List path_t) (steps : List handle_t) (k : Nat) (st : lace_state)
    (r : path_position_range_t)
    (hb : building graph block_graphs P finished steps k st)
    (hne : steps ≠ [])
    (hP : r.base_path = P)
    (he : r.end_step = { path := P, rank := k })
    (hpos : st.last_end_pos = graph.get_position_of_step { path := P, rank := k }) :
    ∃ sm steps1, lace_trailing graph r st = some sm
      ∧ extends_blocks block_graphs sm
      ∧ (∃ extra, sm.nodes = st.smoothed.nodes ++ extra)
      ∧ sm.paths = finished ++ [{ name := graph.get_path_name P, steps := steps1 }]
      ∧ sm.spell steps1 = some (graph.path_sequence P) := by
  subst hP
  have hk := hb.covered
  simp only [XG.get_step_count] at hk
  by_cases hlen : graph.get_path_length r.base_path > st.last_end_pos
  · have hc : collect_sequence graph r.end_step (graph.path_end r.base_path)
        = some (((graph.path_steps r.base_path).drop k).take
            ((graph.path_steps r.base_path).length - k)).flatten := by
      rw [he]
      exact collect_sequence_slice graph r.base_path k _ hk (le_refl _)
    obtain ⟨l, hl⟩ : ∃ l, st.smoothed.get_handle_of_step st.last_step = some l := by
      rcases hb.last with ⟨_, h0⟩ | ⟨_, hls⟩
      · exact absurd h0 hne
      · have hlen : 0 < steps.length := List.length_pos.mpr hne
        rw [hls, get_handle_of_step_last _ finished _ steps hb.paths]
        exact ⟨steps[steps.length - 1], List.getElem?_eq_getElem (by omega)⟩
    have hrun := lace_trailing_eq graph finished _ steps st r _ l hb.paths hb.path_handle
      hl hlen hc
    refine ⟨_, _, hrun, ?_, ⟨_, rfl⟩, rfl, ?_⟩
    · exact extends_blocks_of_nodes _ _ _ rfl (create_handle_extends _ _
        (((graph.path_steps r.base_path).drop k).take
            ((graph.path_steps r.base_path).length - k)).flatten hb.nodes)
    · have hfull : graph.path_sequence r.base_path
          = ((graph.path_steps r.base_path).take k).flatten
            ++ (((graph.path_steps r.base_path).drop k).take
              ((graph.path_steps r.base_path).length - k)).flatten := by
        rw [← flatten_take_split _ k _ hk, flatten_take_count]
        rfl
      rw [hfull]
      apply spell_append
      · exact spell_nodes_append st.smoothed _ _ rfl steps _ hb.spelled
      · have hnew := new_node_sequence block_graphs st.smoothed
          (((graph.path_steps r.base_path).drop k).take
            ((graph.path_steps r.base_path).length - k)).flatten hb.nodes
        have hget := node_sequence_append (st.smoothed.create_handle
          (((graph.path_steps r.base_path).drop k).take
            ((graph.path_steps r.base_path).length - k)).flatten).1
          { nodes := st.smoothed.nodes ++ [(st.smoothed.nodes.length + 1,
              (((graph.path_steps r.base_path).drop k).take
                ((graph.path_steps r.base_path).length - k)).flatten)]
            edges := (st.smoothed.create_edge l
              { id := st.smoothed.nodes.length + 1, is_reverse := false }).edges
            paths := finished ++ [{ name := graph.get_path_name r.base_path, steps := steps ++
              [{ id := st.smoothed.nodes.length + 1, is_reverse := false }] }] }
          [] (by simp [graph_t.create_handle]) _ _ hnew
        simp only [graph_t.create_handle] at hget
        simp only [graph_t.spell, graph_t.get_sequence, hget]
        simp
  · have hfull : ((graph.path_steps r.base_path).take k).flatten
        = graph.path_sequence r.base_path := by
      have h1 := position_mono (graph.path_steps r.base_path) k _ hk
      rw [flatten_take_count] at h1
      have h2 : ((graph.path_steps r.base_path).take k).flatten.length
          = ((graph.path_steps r.base_path).take
              (graph.path_steps r.base_path).length).flatten.length := by
        rw [flatten_take_count]
        simp only [XG.get_path_length, XG.path_sequence, XG.get_position_of_step] at hlen hpos
        omega
      rw [prefix_eq_of_position_eq _ _ _ h2, flatten_take_count]
      rfl
    refine ⟨st.smoothed, steps, ?_, hb.nodes, ⟨[], by simp⟩, hb.paths, ?_⟩
    · unfold lace_trailing
      rw [if_neg hlen]
    · rw [← hfull]
      exact hb.spelled

end smoothxg

namespace smoothxg

/-! ### The loop over the records -/

theorem embed_paths_cons (graph : XG) (block_graphs : List graph_t) (id_mapping : List Nat)
    (r : path_position_range_t) (rest : List path_position_range_t)
    (cur : Option lace_state) (sm : graph_t) :
    embed_paths graph block_graphs id_mapping (r :: rest) cur sm =
      match lace_range graph block_graphs id_mapping r
          (match cur with
            | some st => st
            | none => start_path graph r sm) with
      | none => none
      | some st1 =>
        if last_of_path r rest then
          match lace_trailing graph r st1 with
          | none => none
          | some sm1 => embed_paths graph block_graphs id_mapping rest none sm1
        else embed_paths graph block_graphs id_mapping rest (some st1) st1.smoothed := rfl

theorem embed_paths_next_path (graph : XG) (block_graphs : List graph_t)
    (id_mapping : List Nat) (r : path_position_range_t)
    (rest : List path_position_range_t) (cur : Option lace_state) (sm : graph_t)
    (st0 st1 : lace_state) (sm1 : graph_t)
    (h0 : (match cur with
      | some st => st
      | none => start_path graph r sm) = st0)
    (h1 : lace_range graph block_graphs id_mapping r st0 = some st1)
    (hn : last_of_path r rest = true)
    (h2 : lace_trailing graph r st1 = some sm1) :
    embed_paths graph block_graphs id_mapping (r :: rest) cur sm
      = embed_paths graph block_graphs id_mapping rest none sm1 := by
  rw [embed_paths_cons, h0]
  simp only [h1, h2, hn, if_true]

theorem embed_paths_same_path (graph : XG) (block_graphs : List graph_t)
    (id_mapping : List Nat) (r : path_position_range_t)
    (rest : List path_position_range_t) (cur : Option lace_state) (sm : graph_t)
    (st0 st1 : lace_state)
    (h0 : (match cur with
      | some st => st
      | none => start_path graph r sm) = st0)
    (h1 : lace_range graph block_graphs id_mapping r st0 = some st1)
    (hn : last_of_path r rest = false) :
    embed_paths graph block_graphs id_mapping (r :: rest) cur sm
      = embed_paths graph block_graphs id_mapping rest (some st1) st1.smoothed := by
  rw [embed_paths_cons, h0]
  simp only [h1, hn, Bool.false_eq_true, if_false]

theorem paths_spell_mono (graph : XG) (sm sm1 : graph_t) (extra : List (Nat × Sequence))
    (hn : sm1.nodes = sm.nodes ++ extra) (paths : List path_t) (base : List Nat)
    (h : paths_spell graph sm paths base) : paths_spell graph sm1 paths base := by
  unfold paths_spell at h ⊢
  exact h.imp (fun q P hq => ⟨hq.1, spell_nodes_append sm sm1 extra hn _ _ hq.2⟩)

theorem paths_spell_snoc (graph : XG) (sm : graph_t) (paths : List path_t) (base : List Nat)
    (steps : List handle_t) (P : Nat)
    (h : paths_spell graph sm paths base)
    (hs : sm.spell steps = some (graph.path_sequence P)) :
    paths_spell graph sm (paths ++ [{ name := graph.get_path_name P, steps := steps }])
      (base ++ [P]) := by
  unfold paths_spell at h ⊢
  exact List.rel_append h (List.Forall₂.cons ⟨rfl, hs⟩ List.Forall₂.nil)

theorem start_path_building (graph : XG) (block_graphs : List graph_t)
    (r : path_position_range_t) (sm : graph_t) (h : extends_blocks block_graphs sm) :
    building graph block_graphs r.base_path sm.paths [] 0 (start_path graph r sm) := by
  refine ⟨rfl, rfl, extends_blocks_of_nodes _ sm _ rfl h, ?_, Nat.zero_le _, ?_⟩
  · left
    exact ⟨rfl, rfl⟩
  · simp [graph_t.spell]

end smoothxg

namespace smoothxg

theorem last_of_path_nil (r : path_position_range_t) : last_of_path r [] = true := rfl

theorem last_of_path_cons (r next : path_position_range_t)
    (rest : List path_position_range_t) :
    last_of_path r (next :: rest) = decide (next.base_path ≠ r.base_path) := rfl

theorem laced_paths_cons_last (r : path_position_range_t)
    (rest : List path_position_range_t) (h : last_of_path r rest = true) :
    laced_paths (r :: rest) = r.base_path :: laced_paths rest := by
  simp [laced_paths, h]

theorem laced_paths_cons_same (r : path_position_range_t)
    (rest : List path_position_range_t) (h : last_of_path r rest = false) :
    laced_paths (r :: rest) = laced_paths rest := by
  simp [laced_paths, h]

theorem embed_paths_spec (graph : XG) (block_graphs : List graph_t)
    (hiii : ∀ block ∈ block_graphs, compact_ids block)
    (rest : List path_position_range_t) :
    ∀ (r : path_position_range_t) (cur : Option lace_state) (sm : graph_t)
      (st0 : lace_state) (finished : List path_t) (steps : List handle_t) (k : Nat)
      (base : List Nat),
      (match cur with
        | some st => st
        | none => start_path graph r sm) = st0 →
      building graph block_graphs r.base_path finished steps k st0 →
      gap_start graph r st0 = { path := r.base_path, rank := k } →
      st0.last_end_pos = graph.get_position_of_step { path := r.base_path, rank := k } →
      st0.last_end_pos ≤ r.start_pos →
      paths_spell graph st0.smoothed finished base →
      (∀ x ∈ r :: rest, coherent graph x ∧ target_spells_range graph block_graphs x
        ∧ target_nonempty block_graphs x) →
      tiled (r :: rest) →
      ∃ final, embed_paths graph block_graphs (pass_A block_graphs).2 (r :: rest) cur sm
          = some final
        ∧ extends_blocks block_graphs final
        ∧ paths_spell graph final final.paths (base ++ laced_paths (r :: rest)) := by
  induction rest with
  | nil =>
    intro r cur sm st0 finished steps k base h0 hb hgs hpos hle hD hrec _
    obtain ⟨hco, hi, hv⟩ := hrec r (List.mem_cons_self _ _)
    obtain ⟨st1, steps1, hrun, hb1, hne1, _, hlep, ⟨extra, hx⟩⟩ :=
      lace_range_spec graph block_graphs r.base_path finished steps k st0 r hb rfl hgs hpos hle
        hco hi hiii hv
    obtain ⟨_, hep, _, _, hepos, _⟩ := hco
    have he := step_eta r.end_step r.base_path hep
    obtain ⟨sm1, steps2, htr, hext, ⟨extra2, hx2⟩, hp2, hs2⟩ :=
      lace_trailing_spec graph block_graphs r.base_path finished steps1 _ st1 r hb1 hne1 rfl he
        (by rw [hlep, hepos, ← he])
    refine ⟨sm1, ?_, hext, ?_⟩
    · rw [embed_paths_next_path graph block_graphs _ r [] cur sm st0 st1 sm1 h0 hrun
        (last_of_path_nil r) htr]
      rfl
    · rw [laced_paths_cons_last r [] (last_of_path_nil r), hp2]
      apply paths_spell_snoc _ _ _ _ _ _ _ hs2
      apply paths_spell_mono graph st0.smoothed sm1 (extra ++ extra2) _ _ _ hD
      rw [hx2, hx, List.append_assoc]
  | cons next rest2 ih =>
    intro r cur sm st0 finished steps k base h0 hb hgs hpos hle hD hrec htiled
    obtain ⟨hco, hi, hv⟩ := hrec r (List.mem_cons_self _ _)
    obtain ⟨st1, steps1, hrun, hb1, hne1, hlpr, hlep, ⟨extra, hx⟩⟩ :=
      lace_range_spec graph block_graphs r.base_path finished steps k st0 r hb rfl hgs hpos hle
        hco hi hiii hv
    obtain ⟨_, hep, _, _, hepos, _⟩ := hco
    have he := step_eta r.end_step r.base_path hep
    have hrec2 : ∀ x ∈ next :: rest2, coherent graph x
        ∧ target_spells_range graph block_graphs x ∧ target_nonempty block_graphs x :=
      fun x hx => hrec x (List.mem_cons_of_mem _ hx)
    have htiled2 : tiled (next :: rest2) := by
      unfold tiled at htiled ⊢
      exact (List.chain'_cons.mp htiled).2
    have hrel : r.base_path < next.base_path
        ∨ (r.base_path = next.base_path ∧ r.end_pos ≤ next.start_pos) := by
      unfold tiled at htiled
      exact (List.chain'_cons.mp htiled).1
    by_cases hn : next.base_path ≠ r.base_path
    · have hlast : last_of_path r (next :: rest2) = true := by
        rw [last_of_path_cons]
        exact decide_eq_true hn
      obtain ⟨sm1, steps2, htr, hext, ⟨extra2, hx2⟩, hp2, hs2⟩ :=
        lace_trailing_spec graph block_graphs r.base_path finished steps1 _ st1 r hb1 hne1 rfl
          he (by rw [hlep, hepos, ← he])
      have hD1 : paths_spell graph sm1 sm1.paths (base ++ [r.base_path]) := by
        rw [hp2]
        apply paths_spell_snoc _ _ _ _ _ _ _ hs2
        apply paths_spell_mono graph st0.smoothed sm1 (extra ++ extra2) _ _ _ hD
        rw [hx2, hx, List.append_assoc]
      obtain ⟨final, hfin, hfext, hfD⟩ := ih next none sm1 (start_path graph next sm1)
        sm1.paths [] 0 (base ++ [r.base_path]) rfl
        (start_path_building graph block_graphs next sm1 hext) rfl
        (by simp [start_path, XG.get_position_of_step]) (Nat.zero_le _)
        (paths_spell_mono graph sm1 _ [] (by simp [start_path, graph_t.create_path_handle])
          _ _ hD1)
        hrec2 htiled2
      refine ⟨final, ?_, hfext, ?_⟩
      · rw [embed_paths_next_path graph block_graphs _ r (next :: rest2) cur sm st0 st1 sm1 h0
          hrun hlast htr, hfin]
      · rw [laced_paths_cons_last r _ hlast]
        simpa using hfD
    · have heq : next.base_path = r.base_path := by
        by_contra hcon
        exact hn hcon
      have hlast : last_of_path r (next :: rest2) = false := by
        rw [last_of_path_cons]
        exact decide_eq_false hn
      have hle2 : r.end_pos ≤ next.start_pos := by
        rcases hrel with hlt | ⟨_, h⟩
        · omega
        · exact h
      obtain ⟨final, hfin, hfext, hfD⟩ := ih next (some st1) st1.smoothed st1
        finished steps1 r.end_step.rank base rfl
        (by rw [heq]; exact hb1)
        (by simp only [gap_start, hlpr, heq]; exact he)
        (by rw [hlep, hepos, heq, ← he])
        (by rw [hlep]; exact hle2)
        (paths_spell_mono graph st0.smoothed _ extra hx _ _ hD)
        hrec2 htiled2
      refine ⟨final, ?_, hfext, ?_⟩
      · rw [embed_paths_same_path graph block_graphs _ r (next :: rest2) cur sm st0 st1 h0 hrun
          hlast, hfin]
      · rw [laced_paths_cons_same r _ hlast]
        exact hfD

end smoothxg

namespace smoothxg

/-! ### What a completed run leaves unchanged -/

theorem link_from_last_frame (sm sm1 : graph_t) (last_step : step_handle_t) (h : handle_t)
    (hrun : link_from_last sm last_step h = some sm1) :
    sm1.nodes = sm.nodes ∧ sm1.paths = sm.paths := by
  unfold link_from_last at hrun
  split at hrun
  · cases hl : sm.get_handle_of_step last_step with
    | none => simp [hl] at hrun
    | some l =>
      simp only [hl, Option.some.injEq] at hrun
      rw [← hrun]
      exact ⟨create_edge_nodes _ _ _, create_edge_paths _ _ _⟩
  · cases hrun
    exact ⟨rfl, rfl⟩

theorem embed_fragment_frame (id_trans smoothed_path : Nat) (last_step : step_handle_t)
    (frag : List handle_t) :
    ∀ (first : Bool) (sm sm1 : graph_t),
      embed_fragment id_trans smoothed_path last_step frag first sm = some sm1 →
      sm1.nodes = sm.nodes
        ∧ sm1.paths.map path_t.name = sm.paths.map path_t.name := by
  induction frag with
  | nil =>
    intro first sm sm1 hrun
    simp only [embed_fragment, Option.some.injEq] at hrun
    rw [← hrun]
    exact ⟨rfl, rfl⟩
  | cons h rest ih =>
    intro first sm sm1 hrun
    simp only [embed_fragment] at hrun
    cases first with
    | false =>
      simp only [Bool.false_eq_true, if_false] at hrun
      obtain ⟨h1, h2⟩ := ih false _ sm1 hrun
      rw [h1, h2, append_step_nodes, append_step_names]
      exact ⟨rfl, rfl⟩
    | true =>
      simp only [if_true] at hrun
      cases hl : link_from_last (sm.append_step smoothed_path
          (sm.get_handle (h.id + id_trans) h.is_reverse)) last_step
          (sm.get_handle (h.id + id_trans) h.is_reverse) with
      | none => simp [hl] at hrun
      | some sm2 =>
        simp only [hl] at hrun
        obtain ⟨h1, h2⟩ := ih false _ sm1 hrun
        obtain ⟨h3, h4⟩ := link_from_last_frame _ _ _ _ hl
        rw [h1, h2, h3, h4, append_step_nodes, append_step_names]
        exact ⟨rfl, rfl⟩

theorem fill_gap_frame (graph : XG) (r : path_position_range_t) (st st1 : lace_state)
    (hrun : fill_gap graph r st = some st1) :
    (∃ seq, collect_sequence graph (gap_start graph r st) r.start_step = some seq
      ∧ st1.smoothed.nodes = st.smoothed.nodes ++ [(st.smoothed.get_node_count + 1, seq)])
    ∧ st1.smoothed.paths.map path_t.name = st.smoothed.paths.map path_t.name
    ∧ st1.smoothed_path = st.smoothed_path := by
  unfold fill_gap at hrun
  cases hc : collect_sequence graph (gap_start graph r st) r.start_step with
  | none =>
    have hc2 : collect_sequence graph
        (match st.last_pos_range with
          | some l => l.end_step
          | none => graph.path_begin r.base_path) r.start_step = none := hc
    simp [hc2] at hrun
  | some seq =>
    have hc2 : collect_sequence graph
        (match st.last_pos_range with
          | some l => l.end_step
          | none => graph.path_begin r.base_path) r.start_step = some seq := hc
    simp only [hc2] at hrun
    cases hl : link_from_last ((st.smoothed.create_handle seq).1.append_step st.smoothed_path
        (st.smoothed.create_handle seq).2) st.last_step (st.smoothed.create_handle seq).2 with
    | none => simp [hl] at hrun
    | some sm3 =>
      simp only [hl, Option.some.injEq] at hrun
      obtain ⟨h3, h4⟩ := link_from_last_frame _ _ _ _ hl
      rw [← hrun]
      refine ⟨⟨seq, rfl, ?_⟩, ?_, rfl⟩
      · simp only [h3, append_step_nodes]
        rfl
      · simp only [h4, append_step_names]
        rfl

theorem lace_range_frame (graph : XG) (block_graphs : List graph_t) (id_mapping : List Nat)
    (r : path_position_range_t) (st st1 : lace_state)
    (hrun : lace_range graph block_graphs id_mapping r st = some st1) :
    st1.smoothed.paths.map path_t.name = st.smoothed.paths.map path_t.name
    ∧ (gap_detected r.start_pos st.last_end_pos = false →
        st1.smoothed.nodes = st.smoothed.nodes)
    ∧ (gap_detected r.start_pos st.last_end_pos = true →
        ∃ seq, collect_sequence graph (gap_start graph r st) r.start_step = some seq
          ∧ st1.smoothed.nodes = st.smoothed.nodes ++ [(st.smoothed.get_node_count + 1, seq)]) := by
  unfold lace_range at hrun
  cases hf : (if gap_detected r.start_pos st.last_end_pos = true
      then fill_gap graph r st else some st) with
  | none => simp [hf] at hrun
  | some st2 =>
    simp only [hf] at hrun
    cases hblk : block_graphs[r.target_graph_id]? with
    | none => simp [hblk] at hrun
    | some block =>
      cases hid : id_mapping[r.target_graph_id]? with
      | none => simp [hblk, hid] at hrun
      | some id_trans =>
        cases hfr : block.path_steps r.target_path with
        | none => simp [hblk, hid, hfr] at hrun
        | some frag =>
          cases hem : embed_fragment id_trans st2.smoothed_path st2.last_step frag true
              st2.smoothed with
          | none => simp [hblk, hid, hfr, hem] at hrun
          | some sm =>
            simp only [hblk, hid, hfr, hem, Option.some.injEq] at hrun
            obtain ⟨hn, hnm⟩ := embed_fragment_frame _ _ _ _ _ _ _ hem
            rw [← hrun]
            simp only [hn, hnm]
            by_cases hg : gap_detected r.start_pos st.last_end_pos = true
            · rw [if_pos hg] at hf
              obtain ⟨hseq, hnames, _⟩ := fill_gap_frame graph r st st2 hf
              refine ⟨hnames, ?_, fun _ => hseq⟩
              intro h
              rw [hg] at h
              cases h
            · rw [if_neg hg] at hf
              cases hf
              exact ⟨rfl, fun _ => rfl, fun h => absurd h hg⟩

theorem lace_trailing_frame (graph : XG) (r : path_position_range_t) (st : lace_state)
    (sm : graph_t) (hrun : lace_trailing graph r st = some sm) :
    sm.paths.map path_t.name = st.smoothed.paths.map path_t.name := by
  unfold lace_trailing at hrun
  split at hrun
  · cases hc : collect_sequence graph r.end_step (graph.path_end r.base_path) with
    | none => simp [hc] at hrun
    | some seq =>
      simp only [hc] at hrun
      cases hl : (st.smoothed.create_handle seq).1.get_handle_of_step st.last_step with
      | none => simp [hl] at hrun
      | some l =>
        simp only [hl, Option.some.injEq] at hrun
        rw [← hrun, append_step_names, create_edge_paths]
        rfl
  · cases hrun
    rfl

end smoothxg

namespace smoothxg

theorem embed_paths_names (graph : XG) (block_graphs : List graph_t) (id_mapping : List Nat)
    (rest : List path_position_range_t) :
    ∀ (r : path_position_range_t) (cur : Option lace_state) (sm : graph_t)
      (st0 : lace_state) (final : graph_t) (names : List String),
      (match cur with
        | some st => st
        | none => start_path graph r sm) = st0 →
      st0.smoothed.paths.map path_t.name = names ++ [graph.get_path_name r.base_path] →
      embed_paths graph block_graphs id_mapping (r :: rest) cur sm = some final →
      final.paths.map path_t.name
        = names ++ (laced_paths (r :: rest)).map graph.get_path_name := by
  induction rest with
  | nil =>
    intro r cur sm st0 final names h0 hnames hrun
    rw [embed_paths_cons, h0] at hrun
    cases h1 : lace_range graph block_graphs id_mapping r st0 with
    | none => simp [h1] at hrun
    | some st1 =>
      simp only [h1, last_of_path_nil, if_true] at hrun
      cases h2 : lace_trailing graph r st1 with
      | none => simp [h2] at hrun
      | some sm1 =>
        simp only [h2] at hrun
        have hfin : sm1 = final := by
          have : embed_paths graph block_graphs id_mapping [] none sm1 = some sm1 := rfl
          rw [this] at hrun
          exact Option.some.inj hrun
        rw [← hfin, lace_trailing_frame graph r st1 sm1 h2,
          (lace_range_frame graph block_graphs id_mapping r st0 st1 h1).1, hnames,
          laced_paths_cons_last r [] (last_of_path_nil r)]
        rfl
  | cons next rest2 ih =>
    intro r cur sm st0 final names h0 hnames hrun
    rw [embed_paths_cons, h0] at hrun
    cases h1 : lace_range graph block_graphs id_mapping r st0 with
    | none => simp [h1] at hrun
    | some st1 =>
      simp only [h1] at hrun
      have hn1 := (lace_range_frame graph block_graphs id_mapping r st0 st1 h1).1
      cases hl : last_of_path r (next :: rest2) with
      | true =>
        simp only [hl, if_true] at hrun
        cases h2 : lace_trailing graph r st1 with
        | none => simp [h2] at hrun
        | some sm1 =>
          simp only [h2] at hrun
          have hn2 := lace_trailing_frame graph r st1 sm1 h2
          have hstart : (start_path graph next sm1).smoothed.paths.map path_t.name
              = (names ++ [graph.get_path_name r.base_path])
                ++ [graph.get_path_name next.base_path] := by
            simp [start_path, graph_t.create_path_handle, hn2, hn1, hnames]
          have := ih next none sm1 _ final _ rfl hstart hrun
          rw [this, laced_paths_cons_last r _ hl]
          simp
      | false =>
        simp only [hl, Bool.false_eq_true, if_false] at hrun
        have heq : next.base_path = r.base_path := by
          rw [last_of_path_cons] at hl
          simpa using hl
        have := ih next (some st1) st1.smoothed st1 final names rfl
          (by rw [hn1, hnames, heq]) hrun
        rw [this, laced_paths_cons_same r _ hl]

theorem mem_laced_paths (rest : List path_position_range_t) :
    ∀ (r : path_position_range_t), ∀ x ∈ r :: rest, x.base_path ∈ laced_paths (r :: rest) := by
  induction rest with
  | nil =>
    intro r x hx
    simp only [List.mem_singleton] at hx
    rw [laced_paths_cons_last r [] (last_of_path_nil r), hx]
    exact List.mem_cons_self _ _
  | cons next rest2 ih =>
    intro r x hx
    cases hl : last_of_path r (next :: rest2) with
    | true =>
      rw [laced_paths_cons_last r _ hl]
      rcases List.mem_cons.mp hx with h | h
      · rw [h]; exact List.mem_cons_self _ _
      · exact List.mem_cons_of_mem _ (ih next x h)
    | false =>
      have heq : next.base_path = r.base_path := by
        rw [last_of_path_cons] at hl
        simpa using hl
      rw [laced_paths_cons_same r _ hl]
      rcases List.mem_cons.mp hx with h | h
      · rw [h, ← heq]; exact ih next next (List.mem_cons_self _ _)
      · exact ih next x h

theorem laced_paths_subset (records : List path_position_range_t) :
    ∀ P ∈ laced_paths records, ∃ x ∈ records, x.base_path = P := by
  induction records with
  | nil =>
    intro P hP
    simp [laced_paths] at hP
  | cons r rest ih =>
    intro P hP
    cases hl : last_of_path r rest with
    | true =>
      rw [laced_paths_cons_last r _ hl] at hP
      rcases List.mem_cons.mp hP with h | h
      · exact ⟨r, List.mem_cons_self _ _, h.symm⟩
      · obtain ⟨x, hx, hxP⟩ := ih P h
        exact ⟨x, List.mem_cons_of_mem _ hx, hxP⟩
    | false =>
      rw [laced_paths_cons_same r _ hl] at hP
      obtain ⟨x, hx, hxP⟩ := ih P hP
      exact ⟨x, List.mem_cons_of_mem _ hx, hxP⟩

theorem tiled_lower (rest : List path_position_range_t) :
    ∀ (r : path_position_range_t), tiled (r :: rest) →
      ∀ x ∈ r :: rest, r.base_path ≤ x.base_path := by
  induction rest with
  | nil =>
    intro r _ x hx
    simp only [List.mem_singleton] at hx
    rw [hx]
  | cons next rest2 ih =>
    intro r ht x hx
    unfold tiled at ht
    obtain ⟨hrel, ht2⟩ := List.chain'_cons.mp ht
    have hle : r.base_path ≤ next.base_path := by
      rcases hrel with h | ⟨h, _⟩ <;> omega
    rcases List.mem_cons.mp hx with h | h
    · rw [h]
    · have := ih next ht2 x h
      omega

theorem laced_paths_sorted (rest : List path_position_range_t) :
    ∀ (r : path_position_range_t), tiled (r :: rest) →
      (laced_paths (r :: rest)).Pairwise (fun a b => a < b) := by
  induction rest with
  | nil =>
    intro r _
    rw [laced_paths_cons_last r [] (last_of_path_nil r)]
    simp [laced_paths]
  | cons next rest2 ih =>
    intro r ht
    have ht1 := ht
    unfold tiled at ht1
    obtain ⟨hrel, ht2⟩ := List.chain'_cons.mp ht1
    cases hl : last_of_path r (next :: rest2) with
    | true =>
      have hne : next.base_path ≠ r.base_path := by
        rw [last_of_path_cons] at hl
        simpa using hl
      have hlt : r.base_path < next.base_path := by
        rcases hrel with h | ⟨h, _⟩
        · exact h
        · exact absurd h.symm hne
      rw [laced_paths_cons_last r _ hl]
      refine List.Pairwise.cons ?_ (ih next ht2)
      intro P hP
      obtain ⟨x, hx, hxP⟩ := laced_paths_subset (next :: rest2) P hP
      have := tiled_lower rest2 next ht2 x hx
      omega
    | false =>
      rw [laced_paths_cons_same r _ hl]
      exact ih next ht2

end smoothxg

namespace smoothxg

/-! ### Round trip of Pass B -/

theorem forall₂_of_mem_right {α β : Type} (R : α → β → Prop) (l1 : List α) (l2 : List β)
    (h : List.Forall₂ R l1 l2) (b : β) (hb : b ∈ l2) : ∃ a ∈ l1, R a b := by
  induction h with
  | nil => cases hb
  | cons hab _ ih =>
    rcases List.mem_cons.mp hb with h | h
    · subst h
      exact ⟨_, List.mem_cons_self _ _, hab⟩
    · obtain ⟨a, ha, hr⟩ := ih h
      exact ⟨a, List.mem_cons_of_mem _ ha, hr⟩

theorem pass_B_spec (graph : XG) (block_graphs : List graph_t)
    (records : List path_position_range_t)
    (h_i : ∀ r ∈ records, target_spells_range graph block_graphs r)
    (h_ii : tiled records)
    (h_iii : ∀ block ∈ block_graphs, compact_ids block)
    (h_iv : ∀ r ∈ records, coherent graph r)
    (h_v : ∀ r ∈ records, target_nonempty block_graphs r) :
    ∃ sm, pass_B graph block_graphs (pass_A block_graphs).2 records (pass_A block_graphs).1
        = some sm
      ∧ extends_blocks block_graphs sm
      ∧ paths_spell graph sm sm.paths (laced_paths records) := by
  cases records with
  | nil =>
    refine ⟨(pass_A block_graphs).1, rfl, pass_A_extends _, ?_⟩
    rw [pass_A_paths]
    exact List.Forall₂.nil
  | cons r rest =>
    have hstart := start_path_building graph block_graphs r (pass_A block_graphs).1
      (pass_A_extends _)
    rw [pass_A_paths] at hstart
    obtain ⟨final, hfin, hext, hsp⟩ := embed_paths_spec graph block_graphs h_iii rest r none
      (pass_A block_graphs).1 _ [] [] 0 [] rfl hstart rfl
      (by simp [start_path, XG.get_position_of_step]) (Nat.zero_le _) List.Forall₂.nil
      (fun x hx => ⟨h_iv x hx, h_i x hx, h_v x hx⟩) h_ii
    exact ⟨final, hfin, hext, by simpa using hsp⟩

/-- C1: round trip of the lacing loop. For records, sorted as Pass B receives
them, such that (i) every target path spells the base sequence of the record's
step range, (ii) consecutive records of a base path do not overlap, (iii) block
node ids are `1..n`, and that are records as the driver builds them, which
means that (iv) the position fields of every record are the offsets of its
steps on its base path (lines 376-382, `range_record_coherent`) and (v) every
target path has a step, as every sequence path that `build_odgi` creates has
(`build_odgi_path_nonempty`): Pass B completes, its paths are in order those of
the base paths of the records, and the path built for a base path spells the
sequence of that base path. -/
theorem lacing_round_trip (graph : XG) (block_graphs : List graph_t)
    (records : List path_position_range_t)
    (h_i : ∀ r ∈ records, target_spells_range graph block_graphs r)
    (h_ii : tiled records)
    (h_iii : ∀ block ∈ block_graphs, compact_ids block)
    (h_iv : ∀ r ∈ records, coherent graph r)
    (h_v : ∀ r ∈ records, target_nonempty block_graphs r) :
    ∃ sm, pass_B graph block_graphs (pass_A block_graphs).2 records (pass_A block_graphs).1
        = some sm
      ∧ paths_spell graph sm sm.paths (laced_paths records)
      ∧ ∀ r ∈ records, ∃ q ∈ sm.paths, q.name = graph.get_path_name r.base_path
          ∧ sm.spell q.steps = some (graph.path_sequence r.base_path) := by
  obtain ⟨sm, hrun, _, hsp⟩ := pass_B_spec graph block_graphs records h_i h_ii h_iii h_iv h_v
  refine ⟨sm, hrun, hsp, ?_⟩
  intro r hr
  cases records with
  | nil => cases hr
  | cons r0 rest =>
    exact forall₂_of_mem_right _ _ _ hsp r.base_path (mem_laced_paths rest r0 r hr)

/-- The statement of `lacing_round_trip` on the seed example: it satisfies the
five conditions and is laced into a path that spells the 30 bases of the base
path. -/
theorem lacing_round_trip_witness :
    (∀ r ∈ [seed_record0, seed_record1], target_spells_range seed_graph seed_blocks r)
    ∧ tiled [seed_record0, seed_record1]
    ∧ (∀ block ∈ seed_blocks, compact_ids block)
    ∧ (∀ r ∈ [seed_record0, seed_record1], coherent seed_graph r)
    ∧ (∀ r ∈ [seed_record0, seed_record1], target_nonempty seed_blocks r)
    ∧ ∃ sm, pass_B seed_graph seed_blocks (pass_A seed_blocks).2 [seed_record0, seed_record1]
          (pass_A seed_blocks).1 = some sm
        ∧ paths_spell seed_graph sm sm.paths (laced_paths [seed_record0, seed_record1])
        ∧ ∀ r ∈ [seed_record0, seed_record1], ∃ q ∈ sm.paths,
            q.name = seed_graph.get_path_name r.base_path
            ∧ sm.spell q.steps = some (seed_graph.path_sequence r.base_path) :=
  ⟨by decide, by simp [tiled, seed_record0, seed_record1], by decide, by decide, by decide,
    lacing_round_trip seed_graph seed_blocks [seed_record0, seed_record1]
      (by decide) (by simp [tiled, seed_record0, seed_record1]) (by decide) (by decide)
      (by decide)⟩

end smoothxg

namespace smoothxg

theorem pass_B_names (graph : XG) (block_graphs : List graph_t)
    (records : List path_position_range_t) (final : graph_t)
    (hrun : pass_B graph block_graphs (pass_A block_graphs).2 records (pass_A block_graphs).1
      = some final) :
    final.paths.map path_t.name = (laced_paths records).map graph.get_path_name := by
  cases records with
  | nil =>
    have : final = (pass_A block_graphs).1 := (Option.some.inj hrun).symm
    rw [this, pass_A_paths]
    rfl
  | cons r rest =>
    have h := embed_paths_names graph block_graphs (pass_A block_graphs).2 rest r none
      (pass_A block_graphs).1 _ final [] rfl
      (by simp [start_path, graph_t.create_path_handle, pass_A_paths]) hrun
    simpa using h

/-- C2 (amended): under the conditions of the round trip, Pass B completes and
the paths of the assembled graph are, in order, the base paths that have at
least one record: each such base path gives exactly one path, named after it,
and a base path without a record gives none. -/
theorem assembled_paths_of_records (graph : XG) (block_graphs : List graph_t)
    (records : List path_position_range_t)
    (h_i : ∀ r ∈ records, target_spells_range graph block_graphs r)
    (h_ii : tiled records)
    (h_iii : ∀ block ∈ block_graphs, compact_ids block)
    (h_iv : ∀ r ∈ records, coherent graph r)
    (h_v : ∀ r ∈ records, target_nonempty block_graphs r) :
    ∃ sm, pass_B graph block_graphs (pass_A block_graphs).2 records (pass_A block_graphs).1
        = some sm
      ∧ sm.paths.map path_t.name = (laced_paths records).map graph.get_path_name
      ∧ (laced_paths records).Nodup
      ∧ ∀ P, P ∈ laced_paths records ↔ ∃ r ∈ records, r.base_path = P := by
  obtain ⟨sm, hrun, _, _⟩ := pass_B_spec graph block_graphs records h_i h_ii h_iii h_iv h_v
  refine ⟨sm, hrun, pass_B_names graph block_graphs records sm hrun, ?_, ?_⟩
  · cases records with
    | nil => simp [laced_paths]
    | cons r rest =>
      exact (laced_paths_sorted rest r h_ii).imp (fun h => Nat.ne_of_lt h)
  · intro P
    constructor
    · exact laced_paths_subset records P
    · rintro ⟨x, hx, hxP⟩
      cases records with
      | nil => cases hx
      | cons r rest =>
        rw [← hxP]
        exact mem_laced_paths rest r x hx

/-- C2 witness: the seed example yields the single path `p`. -/
theorem assembled_paths_of_records_witness :
    ∃ sm, pass_B seed_graph seed_blocks (pass_A seed_blocks).2 [seed_record0, seed_record1]
        (pass_A seed_blocks).1 = some sm
      ∧ sm.paths.map path_t.name
          = (laced_paths [seed_record0, seed_record1]).map seed_graph.get_path_name
      ∧ (laced_paths [seed_record0, seed_record1]).Nodup
      ∧ ∀ P, P ∈ laced_paths [seed_record0, seed_record1]
          ↔ ∃ r ∈ [seed_record0, seed_record1], r.base_path = P :=
  assembled_paths_of_records seed_graph seed_blocks [seed_record0, seed_record1]
    (by decide) (by simp [tiled, seed_record0, seed_record1]) (by decide) (by decide)
    (by decide)

/-- C2 counterexample: the base graph has the paths `p` and `q`, the records
cover only `p`, and the assembled graph has the single path `p`. -/
theorem assembled_paths_counterexample :
    (pass_B two_path_graph seed_blocks (pass_A seed_blocks).2 [seed_record0, seed_record1]
        (pass_A seed_blocks).1).map (fun sm => sm.paths.map path_t.name) = some ["p"]
    ∧ two_path_graph.paths.map XGPath.name = ["p", "q"] := by
  refine ⟨by decide, by decide⟩

end smoothxg

namespace smoothxg

/-! ### Gap filling and trailing sequence -/

/-- C3: the gap branch of Pass B. When the extraction loop from the end step
of the previous record (or from the begin of the path) to the start step of the
record yields `seq`, the branch creates exactly one node, with the next free id
and the sequence `seq`, appends it as one step to the path being built, and
creates the edge from the last step of the path when the path has a step, and
no edge when it has none. An iteration that detects a gap adds this node and
no other. -/
theorem gap_filling (graph : XG) (finished : List path_t) (nm : String)
    (steps : List handle_t) (st : lace_state) (r : path_position_range_t) (seq : Sequence)
    (hp : st.smoothed.paths = finished ++ [{ name := nm, steps := steps }])
    (hh : st.smoothed_path = finished.length + 1)
    (hl : last_step_ok finished.length steps st.last_step)
    (hc : collect_sequence graph (gap_start graph r st) r.start_step = some seq) :
    ∃ st1, fill_gap graph r st = some st1
      ∧ st1.smoothed.nodes = st.smoothed.nodes ++ [(st.smoothed.get_node_count + 1, seq)]
      ∧ st1.smoothed.paths = finished ++ [{ name := nm, steps := steps ++
          [{ id := st.smoothed.get_node_count + 1, is_reverse := false }] }]
      ∧ st1.smoothed.edges = (link_edge st.smoothed steps.getLast?
          { id := st.smoothed.get_node_count + 1, is_reverse := false }).edges
      ∧ (steps = [] → st1.smoothed.edges = st.smoothed.edges)
      ∧ (∀ prev, steps.getLast? = some prev →
          (prev, { id := st.smoothed.get_node_count + 1, is_reverse := false })
            ∈ st1.smoothed.edges)
      ∧ (∀ (block_graphs : List graph_t) (id_mapping : List Nat) (st2 : lace_state),
          gap_detected r.start_pos st.last_end_pos = true →
          lace_range graph block_graphs id_mapping r st = some st2 →
          st2.smoothed.nodes = st.smoothed.nodes ++ [(st.smoothed.get_node_count + 1, seq)]) := by
  have hspec := fill_gap_spec graph finished nm steps st r seq hp hh hl hc
  have hedges : (link_edge
      { nodes := st.smoothed.nodes ++ [(st.smoothed.nodes.length + 1, seq)]
        edges := st.smoothed.edges
        paths := finished ++ [{ name := nm, steps := steps ++
          [{ id := st.smoothed.nodes.length + 1, is_reverse := false }] }] }
      steps.getLast? { id := st.smoothed.nodes.length + 1, is_reverse := false }).edges
      = (link_edge st.smoothed steps.getLast?
          { id := st.smoothed.nodes.length + 1, is_reverse := false }).edges := by
    cases steps.getLast? with
    | none => rfl
    | some l =>
      simp only [link_edge, graph_t.create_edge]
      split <;> rfl
  refine ⟨_, hspec, ?_, ?_, ?_, ?_, ?_, ?_⟩
  · simp only [link_edge_nodes, graph_t.get_node_count]
  · simp only [link_edge_paths, graph_t.get_node_count]
  · exact hedges
  · intro hs
    rw [hedges, hs]
    rfl
  · intro prev hprev
    simp only [graph_t.get_node_count]
    rw [hedges, hprev]
    exact create_edge_edges_mem _ _ _
  · intro block_graphs id_mapping st2 hg hrun
    obtain ⟨seq2, hc2, hn⟩ :=
      (lace_range_frame graph block_graphs id_mapping r st st2 hrun).2.2 hg
    rw [hc] at hc2
    rw [hn, Option.some.inj hc2]

/-- C3 witness: in the seed example (a 30-base path, blocks of 10 and 15 bases)
the state after the first record is `seed_state`; the gap branch for the second
record creates node 4 holding the 5 uncovered bases, and Pass B ends with that
single connector node after the three block nodes. -/
theorem gap_filling_witness :
    lace_range seed_graph seed_blocks (pass_A seed_blocks).2 seed_record0
        (start_path seed_graph seed_record0 (pass_A seed_blocks).1) = some seed_state
    ∧ gap_detected seed_record1.start_pos seed_state.last_end_pos = true
    ∧ (pass_B seed_graph seed_blocks (pass_A seed_blocks).2 [seed_record0, seed_record1]
        (pass_A seed_blocks).1).map (fun sm => sm.nodes.drop 3) = some [(4, ['G','G','G','G','G'])]
    ∧ ∃ st1, fill_gap seed_graph seed_record1 seed_state = some st1
      ∧ st1.smoothed.nodes = seed_state.smoothed.nodes ++ [(4, ['G','G','G','G','G'])] :=
  ⟨by decide, by decide, by decide,
    (gap_filling seed_graph [] "p"
      [{ id := 1, is_reverse := false }, { id := 2, is_reverse := false }] seed_state
      seed_record1 ['G','G','G','G','G'] rfl rfl (Or.inr ⟨by simp, rfl⟩) (by decide)).imp
      (fun _ h => ⟨h.1, h.2.1⟩)⟩

theorem lace_trailing_nodes (graph : XG) (r : path_position_range_t) (st : lace_state)
    (sm : graph_t) (hrun : lace_trailing graph r st = some sm)
    (hlen : graph.get_path_length r.base_path > st.last_end_pos) :
    ∃ seq, collect_sequence graph r.end_step (graph.path_end r.base_path) = some seq
      ∧ sm.nodes = st.smoothed.nodes ++ [(st.smoothed.get_node_count + 1, seq)] := by
  unfold lace_trailing at hrun
  rw [if_pos hlen] at hrun
  cases hc : collect_sequence graph r.end_step (graph.path_end r.base_path) with
  | none => simp [hc] at hrun
  | some seq =>
    simp only [hc] at hrun
    cases hl : (st.smoothed.create_handle seq).1.get_handle_of_step st.last_step with
    | none => simp [hl] at hrun
    | some l =>
      simp only [hl, Option.some.injEq] at hrun
      refine ⟨seq, rfl, ?_⟩
      rw [← hrun, append_step_nodes, create_edge_nodes]
      rfl

/-- C5: the trailing sequence. After the last record `r` of a base path, with
`last_end_pos` equal to `r.end_pos`: when the path length is not greater than
`end_pos` the assembled graph is left unchanged; when it is greater, the
sequence from `r.end_step` to the path end becomes one new node, an edge is
created from the last step of the assembled path to it, and it is appended to
the path. A completed run appends the node exactly when the path length is
greater than `end_pos`. -/
theorem trailing_sequence (graph : XG) (finished : List path_t) (nm : String)
    (steps : List handle_t) (st : lace_state) (r : path_position_range_t)
    (hp : st.smoothed.paths = finished ++ [{ name := nm, steps := steps }])
    (hh : st.smoothed_path = finished.length + 1)
    (hlast : st.last_end_pos = r.end_pos) :
    (¬ graph.get_path_length r.base_path > r.end_pos →
        lace_trailing graph r st = some st.smoothed)
    ∧ (graph.get_path_length r.base_path > r.end_pos →
        ∀ seq prev,
          collect_sequence graph r.end_step (graph.path_end r.base_path) = some seq →
          steps.getLast? = some prev →
          st.last_step = st.smoothed.path_back st.smoothed_path →
          lace_trailing graph r st = some
            { nodes := st.smoothed.nodes ++ [(st.smoothed.get_node_count + 1, seq)]
              edges := (st.smoothed.create_edge prev
                { id := st.smoothed.get_node_count + 1, is_reverse := false }).edges
              paths := finished ++ [{ name := nm, steps := steps ++
                [{ id := st.smoothed.get_node_count + 1, is_reverse := false }] }] })
    ∧ (∀ sm, lace_trailing graph r st = some sm →
        (graph.get_path_length r.base_path > r.end_pos
          ↔ sm.get_node_count = st.smoothed.get_node_count + 1)) := by
  refine ⟨?_, ?_, ?_⟩
  · intro hle
    unfold lace_trailing
    rw [hlast, if_neg hle]
  · intro hlen seq prev hc hprev hls
    have hne : steps ≠ [] := by
      intro h
      rw [h] at hprev
      cases hprev
    have hget : st.smoothed.get_handle_of_step st.last_step = some prev := by
      rw [hls, hh, path_back_last _ finished nm steps hp hne,
        get_handle_of_step_last _ finished nm steps hp, getElem?_length_sub_one, hprev]
    exact lace_trailing_eq graph finished nm steps st r seq prev hp hh hget
      (by rw [hlast]; exact hlen) hc
  · intro sm hrun
    constructor
    · intro hlen
      obtain ⟨seq, _, hn⟩ := lace_trailing_nodes graph r st sm hrun (by rw [hlast]; exact hlen)
      simp [graph_t.get_node_count, hn]
    · intro hcount
      by_contra hle
      have : lace_trailing graph r st = some st.smoothed := by
        unfold lace_trailing
        rw [hlast, if_neg hle]
      rw [this] at hrun
      have heq : st.smoothed = sm := Option.some.inj hrun
      rw [← heq] at hcount
      omega

/-- C5 witness: when only the first block of the seed example is laced, the 20
bases after it become one trailing node, linked from node 2. -/
theorem trailing_sequence_witness :
    seed_graph.get_path_length seed_record0.base_path > seed_record0.end_pos
    ∧ lace_trailing seed_graph seed_record0 seed_state = some
        { nodes := seed_state.smoothed.nodes ++
            [(4, ['G','G','G','G','G','T','T','T','T','T','C','C','C','C','C',
                  'A','A','A','A','A'])]
          edges := seed_state.smoothed.edges ++
            [({ id := 2, is_reverse := false }, { id := 4, is_reverse := false })]
          paths := [{ name := "p", steps := [{ id := 1, is_reverse := false },
            { id := 2, is_reverse := false }, { id := 4, is_reverse := false }] }] } :=
  ⟨by decide,
    (trailing_sequence seed_graph [] "p"
      [{ id := 1, is_reverse := false }, { id := 2, is_reverse := false }] seed_state
      seed_record0 rfl rfl rfl).2.1 (by decide) _ { id := 2, is_reverse := false }
      (by decide) rfl (by decide)⟩

end smoothxg

namespace smoothxg

/-! ### The block smoother -/

theorem collect_sequence_self (graph : XG) (s : step_handle_t) :
    collect_sequence graph s s = some [] := by
  simp [collect_sequence, collect_sequence_fuel]

theorem collect_block_sequences_empty (graph : XG) (ranges : List path_range_t)
    (h : ∀ pr ∈ ranges, pr.begin = pr.end_
      ∨ collect_sequence graph pr.begin pr.end_ = some []) :
    ∃ seqs, collect_block_sequences graph ranges = some seqs ∧ ∀ s ∈ seqs, s = [] := by
  induction ranges with
  | nil => exact ⟨[], rfl, by simp⟩
  | cons pr rest ih =>
    obtain ⟨seqs, hs, hall⟩ := ih (fun x hx => h x (List.mem_cons_of_mem _ hx))
    have hpr : collect_sequence graph pr.begin pr.end_ = some [] := by
      rcases h pr (List.mem_cons_self _ _) with h1 | h1
      · rw [h1]; exact collect_sequence_self graph _
      · exact h1
    refine ⟨[] :: seqs, ?_, ?_⟩
    · simp [collect_block_sequences, hpr, hs]
    · intro s hs2
      rcases List.mem_cons.mp hs2 with h1 | h1
      · exact h1
      · exact hall s h1

theorem foldl_max_empty (seqs : List Sequence) (m : Nat) (h : ∀ s ∈ seqs, s = []) :
    seqs.foldl (fun m seq => max m seq.length) m = m := by
  induction seqs generalizing m with
  | nil => rfl
  | cons s rest ih =>
    have hs : s = [] := h s (List.mem_cons_self _ _)
    rw [List.foldl_cons, hs]
    simp only [List.length_nil, Nat.max_zero]
    exact ih m (fun x hx => h x (List.mem_cons_of_mem _ hx))

/-- C8: degenerate block. When every range of the block has `begin == end`, or
more generally yields the empty sequence (a block without ranges included),
`smooth` returns the freshly constructed graph, with no node, no edge and no
path, without having made any request to the alignment library; the end of
`smooth_abPOA` returns the same empty graph. -/
theorem degenerate_block_smooth (lib : poa_library) (graph : XG) (block : block_t)
    (consensus_name : String)
    (h : ∀ pr ∈ block.path_ranges, pr.begin = pr.end_
      ∨ collect_sequence graph pr.begin pr.end_ = some []) :
    (smooth lib graph block consensus_name).output = some graph_t.empty
    ∧ (smooth lib graph block consensus_name).calls = []
    ∧ graph_t.empty.get_node_count = 0
    ∧ graph_t.empty.edges = []
    ∧ graph_t.empty.paths = []
    ∧ ∀ seqs_, smooth_abPOA_output seqs_ = graph_t.empty := by
  obtain ⟨seqs, hs, hall⟩ := collect_block_sequences_empty graph block.path_ranges h
  have hmax : max_sequence_size seqs = 0 := foldl_max_empty seqs 0 hall
  refine ⟨?_, ?_, rfl, rfl, rfl, ?_⟩
  · simp [smooth, hs, hmax]
  · simp [smooth, hs, hmax]
  · intro seqs_
    unfold smooth_abPOA_output
    split <;> rfl

end smoothxg

namespace smoothxg

theorem align_sequences_cons (lib : poa_library) (seq : Sequence) (rest : List Sequence)
    (st : align_state) :
    align_sequences lib (seq :: rest) st =
      match lib.add_alignment st.poa (chosen_commit lib seq st.poa).1
          (chosen_commit lib seq st.poa).2.1 with
      | some g =>
        align_sequences lib rest
          { poa := g
            aln_is_reverse := st.aln_is_reverse ++ [(chosen_commit lib seq st.poa).2.2]
            calls := st.calls ++ [engine_call.align seq,
              engine_call.align (reverse_complement seq),
              engine_call.add_alignment (chosen_commit lib seq st.poa).2.1]
            aborted := false }
      | none =>
        { poa := st.poa
          aln_is_reverse := st.aln_is_reverse
          calls := st.calls ++ [engine_call.align seq,
            engine_call.align (reverse_complement seq),
            engine_call.add_alignment (chosen_commit lib seq st.poa).2.1]
          aborted := true } := by
  by_cases h : (lib.align seq st.poa).2 ≥ (lib.align (reverse_complement seq) st.poa).2
  · simp only [align_sequences, chosen_commit, if_pos h, List.append_assoc, List.cons_append,
      List.nil_append]
  · simp only [align_sequences, chosen_commit, if_neg h, List.append_assoc, List.cons_append,
      List.nil_append]

theorem chosen_commit_flag (lib : poa_library) (seq : Sequence) (g : poa_graph) :
    (chosen_commit lib seq g).2.2
      = decide ((lib.align (reverse_complement seq) g).2 > (lib.align seq g).2) := by
  unfold chosen_commit
  by_cases h : (lib.align seq g).2 ≥ (lib.align (reverse_complement seq) g).2
  · rw [if_pos h]
    simp only [gt_iff_lt]
    exact (decide_eq_false (by omega)).symm
  · rw [if_neg h]
    simp only [gt_iff_lt]
    exact (decide_eq_true (by omega)).symm

theorem chosen_commit_sequence (lib : poa_library) (seq : Sequence) (g : poa_graph) :
    (chosen_commit lib seq g).2.1
      = (if (lib.align (reverse_complement seq) g).2 > (lib.align seq g).2
         then reverse_complement seq else seq)
    ∧ (chosen_commit lib seq g).1
      = (if (lib.align (reverse_complement seq) g).2 > (lib.align seq g).2
         then (lib.align (reverse_complement seq) g).1 else (lib.align seq g).1) := by
  unfold chosen_commit
  by_cases h : (lib.align seq g).2 ≥ (lib.align (reverse_complement seq) g).2
  · have h2 : ¬ (lib.align (reverse_complement seq) g).2 > (lib.align seq g).2 := by omega
    rw [if_pos h, if_neg h2, if_neg h2]
    exact ⟨rfl, rfl⟩
  · have h2 : (lib.align (reverse_complement seq) g).2 > (lib.align seq g).2 := by omega
    rw [if_neg h, if_pos h2, if_pos h2]
    exact ⟨rfl, rfl⟩

theorem align_sequences_trace (lib : poa_library) (seqs : List Sequence) :
    ∀ st : align_state, (align_sequences lib seqs st).aborted = false →
      ∃ (flags : List Bool) (gs : List poa_graph),
        (align_sequences lib seqs st).aln_is_reverse = st.aln_is_reverse ++ flags
        ∧ flags.length = seqs.length
        ∧ gs.length = seqs.length + 1
        ∧ gs[0]? = some st.poa
        ∧ gs[seqs.length]? = some (align_sequences lib seqs st).poa
        ∧ ∀ i seq g, seqs[i]? = some seq → gs[i]? = some g →
            flags[i]? = some (decide ((lib.align (reverse_complement seq) g).2
              > (lib.align seq g).2))
            ∧ lib.add_alignment g (chosen_commit lib seq g).1 (chosen_commit lib seq g).2.1
              = gs[i + 1]? := by
  induction seqs with
  | nil =>
    intro st _
    refine ⟨[], [st.poa], by simp [align_sequences], rfl, rfl, by simp,
      by simp [align_sequences], ?_⟩
    intro i seq g hi
    simp at hi
  | cons seq rest ih =>
    intro st hab
    rw [align_sequences_cons] at hab ⊢
    cases hadd : lib.add_alignment st.poa (chosen_commit lib seq st.poa).1
        (chosen_commit lib seq st.poa).2.1 with
    | none => simp [hadd] at hab
    | some g1 =>
      simp only [hadd] at hab ⊢
      obtain ⟨flags, gs, hf, hfl, hgl, hg0, hgn, hall⟩ := ih _ hab
      refine ⟨(chosen_commit lib seq st.poa).2.2 :: flags, st.poa :: gs, ?_, ?_, ?_,
        by simp, ?_, ?_⟩
      · rw [hf]
        simp
      · simp [hfl]
      · simp [hgl]
      · simpa using hgn
      · intro i s g hs hg
        cases i with
        | zero =>
          simp only [List.getElem?_cons_zero, Option.some.injEq] at hs hg
          subst hs
          subst hg
          refine ⟨?_, ?_⟩
          · simp only [List.getElem?_cons_zero, chosen_commit_flag]
          · simp only [List.getElem?_cons_succ, hadd]
            exact hg0.symm
        | succ j =>
          simp only [List.getElem?_cons_succ] at hs hg ⊢
          exact hall j s g hs hg

/-- C9: orientation selection in `smooth`. When the alignment loop completes
(no commit is rejected), it has pushed exactly one flag per input sequence, in
input order; with `g` the alignment graph a sequence meets, `f` its forward
score and `r` the score of its reverse complement against `g`, its flag is
`true` (reverse) exactly when `r > f`, and the commit made is the alignment and
the text of the reverse complement when `r > f`, of the sequence as given when
`f >= r` (ties included). -/
theorem orientation_selection (lib : poa_library) (seqs : List Sequence) (st : align_state)
    (hab : (align_sequences lib seqs st).aborted = false) :
    ∃ (flags : List Bool) (gs : List poa_graph),
      (align_sequences lib seqs st).aln_is_reverse = st.aln_is_reverse ++ flags
      ∧ flags.length = seqs.length
      ∧ gs.length = seqs.length + 1
      ∧ gs[0]? = some st.poa
      ∧ gs[seqs.length]? = some (align_sequences lib seqs st).poa
      ∧ ∀ i seq g, seqs[i]? = some seq → gs[i]? = some g →
          flags[i]? = some (decide ((lib.align (reverse_complement seq) g).2
            > (lib.align seq g).2))
          ∧ lib.add_alignment g
              (if (lib.align (reverse_complement seq) g).2 > (lib.align seq g).2
                then (lib.align (reverse_complement seq) g).1 else (lib.align seq g).1)
              (if (lib.align (reverse_complement seq) g).2 > (lib.align seq g).2
                then reverse_complement seq else seq)
            = gs[i + 1]? := by
  obtain ⟨flags, gs, h1, h2, h3, h4, h5, h6⟩ := align_sequences_trace lib seqs st hab
  refine ⟨flags, gs, h1, h2, h3, h4, h5, ?_⟩
  intro i seq g hs hg
  obtain ⟨ha, hb⟩ := h6 i seq g hs hg
  rw [(chosen_commit_sequence lib seq g).1, (chosen_commit_sequence lib seq g).2] at hb
  exact ⟨ha, hb⟩

end smoothxg

namespace smoothxg

/-- C9 witness: with the example library, `TTG` scores 0 forward and 2 as
`CAA`, and is committed reversed; `AAT` scores 2 forward and 1 reversed, and is
committed as given. -/
theorem orientation_selection_witness :
    (align_sequences example_library [['T','T','G'], ['A','A','T']]
        (initial_align_state example_library)).aborted = false
    ∧ (align_sequences example_library [['T','T','G'], ['A','A','T']]
        (initial_align_state example_library)).aln_is_reverse = [true, false]
    ∧ ∃ (flags : List Bool) (gs : List poa_graph),
      (align_sequences example_library [['T','T','G'], ['A','A','T']]
          (initial_align_state example_library)).aln_is_reverse
        = (initial_align_state example_library).aln_is_reverse ++ flags
      ∧ flags.length = [['T','T','G'], ['A','A','T']].length
      ∧ gs.length = [['T','T','G'], ['A','A','T']].length + 1 :=
  ⟨by decide, by decide,
    (orientation_selection example_library [['T','T','G'], ['A','A','T']]
      (initial_align_state example_library) (by decide)).imp
      (fun _ h => h.imp (fun _ h2 => ⟨h2.1, h2.2.1, h2.2.2.1⟩))⟩

theorem align_sequences_append (lib : poa_library) (pre : List Sequence) :
    ∀ (rest : List Sequence) (st : align_state),
      (align_sequences lib pre st).aborted = false →
      align_sequences lib (pre ++ rest) st
        = align_sequences lib rest (align_sequences lib pre st) := by
  induction pre with
  | nil =>
    intro rest st _
    rfl
  | cons seq more ih =>
    intro rest st hab
    rw [List.cons_append, align_sequences_cons]
    rw [align_sequences_cons] at hab ⊢
    cases hadd : lib.add_alignment st.poa (chosen_commit lib seq st.poa).1
        (chosen_commit lib seq st.poa).2.1 with
    | none => simp [hadd] at hab
    | some g1 =>
      simp only [hadd] at hab ⊢
      exact ih rest _ hab

/-- C15: a rejected commit is fatal. When the sequences before `seq` are
committed and `add_alignment` rejects the commit chosen for `seq`, the
alignment loop stops in `assert(false)`: its last request is that
`add_alignment`, nothing is requested for the sequences after `seq`, and
`smooth` returns no block subgraph. -/
theorem alignment_failure_fatal (lib : poa_library) (pre : List Sequence) (seq : Sequence)
    (rest : List Sequence) (st : align_state)
    (hpre : (align_sequences lib pre st).aborted = false)
    (hrej : lib.add_alignment (align_sequences lib pre st).poa
      (chosen_commit lib seq (align_sequences lib pre st).poa).1
      (chosen_commit lib seq (align_sequences lib pre st).poa).2.1 = none) :
    (align_sequences lib (pre ++ seq :: rest) st).aborted = true
    ∧ (align_sequences lib (pre ++ seq :: rest) st).calls
        = (align_sequences lib pre st).calls ++ [engine_call.align seq,
            engine_call.align (reverse_complement seq),
            engine_call.add_alignment
              (chosen_commit lib seq (align_sequences lib pre st).poa).2.1]
    ∧ (align_sequences lib (pre ++ seq :: rest) st)
        = (align_sequences lib (pre ++ [seq]) st)
    ∧ ∀ (graph : XG) (block : block_t) (consensus_name : String),
        st = initial_align_state lib →
        collect_block_sequences graph block.path_ranges = some (pre ++ seq :: rest) →
        max_sequence_size (pre ++ seq :: rest) ≠ 0 →
        (smooth lib graph block consensus_name).output = none
        ∧ (smooth lib graph block consensus_name).calls
            = (align_sequences lib (pre ++ seq :: rest) st).calls := by
  have h1 : align_sequences lib (pre ++ seq :: rest) st
      = { poa := (align_sequences lib pre st).poa
          aln_is_reverse := (align_sequences lib pre st).aln_is_reverse
          calls := (align_sequences lib pre st).calls ++ [engine_call.align seq,
            engine_call.align (reverse_complement seq),
            engine_call.add_alignment
              (chosen_commit lib seq (align_sequences lib pre st).poa).2.1]
          aborted := true } := by
    rw [align_sequences_append lib pre _ st hpre, align_sequences_cons]
    simp only [hrej]
  have h2 : align_sequences lib (pre ++ [seq]) st
      = { poa := (align_sequences lib pre st).poa
          aln_is_reverse := (align_sequences lib pre st).aln_is_reverse
          calls := (align_sequences lib pre st).calls ++ [engine_call.align seq,
            engine_call.align (reverse_complement seq),
            engine_call.add_alignment
              (chosen_commit lib seq (align_sequences lib pre st).poa).2.1]
          aborted := true } := by
    rw [align_sequences_append lib pre _ st hpre, align_sequences_cons]
    simp only [hrej]
  refine ⟨by rw [h1], by rw [h1], by rw [h1, h2], ?_⟩
  intro graph block consensus_name hst hcol hmax
  have hab : (align_sequences lib (pre ++ seq :: rest) (initial_align_state lib)).aborted
      = true := by
    rw [← hst, h1]
  unfold smooth
  simp only [hcol, if_neg hmax]
  have hinit : (⟨lib.createGraph, [], [], false⟩ : align_state)
      = initial_align_state lib := rfl
  rw [hinit]
  simp only [hab, if_true]
  rw [hst]
  exact ⟨trivial, rfl⟩

/-- C15 witness: with the example library, the second of three sequences
contains `N` and is rejected; the loop stops after six requests and `smooth`
would return no graph. -/
theorem alignment_failure_fatal_witness :
    (align_sequences example_library ([['A','C']] ++ ['A','N'] :: [['G','T']])
        (initial_align_state example_library)).aborted = true
    ∧ (align_sequences example_library ([['A','C']] ++ ['A','N'] :: [['G','T']])
        (initial_align_state example_library)).calls.length = 6 :=
  ⟨(alignment_failure_fatal example_library [['A','C']] ['A','N'] [['G','T']]
      (initial_align_state example_library) (by decide) (by decide)).1,
    by decide⟩

end smoothxg

namespace smoothxg

/-- C8 witness: a block whose only range is empty (`begin == end`) is smoothed
into the empty graph without any request to the library. -/
theorem degenerate_block_smooth_witness :
    (smooth example_library seed_graph
        { path_ranges := [{ begin := { path := 1, rank := 1 },
                            end_ := { path := 1, rank := 1 } }] } "Consensus_0").output
      = some graph_t.empty
    ∧ (smooth example_library seed_graph
        { path_ranges := [{ begin := { path := 1, rank := 1 },
                            end_ := { path := 1, rank := 1 } }] } "Consensus_0").calls = [] :=
  ⟨(degenerate_block_smooth example_library seed_graph _ "Consensus_0"
      (by decide)).1,
    (degenerate_block_smooth example_library seed_graph _ "Consensus_0"
      (by decide)).2.1⟩

/-! ### Fragment embedding -/

/-- C18: fragment embedding. With `last_step` the last step of the path being
built (or `{0, 0}` on a path without steps), walking the steps `frag` of the
target path appends, in the same order and number, each step mapped to the
handle with id `local id + id_trans` and the same orientation; no node is
created; the only edge created goes from the previous step of the path to the
first step of the fragment, and none is created when there is no previous step
or the fragment is empty. In `lace_range` the fragment is the target path of
the record in `block_graphs[target_graph_id]` and `id_trans` is
`id_mapping[target_graph_id]`. -/
theorem fragment_embedding (id_trans : Nat) (last_step : step_handle_t)
    (frag : List handle_t) (sm : graph_t) (finished : List path_t) (nm : String)
    (steps : List handle_t)
    (hp : sm.paths = finished ++ [{ name := nm, steps := steps }])
    (hl : last_step_ok finished.length steps last_step) :
    (∃ sm1, embed_fragment id_trans (finished.length + 1) last_step frag true sm = some sm1
      ∧ sm1.paths = finished ++
          [{ name := nm, steps := steps ++ frag.map (translate_handle id_trans) }]
      ∧ sm1.nodes = sm.nodes
      ∧ (frag = [] → sm1.edges = sm.edges)
      ∧ (steps = [] → sm1.edges = sm.edges)
      ∧ (∀ h rest prev, frag = h :: rest → steps.getLast? = some prev →
          sm1.edges = (sm.create_edge prev (translate_handle id_trans h)).edges))
    ∧ (∀ h, (translate_handle id_trans h).id = h.id + id_trans
        ∧ (translate_handle id_trans h).is_reverse = h.is_reverse)
    ∧ (∀ (graph : XG) (block_graphs : List graph_t) (id_mapping : List Nat)
        (r : path_position_range_t) (st st2 : lace_state),
        lace_range graph block_graphs id_mapping r st = some st2 →
        ∃ block trans target st1,
          block_graphs[r.target_graph_id]? = some block
          ∧ id_mapping[r.target_graph_id]? = some trans
          ∧ block.path_steps r.target_path = some target
          ∧ (if gap_detected r.start_pos st.last_end_pos then fill_gap graph r st else some st)
              = some st1
          ∧ embed_fragment trans st1.smoothed_path st1.last_step target true st1.smoothed
              = some st2.smoothed) := by
  refine ⟨⟨_, embed_fragment_spec id_trans last_step frag sm finished nm steps hp hl,
    rfl, rfl, ?_, ?_, ?_⟩, fun h => ⟨rfl, rfl⟩, ?_⟩
  · intro hf
    rw [hf]
    rfl
  · intro hs
    rw [hs]
    cases frag <;> rfl
  · intro h rest prev hf hprev
    rw [hf, hprev]
    rfl
  · intro graph block_graphs id_mapping r st st2 hrun
    unfold lace_range at hrun
    cases hf : (if gap_detected r.start_pos st.last_end_pos = true
        then fill_gap graph r st else some st) with
    | none => simp [hf] at hrun
    | some st1 =>
      simp only [hf] at hrun
      cases hblk : block_graphs[r.target_graph_id]? with
      | none => simp [hblk] at hrun
      | some block =>
        cases hid : id_mapping[r.target_graph_id]? with
        | none => simp [hblk, hid] at hrun
        | some trans =>
          cases hfr : block.path_steps r.target_path with
          | none => simp [hblk, hid, hfr] at hrun
          | some target =>
            cases hem : embed_fragment trans st1.smoothed_path st1.last_step target true
                st1.smoothed with
            | none => simp [hblk, hid, hfr, hem] at hrun
            | some g =>
              simp only [hblk, hid, hfr, hem, Option.some.injEq] at hrun
              refine ⟨block, trans, target, st1, rfl, rfl, hfr, rfl, ?_⟩
              rw [hem, ← hrun]

/-- C18 witness: the fragment of the second seed record, after the gap node 4
was appended: block node 1 becomes node 3 and is linked from node 4. -/
theorem fragment_embedding_witness :
    ∃ sm1, embed_fragment 2 1 { path := 1, rank := 2 } [{ id := 1, is_reverse := false }] true
        { nodes := seed_state.smoothed.nodes ++ [(4, ['G','G','G','G','G'])]
          edges := seed_state.smoothed.edges
          paths := [] ++ [{ name := "p", steps := [{ id := 1, is_reverse := false },
            { id := 2, is_reverse := false }, { id := 4, is_reverse := false }] }] } = some sm1
      ∧ sm1.paths = [] ++ [{ name := "p", steps := [{ id := 1, is_reverse := false },
            { id := 2, is_reverse := false }, { id := 4, is_reverse := false }]
            ++ [{ id := 1, is_reverse := false }].map (translate_handle 2) }] :=
  (fragment_embedding 2 { path := 1, rank := 2 } [{ id := 1, is_reverse := false }]
    { nodes := seed_state.smoothed.nodes ++ [(4, ['G','G','G','G','G'])]
      edges := seed_state.smoothed.edges
      paths := [] ++ [{ name := "p", steps := [{ id := 1, is_reverse := false },
        { id := 2, is_reverse := false }, { id := 4, is_reverse := false }] }] }
    [] "p" _ rfl (Or.inr ⟨by simp, rfl⟩)).1.imp (fun _ h => ⟨h.1, h.2.1⟩)

end smoothxg

namespace smoothxg

/-! ### The sort key -/

theorem range_less_iff (a b : path_position_range_t) :
    range_less a b = true ↔ a.base_path < b.base_path
      ∨ (a.base_path = b.base_path ∧ a.start_pos < b.start_pos) := by
  simp [range_less]

theorem range_less_false_iff (a b : path_position_range_t) :
    range_less b a = false ↔ a.base_path < b.base_path
      ∨ (a.base_path = b.base_path ∧ a.start_pos ≤ b.start_pos) := by
  rw [← Bool.not_eq_true, range_less_iff]
  omega

theorem insert_record_perm (a : path_position_range_t) (l : List path_position_range_t) :
    (insert_record a l).Perm (a :: l) := by
  induction l with
  | nil => exact List.Perm.refl _
  | cons b rest ih =>
    unfold insert_record
    split
    · exact ((List.Perm.cons b ih).trans (List.Perm.swap a b rest))
    · exact List.Perm.refl _

theorem sort_records_perm (l : List path_position_range_t) : (sort_records l).Perm l := by
  induction l with
  | nil => exact List.Perm.refl _
  | cons a rest ih =>
    unfold sort_records
    exact (insert_record_perm a _).trans (List.Perm.cons a ih)

theorem insert_record_sorted (a : path_position_range_t) (l : List path_position_range_t)
    (h : l.Pairwise (fun x y => range_less y x = false)) :
    (insert_record a l).Pairwise (fun x y => range_less y x = false) := by
  induction l with
  | nil => simp [insert_record]
  | cons b rest ih =>
    obtain ⟨hb, hrest⟩ := List.pairwise_cons.mp h
    unfold insert_record
    split
    · next hlt =>
      refine List.pairwise_cons.mpr ⟨?_, ih hrest⟩
      intro y hy
      rcases List.mem_cons.mp ((insert_record_perm a rest).subset hy) with h1 | h1
      · rw [h1, range_less_false_iff]
        have := (range_less_iff b a).mp hlt
        omega
      · exact hb y h1
    · next hnlt =>
      have hba : range_less b a = false := by simpa using hnlt
      refine List.pairwise_cons.mpr ⟨?_, h⟩
      intro y hy
      rcases List.mem_cons.mp hy with h1 | h1
      · rw [h1]; exact hba
      · have h2 := (range_less_false_iff b y).mp (hb y h1)
        have h3 := (range_less_false_iff a b).mp hba
        rw [range_less_false_iff]
        omega

theorem sort_records_sorted (l : List path_position_range_t) :
    (sort_records l).Pairwise (fun x y => range_less y x = false) := by
  induction l with
  | nil => simp [sort_records]
  | cons a rest ih =>
    unfold sort_records
    exact insert_record_sorted a _ ih

/-- C17: the comparator of both sorts is the strict lexicographic order on
(base path id, start_pos): it is irreflexive and transitive and holds exactly
when the base path is smaller, or equal with a smaller start_pos. The sorted
list is a permutation of its input in which every earlier record has a
smaller base path than a later one, or the same base path and a start_pos that
is not greater; so the records of one base path are contiguous and ascend in
start_pos. -/
theorem sort_key_order :
    (∀ a, range_less a a = false)
    ∧ (∀ a b c, range_less a b = true → range_less b c = true → range_less a c = true)
    ∧ (∀ a b, range_less a b = true ↔ a.base_path < b.base_path
        ∨ (a.base_path = b.base_path ∧ a.start_pos < b.start_pos))
    ∧ (∀ l, (sort_records l).Perm l)
    ∧ (∀ l, (sort_records l).Pairwise (fun a b => a.base_path < b.base_path
        ∨ (a.base_path = b.base_path ∧ a.start_pos ≤ b.start_pos)))
    ∧ (∀ (l : List path_position_range_t) (i j k : Nat) (a b c : path_position_range_t),
        i < j → j < k → (sort_records l)[i]? = some a →
        (sort_records l)[j]? = some b → (sort_records l)[k]? = some c →
        a.base_path = c.base_path → b.base_path = a.base_path) := by
  have hpw : ∀ l, (sort_records l).Pairwise (fun a b => a.base_path < b.base_path
      ∨ (a.base_path = b.base_path ∧ a.start_pos ≤ b.start_pos)) := by
    intro l
    exact (sort_records_sorted l).imp (fun h => (range_less_false_iff _ _).mp h)
  refine ⟨?_, ?_, range_less_iff, sort_records_perm, hpw, ?_⟩
  · intro a
    simp [range_less]
  · intro a b c hab hbc
    rw [range_less_iff] at hab hbc ⊢
    omega
  · intro l i j k a b c hij hjk ha hb hc hac
    have hp := hpw l
    rw [List.pairwise_iff_getElem] at hp
    obtain ⟨hi, hai⟩ := List.getElem?_eq_some.mp ha
    obtain ⟨hj, hbj⟩ := List.getElem?_eq_some.mp hb
    obtain ⟨hk, hck⟩ := List.getElem?_eq_some.mp hc
    have h1 := hp i j hi hj hij
    have h2 := hp j k hj hk hjk
    rw [hai, hbj] at h1
    rw [hbj, hck] at h2
    omega

end smoothxg

namespace smoothxg

/-! ### The verifier -/

theorem verify_false_iff (graph : XG) (sm : graph_t) :
    verify graph sm = false ↔ ∃ q ∈ sm.paths,
      sm.spell q.steps ≠ some (graph.path_sequence (graph.get_path_handle q.name)) := by
  unfold verify
  rw [← Bool.not_eq_true, List.all_eq_true]
  simp only [verify_path, decide_eq_true_eq, not_forall, exists_prop]

/-- C11: the verifier. With `sm` the graph Pass B built, the run ends with
`exit(1)` exactly when some path of `sm` spells a sequence different from the
one of the base path with the same name; when every path agrees the run goes
on to the consensus embedding with the same graph `sm`. -/
theorem integrity_verifier (graph : XG) (block_graphs : List graph_t)
    (path_mapping consensus_mapping : List path_position_range_t) (sm : graph_t)
    (hB : pass_B graph block_graphs (pass_A block_graphs).2 (sort_records path_mapping)
      (pass_A block_graphs).1 = some sm) :
    (lace graph block_graphs path_mapping consensus_mapping = outcome.exited 1
      ↔ ∃ q ∈ sm.paths,
          sm.spell q.steps ≠ some (graph.path_sequence (graph.get_path_handle q.name)))
    ∧ ((∀ q ∈ sm.paths,
          sm.spell q.steps = some (graph.path_sequence (graph.get_path_handle q.name))) →
        lace graph block_graphs path_mapping consensus_mapping
          = match embed_consensus block_graphs (pass_A block_graphs).2
              (sort_records consensus_mapping) sm with
            | none => outcome.undefined
            | some final => outcome.returned final) := by
  have hlace : lace graph block_graphs path_mapping consensus_mapping
      = if verify graph sm then
          match embed_consensus block_graphs (pass_A block_graphs).2
              (sort_records consensus_mapping) sm with
          | none => outcome.undefined
          | some final => outcome.returned final
        else outcome.exited 1 := by
    unfold lace
    simp only [hB]
  constructor
  · rw [← verify_false_iff, hlace]
    cases hv : verify graph sm with
    | false => simp
    | true =>
      simp only [if_true]
      cases embed_consensus block_graphs (pass_A block_graphs).2
          (sort_records consensus_mapping) sm <;> simp
  · intro hall
    have hv : verify graph sm = true := by
      cases hv : verify graph sm with
      | true => rfl
      | false =>
        obtain ⟨q, hq, hne⟩ := (verify_false_iff graph sm).mp hv
        exact absurd (hall q hq) hne
    rw [hlace, hv]
    rfl

/-- C11 witness: the seed example, with its records given in reverse order,
is laced into `seed_assembled`, which passes the verifier. -/
theorem integrity_verifier_witness :
    pass_B seed_graph seed_blocks (pass_A seed_blocks).2
        (sort_records [seed_record1, seed_record0]) (pass_A seed_blocks).1 = some seed_assembled
    ∧ lace seed_graph seed_blocks [seed_record1, seed_record0] []
        = outcome.returned seed_assembled :=
  ⟨by decide,
    ((integrity_verifier seed_graph seed_blocks [seed_record1, seed_record0] []
      seed_assembled (by decide)).2 (by decide)).trans (by decide)⟩

end smoothxg

namespace smoothxg

/-! ### Edges of Pass A -/

theorem create_edge_mem (g : graph_t) (a b : handle_t) (e : edge_t) :
    e ∈ (g.create_edge a b).edges ↔ e ∈ g.edges ∨ e = (a, b) := by
  unfold graph_t.create_edge
  split
  · next h =>
    constructor
    · intro he; exact Or.inl he
    · rintro (he | he)
      · exact he
      · rw [he]; exact h
  · simp

theorem add_block_edges_mem (sm : graph_t) (id_trans : Nat) (block : graph_t) (e : edge_t) :
    e ∈ (add_block_edges sm id_trans block).edges
      ↔ e ∈ sm.edges ∨ ∃ x ∈ block.edges, e = translated_edge id_trans x := by
  unfold add_block_edges
  generalize block.edges = l
  induction l generalizing sm with
  | nil => simp
  | cons x rest ih =>
    rw [List.foldl_cons, ih, create_edge_mem]
    simp only [graph_t.get_handle, List.mem_cons, exists_eq_or_imp, translated_edge]
    tauto

theorem add_block_nodes_edges (sm block : graph_t) :
    (add_block_nodes sm block).edges = sm.edges := by
  rw [add_block_nodes_eq]

theorem merge_block_edges_mem (st : graph_t × List Nat) (block : graph_t) (e : edge_t) :
    e ∈ (merge_block st block).1.edges
      ↔ e ∈ st.1.edges ∨ (block.get_node_count ≠ 0
          ∧ ∃ x ∈ block.edges, e = translated_edge st.1.get_node_count x) := by
  unfold merge_block
  split
  · next h => simp [h]
  · next h =>
    simp only [add_block_edges_mem, add_block_nodes_edges]
    tauto

theorem merge_block_node_count (st : graph_t × List Nat) (block : graph_t) :
    (merge_block st block).1.get_node_count = st.1.get_node_count + block.get_node_count := by
  simp [graph_t.get_node_count, merge_block_nodes, renumber_length, graph_t.sequences]

theorem merge_blocks_edges_mem (block_graphs : List graph_t) :
    ∀ (st : graph_t × List Nat) (e : edge_t),
      e ∈ (merge_blocks st block_graphs).1.edges
        ↔ e ∈ st.1.edges ∨ ∃ b block, block_graphs[b]? = some block
            ∧ block.get_node_count ≠ 0
            ∧ ∃ x ∈ block.edges, e = translated_edge
                (st.1.get_node_count + total_node_count (block_graphs.take b)) x := by
  induction block_graphs with
  | nil =>
    intro st e
    simp [merge_blocks]
  | cons blk rest ih =>
    intro st e
    have hstep : merge_blocks st (blk :: rest) = merge_blocks (merge_block st blk) rest := rfl
    rw [hstep, ih, merge_block_edges_mem, merge_block_node_count]
    constructor
    · rintro ((h | ⟨hne, x, hx, hex⟩) | ⟨b, block, hb, hne, x, hx, hex⟩)
      · exact Or.inl h
      · exact Or.inr ⟨0, blk, by simp, hne, x, hx, by simpa [total_node_count] using hex⟩
      · refine Or.inr ⟨b + 1, block, by simpa using hb, hne, x, hx, ?_⟩
        rw [hex]
        simp only [List.take_succ_cons, total_node_count, List.map_cons, List.sum_cons]
        rw [Nat.add_assoc]
    · rintro (h | ⟨b, block, hb, hne, x, hx, hex⟩)
      · exact Or.inl (Or.inl h)
      · cases b with
        | zero =>
          simp only [List.getElem?_cons_zero, Option.some.injEq] at hb
          subst hb
          exact Or.inl (Or.inr ⟨hne, x, hx, by simpa [total_node_count] using hex⟩)
        | succ c =>
          refine Or.inr ⟨c, block, by simpa using hb, hne, x, hx, ?_⟩
          rw [hex]
          simp only [List.take_succ_cons, total_node_count, List.map_cons, List.sum_cons]
          rw [Nat.add_assoc]

/-- C20: edges of Pass A. The edges of the graph Pass A builds are exactly the
translated edges of the non-empty block subgraphs: for an edge `(u, v)` of
block `b`, the edge between the nodes with ids `id_mapping[b] + id(u)` and
`id_mapping[b] + id(v)`. When the ends of the block edge are nodes of the
block, both translated ids lie in the id range of block `b`, so no edge joins
nodes of two blocks. -/
theorem edge_merging_pass_A (block_graphs : List graph_t) :
    (∀ b block x, block_graphs[b]? = some block → block.get_node_count ≠ 0 →
        x ∈ block.edges →
        (pass_A block_graphs).2[b]? = some (total_node_count (block_graphs.take b))
        ∧ translated_edge (total_node_count (block_graphs.take b)) x
            ∈ (pass_A block_graphs).1.edges)
    ∧ (∀ e ∈ (pass_A block_graphs).1.edges, ∃ b block x,
        block_graphs[b]? = some block ∧ block.get_node_count ≠ 0 ∧ x ∈ block.edges
        ∧ e = translated_edge (total_node_count (block_graphs.take b)) x
        ∧ (edge_ends_exist block →
            (total_node_count (block_graphs.take b) < e.1.id
              ∧ e.1.id ≤ total_node_count (block_graphs.take b) + block.get_node_count)
            ∧ (total_node_count (block_graphs.take b) < e.2.id
              ∧ e.2.id ≤ total_node_count (block_graphs.take b) + block.get_node_count))) := by
  have hmem : ∀ e, e ∈ (pass_A block_graphs).1.edges
      ↔ ∃ b block, block_graphs[b]? = some block ∧ block.get_node_count ≠ 0
          ∧ ∃ x ∈ block.edges, e = translated_edge
              (total_node_count (block_graphs.take b)) x := by
    intro e
    unfold pass_A
    rw [merge_blocks_edges_mem]
    simp [graph_t.empty, graph_t.get_node_count]
  constructor
  · intro b block x hb hne hx
    exact ⟨pass_A_mapping_getElem? block_graphs b block hb,
      (hmem _).mpr ⟨b, block, hb, hne, x, hx, rfl⟩⟩
  · intro e he
    obtain ⟨b, block, hb, hne, x, hx, hex⟩ := (hmem e).mp he
    refine ⟨b, block, x, hb, hne, hx, hex, ?_⟩
    intro hends
    obtain ⟨⟨h1, h2⟩, ⟨h3, h4⟩⟩ := hends x hx
    rw [hex]
    simp only [translated_edge]
    omega

end smoothxg

namespace smoothxg

/-! ### `build_odgi` -/

theorem append_steps_last (hs : List handle_t) :
    ∀ (g : graph_t) (finished : List path_t) (nm : String) (steps : List handle_t),
      g.paths = finished ++ [{ name := nm, steps := steps }] →
      append_steps g (finished.length + 1) hs
        = { g with paths := finished ++ [{ name := nm, steps := steps ++ hs }] } := by
  induction hs with
  | nil =>
    intro g finished nm steps hp
    simp [append_steps, ← hp]
  | cons h rest ih =>
    intro g finished nm steps hp
    have hp1 := append_step_last g finished nm steps h hp
    have := ih (g.append_step (finished.length + 1) h) finished nm (steps ++ [h]) hp1
    simp only [append_steps, List.foldl_cons] at this ⊢
    rw [this]
    simp [append_step_nodes, append_step_edges]

theorem build_sequence_path_eq (graph : poa_graph) (aln_is_reverse : List Bool)
    (output : graph_t) (i : Nat) (name : String) :
    build_sequence_path graph aln_is_reverse output i name
      = match sequence_steps graph aln_is_reverse i with
        | none => none
        | some steps =>
          some { output with paths := output.paths ++ [{ name := name, steps := steps }] } := by
  unfold build_sequence_path sequence_steps
  cases graph.sequences_begin_nodes_ids[i]? with
  | none => rfl
  | some node_id =>
    simp only
    cases sequence_walk graph i graph.nodes.length node_id with
    | none => rfl
    | some ids =>
      simp only
      cases aln_is_reverse[i]? with
      | none => rfl
      | some flag =>
        have hp : (output.create_path_handle name).1.paths
            = output.paths ++ [{ name := name, steps := [] }] := rfl
        cases flag with
        | true =>
          simp only
          rw [show (output.create_path_handle name).2 = output.paths.length + 1 from rfl,
            append_steps_last _ _ output.paths name [] hp]
          simp [graph_t.create_path_handle, graph_t.get_handle]
        | false =>
          simp only
          rw [show (output.create_path_handle name).2 = output.paths.length + 1 from rfl,
            append_steps_last _ _ output.paths name [] hp]
          simp [graph_t.create_path_handle, graph_t.get_handle]

theorem build_sequence_paths_eq (graph : poa_graph) (aln_is_reverse : List Bool)
    (l : List (Nat × String)) :
    ∀ output : graph_t, build_sequence_paths graph aln_is_reverse l output
      = match sequence_paths graph aln_is_reverse l with
        | none => none
        | some ps => some { output with paths := output.paths ++ ps } := by
  induction l with
  | nil =>
    intro output
    simp [build_sequence_paths, sequence_paths]
  | cons p rest ih =>
    intro output
    obtain ⟨i, name⟩ := p
    simp only [build_sequence_paths, sequence_paths, build_sequence_path_eq]
    cases sequence_steps graph aln_is_reverse i with
    | none => rfl
    | some steps =>
      simp only [ih]
      cases sequence_paths graph aln_is_reverse rest with
      | none => rfl
      | some ps => simp

theorem build_nodes_eq (graph : poa_graph) (output : graph_t) :
    build_nodes graph output = { output with nodes := output.nodes ++ poa_nodes graph } := by
  unfold build_nodes poa_nodes
  generalize graph.nodes.enum = l
  induction l generalizing output with
  | nil => simp
  | cons p rest ih =>
    rw [List.foldl_cons, ih]
    simp [graph_t.create_handle_with_id]

theorem build_edges_frame (graph : poa_graph) (output : graph_t) :
    (build_edges graph output).nodes = output.nodes
    ∧ (build_edges graph output).paths = output.paths := by
  unfold build_edges
  generalize graph.nodes.enum = l
  induction l generalizing output with
  | nil => exact ⟨rfl, rfl⟩
  | cons p rest ih =>
    rw [List.foldl_cons]
    have hin : ∀ (es : List poa_edge) (o : graph_t),
        (es.foldl (fun o e => o.create_edge (o.get_handle (p.1 + 1) false)
          (o.get_handle (e.end_node_id + 1) false)) o).nodes = o.nodes
        ∧ (es.foldl (fun o e => o.create_edge (o.get_handle (p.1 + 1) false)
          (o.get_handle (e.end_node_id + 1) false)) o).paths = o.paths := by
      intro es
      induction es with
      | nil => intro o; exact ⟨rfl, rfl⟩
      | cons e more ih2 =>
        intro o
        rw [List.foldl_cons]
        obtain ⟨h1, h2⟩ := ih2 (o.create_edge (o.get_handle (p.1 + 1) false)
          (o.get_handle (e.end_node_id + 1) false))
        rw [h1, h2, create_edge_nodes, create_edge_paths]
        exact ⟨rfl, rfl⟩
    obtain ⟨h1, h2⟩ := ih (p.2.out_edges.foldl (fun o e => o.create_edge
      (o.get_handle (p.1 + 1) false) (o.get_handle (e.end_node_id + 1) false)) output)
    rw [h1, h2]
    exact hin p.2.out_edges output

end smoothxg

namespace smoothxg

theorem build_edges_mem (graph : poa_graph) (output : graph_t) (e : edge_t) :
    e ∈ (build_edges graph output).edges
      ↔ e ∈ output.edges ∨ ∃ i n x, graph.nodes[i]? = some n ∧ x ∈ n.out_edges
          ∧ e = ({ id := i + 1, is_reverse := false },
                 { id := x.end_node_id + 1, is_reverse := false }) := by
  have hin : ∀ (i : Nat) (es : List poa_edge) (o : graph_t),
      e ∈ (es.foldl (fun o x => o.create_edge (o.get_handle (i + 1) false)
        (o.get_handle (x.end_node_id + 1) false)) o).edges
      ↔ e ∈ o.edges ∨ ∃ x ∈ es, e = ({ id := i + 1, is_reverse := false },
          { id := x.end_node_id + 1, is_reverse := false }) := by
    intro i es
    induction es with
    | nil => intro o; simp
    | cons x more ih2 =>
      intro o
      rw [List.foldl_cons, ih2, create_edge_mem]
      simp only [graph_t.get_handle, List.mem_cons, exists_eq_or_imp]
      tauto
  have hout : ∀ (l : List (Nat × poa_node)) (o : graph_t),
      e ∈ (l.foldl (fun out p => p.2.out_edges.foldl
        (fun o x => o.create_edge (o.get_handle (p.1 + 1) false)
          (o.get_handle (x.end_node_id + 1) false)) out) o).edges
      ↔ e ∈ o.edges ∨ ∃ p ∈ l, ∃ x ∈ p.2.out_edges,
          e = ({ id := p.1 + 1, is_reverse := false },
               { id := x.end_node_id + 1, is_reverse := false }) := by
    intro l
    induction l with
    | nil => intro o; simp
    | cons p rest ih =>
      intro o
      rw [List.foldl_cons, ih, hin]
      constructor
      · rintro ((h | ⟨x, hx, he⟩) | ⟨q, hq, x, hx, he⟩)
        · exact Or.inl h
        · exact Or.inr ⟨p, List.mem_cons_self _ _, x, hx, he⟩
        · exact Or.inr ⟨q, List.mem_cons_of_mem _ hq, x, hx, he⟩
      · rintro (h | ⟨q, hq, x, hx, he⟩)
        · exact Or.inl (Or.inl h)
        · rcases List.mem_cons.mp hq with h1 | h1
          · subst h1
            exact Or.inl (Or.inr ⟨x, hx, he⟩)
          · exact Or.inr ⟨q, h1, x, hx, he⟩
  unfold build_edges
  rw [hout]
  constructor
  · rintro (h | ⟨p, hp, x, hx, he⟩)
    · exact Or.inl h
    · exact Or.inr ⟨p.1, p.2, x, List.mem_enum_iff_getElem?.mp hp, hx, he⟩
  · rintro (h | ⟨i, n, x, hn, hx, he⟩)
    · exact Or.inl h
    · exact Or.inr ⟨(i, n), List.mk_mem_enum_iff_getElem?.mpr hn, x, hx, he⟩

theorem build_consensus_path_eq (graph : poa_graph) (output : graph_t)
    (consensus_name : String) (include_consensus : Bool) :
    build_consensus_path graph output consensus_name include_consensus
      = { output with paths := output.paths ++
            (if include_consensus then
              [{ name := consensus_name
                 steps := graph.consensus.map
                   (fun id => ({ id := id + 1, is_reverse := false } : handle_t)) }]
             else []) } := by
  unfold build_consensus_path
  cases include_consensus with
  | false => simp
  | true =>
    have hp : (output.create_path_handle consensus_name).1.paths
        = output.paths ++ [{ name := consensus_name, steps := [] }] := rfl
    simp only [if_true]
    rw [show (output.create_path_handle consensus_name).2 = output.paths.length + 1 from rfl,
      append_steps_last _ _ output.paths consensus_name [] hp]
    simp [graph_t.create_path_handle, graph_t.get_handle]

theorem build_odgi_some (graph : poa_graph) (output : graph_t) (sequence_names : List String)
    (aln_is_reverse : List Bool) (consensus_name : String) (include_consensus : Bool)
    (out : graph_t)
    (h : build_odgi graph output sequence_names aln_is_reverse consensus_name include_consensus
      = some out) :
    ∃ ps, sequence_paths graph aln_is_reverse sequence_names.enum = some ps
      ∧ out.nodes = output.nodes ++ poa_nodes graph
      ∧ out.edges = (build_edges graph (build_nodes graph output)).edges
      ∧ out.paths = output.paths ++ ps ++
          (if include_consensus then
            [{ name := consensus_name
               steps := graph.consensus.map
                 (fun id => ({ id := id + 1, is_reverse := false } : handle_t)) }]
           else []) := by
  unfold build_odgi at h
  rw [build_sequence_paths_eq] at h
  cases hps : sequence_paths graph aln_is_reverse sequence_names.enum with
  | none => simp [hps] at h
  | some ps =>
    simp only [hps, Option.some.injEq] at h
    refine ⟨ps, rfl, ?_, ?_, ?_⟩
    · rw [← h, build_consensus_path_eq]
      dsimp only
      rw [(build_edges_frame graph (build_nodes graph output)).1, build_nodes_eq]
    · rw [← h, build_consensus_path_eq]
    · rw [← h, build_consensus_path_eq]
      dsimp only
      rw [(build_edges_frame graph (build_nodes graph output)).2, build_nodes_eq]

/-- C22: nodes and edges of the graph built by `build_odgi`. Whenever it
returns on the empty output graph and an alignment graph with `N` nodes, the
output has exactly `N` nodes, node `i` being the node with id `i + 1` whose
sequence is the one decoded symbol of alignment node `i`, and its edges are
exactly the pairs `(i + 1, j + 1)` for the out-edges of node `i` that end at
node `j`. -/
theorem build_odgi_nodes_edges (graph : poa_graph) (sequence_names : List String)
    (aln_is_reverse : List Bool) (consensus_name : String) (include_consensus : Bool)
    (out : graph_t)
    (h : build_odgi graph graph_t.empty sequence_names aln_is_reverse consensus_name
      include_consensus = some out) :
    out.get_node_count = graph.nodes.length
    ∧ (∀ i n, graph.nodes[i]? = some n → out.nodes[i]? = some (i + 1, [n.symbol]))
    ∧ (∀ p ∈ out.nodes, p.2.length = 1)
    ∧ (∀ e, e ∈ out.edges ↔ ∃ i n x, graph.nodes[i]? = some n ∧ x ∈ n.out_edges
        ∧ e = ({ id := i + 1, is_reverse := false },
               { id := x.end_node_id + 1, is_reverse := false })) := by
  obtain ⟨ps, _, hnodes, hedges, _⟩ := build_odgi_some _ _ _ _ _ _ _ h
  have hn : out.nodes = poa_nodes graph := by
    rw [hnodes]
    rfl
  refine ⟨?_, ?_, ?_, ?_⟩
  · simp [graph_t.get_node_count, hn, poa_nodes]
  · intro i n hi
    rw [hn]
    simp [poa_nodes, List.getElem?_map, List.getElem?_enum, hi]
  · intro p hp
    rw [hn] at hp
    simp only [poa_nodes, List.mem_map] at hp
    obtain ⟨q, _, hq⟩ := hp
    rw [← hq]
    rfl
  · intro e
    rw [hedges, build_edges_mem, build_nodes_eq]
    simp [graph_t.empty]

end smoothxg

namespace smoothxg

/-- The statement of `build_odgi_nodes_edges` on `example_poa`: two nodes `A`
and `C` with ids 1 and 2 and the one edge between them. -/
theorem build_odgi_nodes_edges_witness :
    build_odgi example_poa graph_t.empty ["s"] [false] "c" true = some example_poa_output
    ∧ example_poa_output.get_node_count = example_poa.nodes.length
    ∧ (∀ i n, example_poa.nodes[i]? = some n
        → example_poa_output.nodes[i]? = some (i + 1, [n.symbol]))
    ∧ (∀ p ∈ example_poa_output.nodes, p.2.length = 1)
    ∧ (∀ e, e ∈ example_poa_output.edges ↔ ∃ i n x, example_poa.nodes[i]? = some n
        ∧ x ∈ n.out_edges
        ∧ e = ({ id := i + 1, is_reverse := false },
               { id := x.end_node_id + 1, is_reverse := false })) :=
  ⟨by decide,
    build_odgi_nodes_edges example_poa ["s"] [false] "c" true example_poa_output (by decide)⟩

theorem toDigitsCore_append (fuel : Nat) : ∀ (n : Nat) (ds : List Char),
    Nat.toDigitsCore 10 fuel n ds = Nat.toDigitsCore 10 fuel n [] ++ ds := by
  induction fuel with
  | zero => intro n ds; simp [Nat.toDigitsCore]
  | succ fuel ih =>
    intro n ds
    simp only [Nat.toDigitsCore]
    by_cases h : n / 10 = 0
    · simp [h]
    · simp only [h, if_false]
      rw [ih (n / 10) (Nat.digitChar (n % 10) :: ds), ih (n / 10) [Nat.digitChar (n % 10)]]
      simp

theorem digitChar_value (k : Nat) (h : k < 10) : (Nat.digitChar k).toNat - 48 = k := by
  interval_cases k <;> rfl

theorem digit_value_snoc (l : List Char) (c : Char) :
    digit_value (l ++ [c]) = 10 * digit_value l + (c.toNat - 48) := by
  simp [digit_value, List.foldl_append]

theorem digit_value_toDigitsCore (fuel : Nat) : ∀ n, n < fuel →
    digit_value (Nat.toDigitsCore 10 fuel n []) = n := by
  induction fuel with
  | zero => intro n h; omega
  | succ fuel ih =>
    intro n hn
    simp only [Nat.toDigitsCore]
    by_cases h : n / 10 = 0
    · simp only [h, if_true]
      have hk : n % 10 = n := by omega
      rw [hk]
      have := digitChar_value n (by omega)
      simpa [digit_value] using this
    · simp only [h, if_false]
      rw [toDigitsCore_append, digit_value_snoc, ih (n / 10) (by omega),
        digitChar_value (n % 10) (by omega)]
      omega

theorem digit_value_repr (n : Nat) : digit_value (toString n).data = n := by
  show digit_value (Nat.toDigitsCore 10 (n + 1) n []) = n
  exact digit_value_toDigitsCore (n + 1) n (by omega)

theorem toString_ne_empty (n : Nat) : (toString n).data ≠ [] := by
  intro h
  have h0 := digit_value_repr n
  have h1 := digit_value_repr (n + 1)
  show False
  have e : (toString n).data = Nat.toDigitsCore 10 (n + 1) n [] := rfl
  rw [e] at h
  simp only [Nat.toDigitsCore] at h
  by_cases hz : n / 10 = 0
  · simp [hz] at h
  · simp only [hz, if_false] at h
    rw [toDigitsCore_append] at h
    simp at h

/-- C29: the consensus name handed to the smoother. The name is
`consensus_base_name` followed by the decimal block index; it is never empty,
also for an empty base name, so the flag `!consensus_name.empty()` that `smooth`
passes to `build_odgi` is always set; and for one base name two different block
indices give two different names. -/
theorem consensus_name_of_block (consensus_base_name : String) (block_id other_id : Nat) :
    block_consensus_name consensus_base_name block_id
        = consensus_base_name ++ toString block_id
    ∧ (block_consensus_name consensus_base_name block_id).isEmpty = false
    ∧ (block_consensus_name "" block_id).isEmpty = false
    ∧ (!(block_consensus_name consensus_base_name block_id).isEmpty) = true
    ∧ (block_consensus_name consensus_base_name block_id
        = block_consensus_name consensus_base_name other_id ↔ block_id = other_id) := by
  have hne : ∀ (base : String) (k : Nat), (block_consensus_name base k).isEmpty = false := by
    intro base k
    cases hb : (block_consensus_name base k).isEmpty with
    | false => rfl
    | true =>
      exfalso
      have h1 := (String.isEmpty_iff _).mp hb
      have h2 : (block_consensus_name base k).data = [] := by
        rw [h1]
      simp only [block_consensus_name, String.data_append] at h2
      have h3 : (toString k).data = [] := by
        have := congrArg List.length h2
        simp only [List.length_append, List.length_nil] at this
        exact List.length_eq_zero.mp (by omega)
      exact toString_ne_empty k h3
  refine ⟨rfl, hne _ _, hne _ _, by simp [hne], ?_⟩
  constructor
  · intro h
    have h2 := congrArg String.data h
    simp only [block_consensus_name, String.data_append] at h2
    have h3 := List.append_cancel_left h2
    have := congrArg digit_value h3
    rwa [digit_value_repr, digit_value_repr] at this
  · intro h
    rw [h]

end smoothxg

namespace smoothxg

set_option maxRecDepth 100000 in
theorem nst_nt4_table_eq : nst_nt4_table = (List.range 256).map nt4_code := by
  decide

theorem nst_nt4_table_getElem? (byte : Nat) (h : byte < 256) :
    nst_nt4_table[byte]? = some (nt4_code byte) := by
  rw [nst_nt4_table_eq, List.getElem?_map, List.getElem?_range h]
  rfl

theorem nt4_code_le (byte : Nat) : nt4_code byte ≤ 5 := by
  unfold nt4_code
  repeat' split
  all_goals omega

theorem encode_byte_le (char_is_signed : Bool) (byte v : Nat)
    (h : encode_byte char_is_signed byte = some v) : v ≤ 5 := by
  unfold encode_byte at h
  split at h
  · exact absurd h (by simp)
  · have hm := List.getElem?_mem h
    rw [nst_nt4_table_eq] at hm
    obtain ⟨b, _, hb⟩ := List.mem_map.mp hm
    rw [← hb]
    exact nt4_code_le b

theorem encode_byte_ascii (char_is_signed : Bool) (byte : Nat) (h : byte < 128) :
    encode_byte char_is_signed byte = some (nt4_code byte) := by
  have hi : char_index char_is_signed byte = (byte : Int) := by
    unfold char_index
    have : ¬ 128 ≤ byte := by omega
    simp [this]
  unfold encode_byte
  rw [hi]
  have : ¬ ((byte : Int) < 0) := by omega
  rw [if_neg this, Int.toNat_ofNat]
  exact nst_nt4_table_getElem? byte (by omega)

/-- C24: the table `nst_nt4_table`. It has 256 entries; `A`/`a`, `C`/`c`,
`G`/`g`, `T`/`t` map to 0, 1, 2, 3, `N`/`n` to 4, `-` to 5, and every byte maps
to the code that this description gives (4 for all other bytes); a capital
letter and its small letter have the same code, and every entry and every
symbol the lookup of line 109 produces is at most 5. For a byte below 128 the
lookup produces the code on every platform; where `char` is unsigned it does so
for all 256 bytes. -/
theorem nt4_encoding :
    nst_nt4_table.length = 256
    ∧ (∀ byte : Fin 256, nst_nt4_table[byte.val]? = some (nt4_code byte.val))
    ∧ (nst_nt4_table['A'.toNat]? = some 0 ∧ nst_nt4_table['a'.toNat]? = some 0
        ∧ nst_nt4_table['C'.toNat]? = some 1 ∧ nst_nt4_table['c'.toNat]? = some 1
        ∧ nst_nt4_table['G'.toNat]? = some 2 ∧ nst_nt4_table['g'.toNat]? = some 2
        ∧ nst_nt4_table['T'.toNat]? = some 3 ∧ nst_nt4_table['t'.toNat]? = some 3
        ∧ nst_nt4_table['N'.toNat]? = some 4 ∧ nst_nt4_table['n'.toNat]? = some 4
        ∧ nst_nt4_table['-'.toNat]? = some 5)
    ∧ (∀ letter : Fin 26,
        nst_nt4_table['A'.toNat + letter.val]? = nst_nt4_table['a'.toNat + letter.val]?)
    ∧ (∀ x ∈ nst_nt4_table, x ≤ 5)
    ∧ (∀ (char_is_signed : Bool) (byte v : Nat),
        encode_byte char_is_signed byte = some v → v ≤ 5)
    ∧ (∀ (char_is_signed : Bool) (byte : Fin 128),
        encode_byte char_is_signed byte.val = some (nt4_code byte.val))
    ∧ (∀ byte : Fin 256, encode_byte false byte.val = some (nt4_code byte.val)) := by
  have hx : ∀ x ∈ nst_nt4_table, x ≤ 5 := by
    intro x hm
    rw [nst_nt4_table_eq] at hm
    obtain ⟨b, _, hb⟩ := List.mem_map.mp hm
    rw [← hb]
    exact nt4_code_le b
  have hl : ∀ letter : Fin 26,
      nst_nt4_table['A'.toNat + letter.val]? = nst_nt4_table['a'.toNat + letter.val]? := by
    intro letter
    have h1 : 'A'.toNat + letter.val < 256 := by
      have := letter.isLt
      have e : 'A'.toNat = 65 := rfl
      omega
    have h2 : 'a'.toNat + letter.val < 256 := by
      have := letter.isLt
      have e : 'a'.toNat = 97 := rfl
      omega
    rw [nst_nt4_table_getElem? _ h1, nst_nt4_table_getElem? _ h2]
    revert letter
    decide
  refine ⟨by rw [nst_nt4_table_eq]; simp,
    fun byte => nst_nt4_table_getElem? byte.val byte.isLt,
    ⟨nst_nt4_table_getElem? _ (by decide), nst_nt4_table_getElem? _ (by decide),
      nst_nt4_table_getElem? _ (by decide), nst_nt4_table_getElem? _ (by decide),
      nst_nt4_table_getElem? _ (by decide), nst_nt4_table_getElem? _ (by decide),
      nst_nt4_table_getElem? _ (by decide), nst_nt4_table_getElem? _ (by decide),
      nst_nt4_table_getElem? _ (by decide), nst_nt4_table_getElem? _ (by decide),
      nst_nt4_table_getElem? _ (by decide)⟩,
    hl, hx, encode_byte_le,
    fun s byte => encode_byte_ascii s byte.val (by omega), ?_⟩
  intro byte
  have : ¬ ((byte.val : Int) < 0) := by omega
  simp only [encode_byte, char_index, Bool.false_and, Bool.false_eq_true, if_false, this,
    Int.toNat_ofNat]
  exact nst_nt4_table_getElem? byte.val byte.isLt

theorem encode_sequence_ascii (char_is_signed : Bool) (seq : Sequence)
    (h : ∀ c ∈ seq, c.toNat < 128) : ∃ row, encode_sequence char_is_signed seq = some row := by
  induction seq with
  | nil => exact ⟨[], rfl⟩
  | cons c rest ih =>
    obtain ⟨vs, hvs⟩ := ih (fun x hx => h x (List.mem_cons_of_mem _ hx))
    refine ⟨nt4_code c.toNat :: vs, ?_⟩
    simp only [encode_sequence, encode_byte_ascii char_is_signed c.toNat
      (h c (List.mem_cons_self _ _)), hvs]

theorem encode_sequences_ascii (char_is_signed : Bool) (seqs : List Sequence)
    (h : ∀ seq ∈ seqs, ∀ c ∈ seq, c.toNat < 128) :
    ∃ rows, encode_sequences char_is_signed seqs = some rows := by
  induction seqs with
  | nil => exact ⟨[], rfl⟩
  | cons seq rest ih =>
    obtain ⟨rows, hrows⟩ := ih (fun x hx => h x (List.mem_cons_of_mem _ hx))
    obtain ⟨row, hrow⟩ := encode_sequence_ascii char_is_signed seq
      (h seq (List.mem_cons_self _ _))
    exact ⟨row :: rows, by simp only [encode_sequences, hrow, hrows]⟩

theorem smooth_abPOA_eq_empty (char_is_signed : Bool) (graph : XG) (block : block_t)
    (out : graph_t) (h : smooth_abPOA char_is_signed graph block = some out) :
    out = graph_t.empty := by
  unfold smooth_abPOA at h
  split at h
  · exact absurd h (by simp)
  · split at h
    · exact absurd h (by simp)
    · split at h
      · exact absurd h (by simp)
      · have e := Option.some.inj h
        rw [← e]
        unfold smooth_abPOA_output
        split <;> rfl

theorem collect_block_sequences_length (graph : XG) : ∀ (ranges : List path_range_t)
    (seqs : List Sequence), collect_block_sequences graph ranges = some seqs →
    seqs.length = ranges.length := by
  intro ranges
  induction ranges with
  | nil =>
    intro seqs h
    simp only [collect_block_sequences, Option.some.injEq] at h
    rw [← h]
    rfl
  | cons pr rest ih =>
    intro seqs h
    unfold collect_block_sequences at h
    split at h
    · rename_i seq more _ hmore
      simp only [Option.some.injEq] at h
      rw [← h, List.length_cons, List.length_cons, ih more hmore]
    · exact absurd h (by simp)

theorem smooth_abPOA_returns (char_is_signed : Bool) (graph : XG) (block : block_t)
    (seqs : List Sequence)
    (hseqs : collect_block_sequences graph block.path_ranges = some seqs)
    (hne : block.path_ranges ≠ [])
    (hascii : ∀ seq ∈ seqs, ∀ c ∈ seq, c.toNat < 128) :
    smooth_abPOA char_is_signed graph block = some graph_t.empty := by
  obtain ⟨rows, hrows⟩ := encode_sequences_ascii char_is_signed seqs hascii
  have hlen := collect_block_sequences_length graph _ seqs hseqs
  have hpos : 0 < (seqs.map List.length).length := by
    rw [List.length_map, hlen]
    exact List.length_pos.mpr hne
  have h0 : (seqs.map List.length)[0]? = some ((seqs.map List.length)[0]) :=
    List.getElem?_eq_getElem hpos
  have hout : smooth_abPOA_output seqs = graph_t.empty := by
    unfold smooth_abPOA_output
    split <;> rfl
  simp only [smooth_abPOA, hseqs, hrows, h0, hout]

/-- C27: the abPOA smoother returns the empty graph. Whatever `smooth_abPOA`
returns has no node, no edge and no path: both `return` statements give the
`output_graph` that nothing populated. Pass A therefore treats the block as
empty (it only records the offset) and the record emission of the driver adds
nothing for it. The function does return, with that graph, for every block
with at least one range whose sequences can be extracted and hold bytes below
128; the first range of the seed path is an instance. -/
theorem smooth_abPOA_empty :
    (∀ (char_is_signed : Bool) (graph : XG) (block : block_t) (out : graph_t),
      smooth_abPOA char_is_signed graph block = some out →
        out.get_node_count = 0 ∧ out.edges = [] ∧ out.paths = []
        ∧ (∀ st : graph_t × List Nat, merge_block st out = (st.1, st.2 ++ [st.1.get_node_count]))
        ∧ (∀ (consensus_base_name : String) (block_id : Nat)
            (mappings : List path_position_range_t × List path_position_range_t),
            emit_records graph consensus_base_name block out block_id mappings = some mappings))
    ∧ (∀ (char_is_signed : Bool) (graph : XG) (block : block_t) (seqs : List Sequence),
        collect_block_sequences graph block.path_ranges = some seqs →
        block.path_ranges ≠ [] →
        (∀ seq ∈ seqs, ∀ c ∈ seq, c.toNat < 128) →
        smooth_abPOA char_is_signed graph block = some graph_t.empty)
    ∧ smooth_abPOA true seed_graph
        { path_ranges := [{ begin := { path := 1, rank := 0 }, end_ := { path := 1, rank := 1 } }] }
        = some graph_t.empty := by
  refine ⟨?_, smooth_abPOA_returns, ?_⟩
  swap
  · exact smooth_abPOA_returns true seed_graph _ [['A','C','G','T','A','C','G','T','A','C']]
      (by decide) (by decide) (by decide)
  intro char_is_signed graph block out h
  have e := smooth_abPOA_eq_empty char_is_signed graph block out h
  subst e
  refine ⟨rfl, rfl, rfl, fun st => merge_block_of_no_nodes st _ rfl, ?_⟩
  intro name block_id mappings
  simp [emit_records, graph_t.empty, graph_t.get_node_count]

theorem worker_not_ok (char_is_signed : Bool) (graph : XG) (blocks : List block_t)
    (consensus_base_name : String) (block_id : Nat) (st : driver_state) :
    worker char_is_signed graph blocks consensus_base_name block_id st
        = Except.error (stop.exited 0)
    ∨ worker char_is_signed graph blocks consensus_base_name block_id st
        = Except.error stop.undefined := by
  unfold worker
  split
  · exact Or.inr rfl
  · split
    · exact Or.inr rfl
    · exact Or.inl rfl

theorem run_workers_cons (char_is_signed : Bool) (graph : XG) (blocks : List block_t)
    (consensus_base_name : String) (block_id : Nat) (rest : List Nat) (st : driver_state) :
    run_workers char_is_signed graph blocks consensus_base_name (block_id :: rest) st
      = worker char_is_signed graph blocks consensus_base_name block_id st := by
  rcases worker_not_ok char_is_signed graph blocks consensus_base_name block_id st with h | h
  · simp only [run_workers, h]
  · simp only [run_workers, h]

/-- C28: the worker ends the process. A worker whose smoother call returns
ends in `exit(0)`; no worker ever gets past that call, so the shared vectors
`path_mapping` and `consensus_mapping` never receive a record. For every
non-empty block list, whatever the order in which the workers run, a run of
`smooth_and_lace` whose first smoother call returns ends with status 0, and no
run reaches the lacing phase: it never returns a graph and never ends with the
status 1 of the verifier. -/
theorem worker_exits_after_smoother :
    (∀ (char_is_signed : Bool) (graph : XG) (blocks : List block_t)
        (consensus_base_name : String) (block_id : Nat) (st : driver_state)
        (block : block_t) (block_graph : graph_t),
        blocks[block_id]? = some block →
        smooth_abPOA char_is_signed graph block = some block_graph →
        worker char_is_signed graph blocks consensus_base_name block_id st
          = Except.error (stop.exited 0))
    ∧ (∀ (char_is_signed : Bool) (graph : XG) (blocks : List block_t)
        (consensus_base_name : String) (block_id : Nat) (st st1 : driver_state),
        worker char_is_signed graph blocks consensus_base_name block_id st ≠ Except.ok st1)
    ∧ (∀ (char_is_signed : Bool) (graph : XG) (blocks : List block_t)
        (consensus_base_name : String) (block_id : Nat) (rest : List Nat)
        (block : block_t) (block_graph : graph_t),
        blocks[block_id]? = some block →
        smooth_abPOA char_is_signed graph block = some block_graph →
        smooth_and_lace char_is_signed graph blocks consensus_base_name (block_id :: rest)
          = outcome.exited 0)
    ∧ (∀ (char_is_signed : Bool) (graph : XG) (blocks : List block_t)
        (consensus_base_name : String) (schedule : List Nat),
        schedule ≠ [] →
        (∀ final, smooth_and_lace char_is_signed graph blocks consensus_base_name schedule
          ≠ outcome.returned final)
        ∧ smooth_and_lace char_is_signed graph blocks consensus_base_name schedule
          ≠ outcome.exited 1)
    ∧ smooth_and_lace true seed_graph
        [{ path_ranges := [{ begin := { path := 1, rank := 0 },
                             end_ := { path := 1, rank := 1 } }] }] "Consensus_" [0]
        = outcome.exited 0 := by
  have hw : ∀ (char_is_signed : Bool) (graph : XG) (blocks : List block_t)
      (consensus_base_name : String) (block_id : Nat) (st : driver_state)
      (block : block_t) (block_graph : graph_t),
      blocks[block_id]? = some block →
      smooth_abPOA char_is_signed graph block = some block_graph →
      worker char_is_signed graph blocks consensus_base_name block_id st
        = Except.error (stop.exited 0) := by
    intro s graph blocks name block_id st block block_graph hb hs
    simp only [worker, hb, hs]
    rfl
  have hs := smooth_abPOA_returns true seed_graph
    { path_ranges := [{ begin := { path := 1, rank := 0 }, end_ := { path := 1, rank := 1 } }] }
    [['A','C','G','T','A','C','G','T','A','C']] (by decide) (by decide) (by decide)
  refine ⟨hw, ?_, ?_, ?_, ?_⟩
  · intro s graph blocks name block_id st st1 h
    rcases worker_not_ok s graph blocks name block_id st with h1 | h1
    · rw [h1] at h
      exact absurd h (by simp)
    · rw [h1] at h
      exact absurd h (by simp)
  · intro s graph blocks name block_id rest block block_graph hb hs
    unfold smooth_and_lace
    rw [run_workers_cons, hw s graph blocks name block_id _ block block_graph hb hs]
  · intro s graph blocks name schedule hne
    cases schedule with
    | nil => exact absurd rfl hne
    | cons block_id rest =>
      unfold smooth_and_lace
      rw [run_workers_cons]
      rcases worker_not_ok s graph blocks name block_id
        { block_graphs := blocks.map (fun _ => graph_t.empty)
          path_mapping := [], consensus_mapping := [] } with h1 | h1
      · rw [h1]
        exact ⟨fun final h => by simp at h, fun h => by simp at h⟩
      · rw [h1]
        exact ⟨fun final h => by simp at h, fun h => by simp at h⟩
  · unfold smooth_and_lace
    rw [run_workers_cons, hw true seed_graph _ _ 0 _ _ _ rfl hs]

/-- C26: the default prefix of the consensus path names. Without the option
`-Q` the prefix is `Consensus_`, with the underscore, which is not the
`Consensus` that the help text of the option gives as its default; with the
option it is the given value. -/
theorem default_consensus_prefix :
    consensus_path_prefix_value none = "Consensus_"
    ∧ consensus_path_prefix_value none ≠ "Consensus"
    ∧ consensus_path_prefix_value none ≠ consensus_path_prefix_help
    ∧ ∀ given, consensus_path_prefix_value (some given) = given := by
  refine ⟨rfl, by decide, by decide, fun _ => rfl⟩

theorem convert_params_map (stoi : String → Option Int) : ∀ (strs : List String)
    (vals : List Int), strs.map stoi = vals.map some → convert_params stoi strs = some vals := by
  intro strs
  induction strs with
  | nil =>
    intro vals h
    cases vals with
    | nil => rfl
    | cons v vs => simp at h
  | cons s rest ih =>
    intro vals h
    cases vals with
    | nil => simp at h
    | cons v vs =>
      simp only [List.map_cons, List.cons.injEq] at h
      simp only [convert_params, h.1, ih vs h.2]

/-- C25: the POA score parameters. Without a value for `-p` the scores are
`(1, 4, 6, 2, 26, 1)`; six values are taken in the order match, mismatch, gap1,
ext1, gap2, ext2; four values give match, mismatch, gap1, ext1 with
`gap2 = gap1` and `ext2 = ext1` under SPOA and `gap2 = ext2 = 0` under abPOA;
any other number of values makes `main` return 1. -/
theorem poa_params_parsing (split : String → List String) (stoi : String → Option Int)
    (use_abpoa : Bool) :
    parse_poa_params split stoi "" use_abpoa
      = parse_outcome.parsed
          { poa_m := 1, poa_n := 4, poa_g := 6, poa_e := 2, poa_q := 26, poa_c := 1 }
    ∧ (∀ (poa_params : String) (m n g e q c : Int), poa_params.isEmpty = false →
        (split poa_params).map stoi = [some m, some n, some g, some e, some q, some c] →
        parse_poa_params split stoi poa_params use_abpoa
          = parse_outcome.parsed
              { poa_m := m, poa_n := n, poa_g := g, poa_e := e, poa_q := q, poa_c := c })
    ∧ (∀ (poa_params : String) (m n g e : Int), poa_params.isEmpty = false →
        (split poa_params).map stoi = [some m, some n, some g, some e] →
        parse_poa_params split stoi poa_params false
          = parse_outcome.parsed
              { poa_m := m, poa_n := n, poa_g := g, poa_e := e, poa_q := g, poa_c := e }
        ∧ parse_poa_params split stoi poa_params true
          = parse_outcome.parsed
              { poa_m := m, poa_n := n, poa_g := g, poa_e := e, poa_q := 0, poa_c := 0 })
    ∧ (∀ (poa_params : String), poa_params.isEmpty = false →
        (split poa_params).length ≠ 4 → (split poa_params).length ≠ 6 →
        parse_poa_params split stoi poa_params use_abpoa = parse_outcome.returned 1) := by
  have hempty : ("" : String).isEmpty = true := by decide
  refine ⟨by simp [parse_poa_params, hempty], ?_, ?_, ?_⟩
  · intro p m n g e q c hp h
    have hl : (split p).length = 6 := by
      have := congrArg List.length h
      simpa using this
    have hc := convert_params_map stoi (split p) [m, n, g, e, q, c] (by simpa using h)
    simp [parse_poa_params, hp, hl, hc]
  · intro p m n g e hp h
    have hl : (split p).length = 4 := by
      have := congrArg List.length h
      simpa using this
    have hc := convert_params_map stoi (split p) [m, n, g, e] (by simpa using h)
    constructor <;> simp [parse_poa_params, hp, hl, hc]
  · intro p hp h4 h6
    simp [parse_poa_params, hp, h4, h6]

end smoothxg

namespace smoothxg

theorem emit_path_records_getElem? (graph : XG) (block : block_t) (block_id k : Nat)
    (pr : path_range_t) (h : block.path_ranges[k]? = some pr) :
    (emit_path_records graph block block_id)[k]? = some (range_record graph block_id k pr) := by
  simp [emit_path_records, List.getElem?_map, List.getElem?_enum, h]

theorem emit_path_records_length (graph : XG) (block : block_t) (block_id : Nat) :
    (emit_path_records graph block block_id).length = block.path_ranges.length := by
  simp [emit_path_records]

theorem position_succ (graph : XG) (p i : Nat) (s : Sequence)
    (h : (graph.path_steps p)[i]? = some s) :
    graph.get_position_of_step { path := p, rank := i } + s.length
      = graph.get_position_of_step { path := p, rank := i + 1 } := by
  simp only [XG.get_position_of_step]
  rw [List.take_succ, h]
  simp

theorem get_previous_step_pos (graph : XG) (p b : Nat) (h1 : 0 < b) (h2 : b < 2 ^ 64) :
    graph.get_previous_step { path := p, rank := b } = { path := p, rank := b - 1 } := by
  simp only [XG.get_previous_step, step_handle_t.mk.injEq, true_and]
  omega

/-- C21: the coordinates of a record. For the range number `k` of a block,
from step `a` to step `b` of the base path `P` with `a < b`, the record the
driver builds has `start_pos` the offset of step `a`, `end_pos` the offset of
the last step `b - 1` plus the length of its node, which is the offset of step
`b`; the smoother extracts a sequence for the range and `end_pos - start_pos`
is its length; the record keeps the two steps, its target path is `k + 1` and
its target block is the index of the block. -/
theorem record_coordinates (graph : XG) (block : block_t) (block_id k P a b : Nat)
    (hab : a < b) (hb : b ≤ graph.get_step_count P) (h64 : b < 2 ^ 64)
    (hk : block.path_ranges[k]?
      = some { begin := { path := P, rank := a }, end_ := { path := P, rank := b } }) :
    ∃ r seq, (emit_path_records graph block block_id)[k]? = some r
      ∧ r.base_path = P
      ∧ r.start_pos = graph.get_position_of_step { path := P, rank := a }
      ∧ r.end_pos = graph.get_position_of_step { path := P, rank := b - 1 }
          + graph.step_length { path := P, rank := b - 1 }
      ∧ r.end_pos = graph.get_position_of_step { path := P, rank := b }
      ∧ collect_sequence graph { path := P, rank := a } { path := P, rank := b } = some seq
      ∧ r.start_pos ≤ r.end_pos
      ∧ r.end_pos - r.start_pos = seq.length
      ∧ r.start_step = { path := P, rank := a }
      ∧ r.end_step = { path := P, rank := b }
      ∧ r.target_path = k + 1
      ∧ r.target_graph_id = block_id := by
  have hprev := get_previous_step_pos graph P b (by omega) h64
  have hlt : b - 1 < (graph.path_steps P).length := by
    simp only [XG.get_step_count] at hb
    omega
  have hs : (graph.path_steps P)[b - 1]? = some ((graph.path_steps P)[b - 1]) :=
    List.getElem?_eq_getElem hlt
  have hlen : graph.step_length { path := P, rank := b - 1 }
      = ((graph.path_steps P)[b - 1]).length := by
    simp only [XG.step_length, XG.step_sequence, hs]
  have hpos := position_succ graph P (b - 1) _ hs
  have hb1 : b - 1 + 1 = b := by omega
  rw [hb1] at hpos
  have hsplit := flatten_take_split (graph.path_steps P) a b (by omega)
  have hend : (range_record graph block_id k
      { begin := { path := P, rank := a }, end_ := { path := P, rank := b } }).end_pos
      = graph.get_position_of_step { path := P, rank := b } := by
    simp only [range_record, hprev, hlen]
    exact hpos
  have hstart : (range_record graph block_id k
      { begin := { path := P, rank := a }, end_ := { path := P, rank := b } }).start_pos
      = graph.get_position_of_step { path := P, rank := a } := rfl
  refine ⟨_, _, emit_path_records_getElem? graph block block_id k _ hk, rfl, rfl, ?_, hend,
    collect_sequence_slice graph P a b (by omega) hb, ?_, ?_, rfl, rfl, rfl, rfl⟩
  · simp only [range_record, hprev]
  · rw [hstart, hend]
    show ((graph.path_steps P).take a).flatten.length
      ≤ ((graph.path_steps P).take b).flatten.length
    exact position_mono _ a b (by omega)
  · rw [hstart, hend]
    show ((graph.path_steps P).take b).flatten.length
        - ((graph.path_steps P).take a).flatten.length
      = (((graph.path_steps P).drop a).take (b - a)).flatten.length
    rw [hsplit, List.length_append]
    omega

/-- The statement of `record_coordinates` for the first range of
`zero_range_block` on the seed path: the record of step 0 spans the offsets 0
to 10. -/
theorem record_coordinates_witness :
    ∃ r seq, (emit_path_records seed_graph zero_range_block 7)[0]? = some r
      ∧ r.base_path = 1
      ∧ r.start_pos = seed_graph.get_position_of_step { path := 1, rank := 0 }
      ∧ r.end_pos = seed_graph.get_position_of_step { path := 1, rank := 1 - 1 }
          + seed_graph.step_length { path := 1, rank := 1 - 1 }
      ∧ r.end_pos = seed_graph.get_position_of_step { path := 1, rank := 1 }
      ∧ collect_sequence seed_graph { path := 1, rank := 0 } { path := 1, rank := 1 } = some seq
      ∧ r.start_pos ≤ r.end_pos
      ∧ r.end_pos - r.start_pos = seq.length
      ∧ r.start_step = { path := 1, rank := 0 }
      ∧ r.end_step = { path := 1, rank := 1 }
      ∧ r.target_path = 0 + 1
      ∧ r.target_graph_id = 7 :=
  record_coordinates seed_graph zero_range_block 7 0 1 0 1 (by decide) (by decide) (by decide)
    (by decide)

theorem get_path_handle_some (g : graph_t) (name : String) (h : Nat)
    (hh : g.get_path_handle name = some h) :
    ∃ k q, h = k + 1 ∧ g.paths[k]? = some q ∧ q.name = name := by
  unfold graph_t.get_path_handle at hh
  split at hh
  · rename_i k hk
    obtain ⟨hlt, hp, _⟩ := List.findIdx?_eq_some_iff_getElem.mp hk
    refine ⟨k, g.paths[k], (Option.some.inj hh).symm, List.getElem?_eq_getElem hlt, ?_⟩
    simpa using hp
  · exact absurd hh (by simp)

theorem get_path_handle_of_mem (g : graph_t) (name : String)
    (h : ∃ q ∈ g.paths, q.name = name) : ∃ k, g.get_path_handle name = some k := by
  obtain ⟨q, hq, hn⟩ := h
  have hex : ∃ x, x ∈ g.paths ∧ (fun q : path_t => q.name == name) x = true :=
    ⟨q, hq, by simp [hn]⟩
  have := List.findIdx?_eq_some_of_exists hex
  exact ⟨g.paths.findIdx (fun q => q.name == name) + 1,
    by simp only [graph_t.get_path_handle, this]⟩

theorem emit_consensus_record_some (block_graph : graph_t) (consensus_name : String)
    (block_id : Nat) (h : ∃ q ∈ block_graph.paths, q.name = consensus_name) :
    ∃ c, emit_consensus_record block_graph consensus_name block_id = some c
      ∧ c.base_path = 0 ∧ c.start_pos = 0 ∧ c.target_graph_id = block_id
      ∧ block_graph.get_path_handle consensus_name = some c.target_path
      ∧ block_graph.get_path_name c.target_path = consensus_name
      ∧ block_graph.path_steps c.target_path ≠ none := by
  obtain ⟨hdl, hh⟩ := get_path_handle_of_mem block_graph consensus_name h
  obtain ⟨k, q, hk, hq, hn⟩ := get_path_handle_some block_graph consensus_name hdl hh
  subst hk
  have hsteps : block_graph.path_steps (k + 1) = some q.steps := by
    simp only [graph_t.path_steps, hq]
  have hc : emit_consensus_record block_graph consensus_name block_id
      = some ⟨0, 0, q.steps.foldl (fun path_end h => path_end + block_graph.get_length h) 0,
          ⟨0, 0⟩, ⟨0, 0⟩, k + 1, block_id⟩ := by
    simp only [emit_consensus_record, hh, hsteps]
  refine ⟨_, hc, rfl, rfl, rfl, hh, ?_, ?_⟩
  · simp only [graph_t.get_path_name, hq, hn]
  · simp only [hsteps]
    exact fun h => by cases h

/-- C14 as stated fails: for `zero_range_block` and a block subgraph with
nodes the driver appends two path records, one of them for the zero-length
range, while the block has one range with `begin != end`. -/
theorem record_emission_counterexample :
    (emit_records seed_graph "" zero_range_block seed_block0 0 ([], [])).map
        (fun m => m.1.length) = some 2
    ∧ (zero_range_block.path_ranges.filter (fun pr => decide (pr.begin ≠ pr.end_))).length = 1
    := by
  constructor
  · decide
  · decide

/-- C14 (amended): record emission of the driver. A block whose subgraph has
no node yields no record. For a block whose subgraph has nodes the driver
appends one path record for every range of the block, the zero-length ranges
included, in range order; and, when a consensus base name is given and the
block subgraph has a path of the consensus name of the block, exactly one
consensus record, for that path. -/
theorem record_emission (graph : XG) (consensus_base_name : String) (block : block_t)
    (block_graph : graph_t) (block_id : Nat)
    (mappings : List path_position_range_t × List path_position_range_t) :
    (block_graph.get_node_count = 0 →
      emit_records graph consensus_base_name block block_graph block_id mappings
        = some mappings)
    ∧ (0 < block_graph.get_node_count → consensus_base_name.isEmpty = true →
      emit_records graph consensus_base_name block block_graph block_id mappings
        = some (mappings.1 ++ emit_path_records graph block block_id, mappings.2))
    ∧ (0 < block_graph.get_node_count → consensus_base_name.isEmpty = false →
      (∃ q ∈ block_graph.paths, q.name = block_consensus_name consensus_base_name block_id) →
      ∃ c, emit_records graph consensus_base_name block block_graph block_id mappings
          = some (mappings.1 ++ emit_path_records graph block block_id, mappings.2 ++ [c])
        ∧ c.target_graph_id = block_id
        ∧ block_graph.get_path_name c.target_path
            = block_consensus_name consensus_base_name block_id)
    ∧ (emit_path_records graph block block_id).length = block.path_ranges.length
    ∧ (∀ k pr, block.path_ranges[k]? = some pr →
        (emit_path_records graph block block_id)[k]?
          = some (range_record graph block_id k pr)) := by
  refine ⟨?_, ?_, ?_, emit_path_records_length graph block block_id,
    fun k pr => emit_path_records_getElem? graph block block_id k pr⟩
  · intro h
    simp [emit_records, h]
  · intro h hn
    simp [emit_records, h, hn]
  · intro h hn hq
    obtain ⟨c, hc, _, _, hid, _, hname, _⟩ :=
      emit_consensus_record_some block_graph _ block_id hq
    exact ⟨c, by simp [emit_records, h, hn, hc], hid, hname⟩

end smoothxg

namespace smoothxg

theorem renumber_snoc_node (nodes : List (Nat × Sequence)) (L : List Sequence) (seq : Sequence)
    (h : nodes = renumber 1 L) :
    nodes ++ [(nodes.length + 1, seq)] = renumber 1 (L ++ [seq]) := by
  rw [renumber_append, ← h]
  have hl : nodes.length = L.length := by rw [h, renumber_length]
  rw [renumber_cons, hl, Nat.add_comm 1 L.length]
  rfl

theorem lace_range_last_end_pos (graph : XG) (block_graphs : List graph_t)
    (id_mapping : List Nat) (r : path_position_range_t) (st st1 : lace_state)
    (hrun : lace_range graph block_graphs id_mapping r st = some st1) :
    st1.last_end_pos = r.end_pos := by
  unfold lace_range at hrun
  cases hf : (if gap_detected r.start_pos st.last_end_pos = true
      then fill_gap graph r st else some st) with
  | none => simp [hf] at hrun
  | some st2 =>
    simp only [hf] at hrun
    cases hblk : block_graphs[r.target_graph_id]? with
    | none => simp [hblk] at hrun
    | some block =>
      cases hid : id_mapping[r.target_graph_id]? with
      | none => simp [hblk, hid] at hrun
      | some id_trans =>
        cases hfr : block.path_steps r.target_path with
        | none => simp [hblk, hid, hfr] at hrun
        | some frag =>
          cases hem : embed_fragment id_trans st2.smoothed_path st2.last_step frag true
              st2.smoothed with
          | none => simp [hblk, hid, hfr, hem] at hrun
          | some sm =>
            simp only [hblk, hid, hfr, hem, Option.some.injEq] at hrun
            rw [← hrun]

theorem lace_range_extra (graph : XG) (block_graphs : List graph_t) (id_mapping : List Nat)
    (r : path_position_range_t) (st st1 : lace_state) (L : List Sequence)
    (hrun : lace_range graph block_graphs id_mapping r st = some st1)
    (hL : st.smoothed.nodes = renumber 1 L) :
    ∃ extra : List Sequence, st1.smoothed.nodes = renumber 1 (L ++ extra)
      ∧ extra.length = if gap_detected r.start_pos st.last_end_pos then 1 else 0 := by
  obtain ⟨_, hno, hyes⟩ := lace_range_frame graph block_graphs id_mapping r st st1 hrun
  cases hg : gap_detected r.start_pos st.last_end_pos with
  | false =>
    refine ⟨[], ?_, by simp⟩
    rw [hno hg, hL, List.append_nil]
  | true =>
    obtain ⟨seq, _, hn⟩ := hyes hg
    refine ⟨[seq], ?_, by simp⟩
    rw [hn]
    exact renumber_snoc_node _ L seq hL

theorem lace_trailing_extra (graph : XG) (r : path_position_range_t) (st : lace_state)
    (sm : graph_t) (L : List Sequence)
    (hrun : lace_trailing graph r st = some sm)
    (hL : st.smoothed.nodes = renumber 1 L) :
    ∃ extra : List Sequence, sm.nodes = renumber 1 (L ++ extra)
      ∧ extra.length = if graph.get_path_length r.base_path > st.last_end_pos then 1 else 0 := by
  by_cases hlen : graph.get_path_length r.base_path > st.last_end_pos
  · obtain ⟨seq, _, hn⟩ := lace_trailing_nodes graph r st sm hrun hlen
    refine ⟨[seq], ?_, by simp [hlen]⟩
    rw [hn]
    exact renumber_snoc_node _ L seq hL
  · refine ⟨[], ?_, by simp [hlen]⟩
    unfold lace_trailing at hrun
    rw [if_neg hlen] at hrun
    rw [← Option.some.inj hrun, hL, List.append_nil]

theorem connector_count_cons (graph : XG) (r : path_position_range_t)
    (rest : List path_position_range_t) (last_end_pos : Nat) :
    connector_count graph (r :: rest) last_end_pos
      = (if gap_detected r.start_pos last_end_pos then 1 else 0)
        + (if last_of_path r rest then
            (if graph.get_path_length r.base_path > r.end_pos then 1 else 0)
              + connector_count graph rest 0
           else connector_count graph rest r.end_pos) := rfl

theorem embed_paths_extra (graph : XG) (block_graphs : List graph_t) (id_mapping : List Nat)
    (rest : List path_position_range_t) :
    ∀ (r : path_position_range_t) (cur : Option lace_state) (sm : graph_t)
      (st0 : lace_state) (final : graph_t) (L : List Sequence),
      (match cur with
        | some st => st
        | none => start_path graph r sm) = st0 →
      st0.smoothed.nodes = renumber 1 L →
      embed_paths graph block_graphs id_mapping (r :: rest) cur sm = some final →
      ∃ extra : List Sequence, final.nodes = renumber 1 (L ++ extra)
        ∧ extra.length = connector_count graph (r :: rest) st0.last_end_pos := by
  induction rest with
  | nil =>
    intro r cur sm st0 final L h0 hst0 hrun
    rw [embed_paths_cons, h0] at hrun
    cases h1 : lace_range graph block_graphs id_mapping r st0 with
    | none => simp [h1] at hrun
    | some st1 =>
      simp only [h1, last_of_path_nil, if_true] at hrun
      obtain ⟨e1, hn1, hl1⟩ :=
        lace_range_extra graph block_graphs id_mapping r st0 st1 L h1 hst0
      have hend := lace_range_last_end_pos graph block_graphs id_mapping r st0 st1 h1
      cases h2 : lace_trailing graph r st1 with
      | none => simp [h2] at hrun
      | some sm1 =>
        simp only [h2] at hrun
        have hfin : sm1 = final := by
          have : embed_paths graph block_graphs id_mapping [] none sm1 = some sm1 := rfl
          rw [this] at hrun
          exact Option.some.inj hrun
        obtain ⟨e2, hn2, hl2⟩ := lace_trailing_extra graph r st1 sm1 (L ++ e1) h2 hn1
        refine ⟨e1 ++ e2, ?_, ?_⟩
        · rw [← hfin, hn2, List.append_assoc]
        · rw [connector_count_cons, last_of_path_nil, if_pos rfl, List.length_append, hl1, hl2,
            hend]
          rfl
  | cons next rest2 ih =>
    intro r cur sm st0 final L h0 hst0 hrun
    rw [embed_paths_cons, h0] at hrun
    cases h1 : lace_range graph block_graphs id_mapping r st0 with
    | none => simp [h1] at hrun
    | some st1 =>
      simp only [h1] at hrun
      obtain ⟨e1, hn1, hl1⟩ :=
        lace_range_extra graph block_graphs id_mapping r st0 st1 L h1 hst0
      have hend := lace_range_last_end_pos graph block_graphs id_mapping r st0 st1 h1
      cases hl : last_of_path r (next :: rest2) with
      | true =>
        simp only [hl, if_true] at hrun
        cases h2 : lace_trailing graph r st1 with
        | none => simp [h2] at hrun
        | some sm1 =>
          simp only [h2] at hrun
          obtain ⟨e2, hn2, hl2⟩ := lace_trailing_extra graph r st1 sm1 (L ++ e1) h2 hn1
          have hstart : (start_path graph next sm1).smoothed.nodes
              = renumber 1 ((L ++ e1) ++ e2) := hn2
          obtain ⟨e3, hn3, hl3⟩ := ih next none sm1 _ final _ rfl hstart hrun
          have e0 : (start_path graph next sm1).last_end_pos = 0 := rfl
          rw [e0] at hl3
          refine ⟨e1 ++ e2 ++ e3, ?_, ?_⟩
          · rw [hn3]
            simp only [List.append_assoc]
          · rw [connector_count_cons, hl, if_pos rfl, List.length_append, List.length_append,
              hl1, hl2, hl3, hend]
            omega
      | false =>
        simp only [hl, Bool.false_eq_true, if_false] at hrun
        obtain ⟨e3, hn3, hl3⟩ := ih next (some st1) st1.smoothed st1 final _ rfl hn1 hrun
        rw [hend] at hl3
        refine ⟨e1 ++ e3, ?_, ?_⟩
        · rw [hn3]
          simp only [List.append_assoc]
        · rw [connector_count_cons, hl, List.length_append, hl1, hl3]
          simp only [Bool.false_eq_true, if_false]

theorem pass_B_extra (graph : XG) (block_graphs : List graph_t) (id_mapping : List Nat)
    (records : List path_position_range_t) (sm final : graph_t) (L : List Sequence)
    (hL : sm.nodes = renumber 1 L)
    (hrun : pass_B graph block_graphs id_mapping records sm = some final) :
    ∃ extra : List Sequence, final.nodes = renumber 1 (L ++ extra)
      ∧ extra.length = connector_count graph records 0 := by
  cases records with
  | nil =>
    have : final = sm := (Option.some.inj hrun).symm
    refine ⟨[], ?_, rfl⟩
    rw [this, hL, List.append_nil]
  | cons r rest =>
    have hstart : (start_path graph r sm).smoothed.nodes = renumber 1 L := hL
    have h := embed_paths_extra graph block_graphs id_mapping rest r none sm
      (start_path graph r sm) final L rfl hstart hrun
    have e0 : (start_path graph r sm).last_end_pos = 0 := rfl
    rw [e0] at h
    exact h

theorem foldl_append_step_nodes (p : Nat) (id_trans : Nat) (steps : List handle_t) :
    ∀ sm : graph_t, (steps.foldl (fun sm h => sm.append_step p
      (sm.get_handle (h.id + id_trans) h.is_reverse)) sm).nodes = sm.nodes := by
  induction steps with
  | nil => intro sm; rfl
  | cons h rest ih =>
    intro sm
    rw [List.foldl_cons, ih, append_step_nodes]

theorem embed_consensus_record_nodes (block_graphs : List graph_t) (id_mapping : List Nat)
    (r : path_position_range_t) (sm sm1 : graph_t)
    (hrun : embed_consensus_record block_graphs id_mapping r sm = some sm1) :
    sm1.nodes = sm.nodes := by
  unfold embed_consensus_record at hrun
  split at hrun
  · split at hrun
    · exact absurd hrun (by simp)
    · rw [← Option.some.inj hrun, foldl_append_step_nodes]
      rfl
  · exact absurd hrun (by simp)

theorem embed_consensus_nodes (block_graphs : List graph_t) (id_mapping : List Nat)
    (cm : List path_position_range_t) :
    ∀ (sm final : graph_t), embed_consensus block_graphs id_mapping cm sm = some final →
      final.nodes = sm.nodes := by
  induction cm with
  | nil =>
    intro sm final hrun
    have : embed_consensus block_graphs id_mapping [] sm = some sm := rfl
    rw [this] at hrun
    rw [← Option.some.inj hrun]
  | cons r rest ih =>
    intro sm final hrun
    unfold embed_consensus at hrun
    split at hrun
    · exact absurd hrun (by simp)
    · rename_i sm1 h1
      rw [ih sm1 final hrun, embed_consensus_record_nodes block_graphs id_mapping r sm sm1 h1]

theorem pass_A_block_node (block_graphs : List graph_t) (b : Nat) (block : graph_t)
    (hb : block_graphs[b]? = some block) (j : Nat) (n : Nat × Sequence)
    (hn : block.nodes[j]? = some n) :
    (pass_A block_graphs).1.nodes[total_node_count (block_graphs.take b) + j]?
      = some (total_node_count (block_graphs.take b) + j + 1, n.2) := by
  have hj : j < block.sequences.length := by
    have := (List.getElem?_eq_some.mp hn).1
    simpa [graph_t.sequences] using this
  have hseq : block.sequences[j]? = some n.2 := by
    simp [graph_t.sequences, List.getElem?_map, hn]
  rw [pass_A_nodes, renumber_getElem?, all_sequences_getElem? block_graphs b block hb j hj, hseq]
  simp only [Option.map_some', Option.some.injEq, Prod.mk.injEq, and_true]
  omega

/-- C30: connector nodes and the id translation. When Pass B and the
consensus embedding complete on the graph of Pass A, the nodes of the result
are the block nodes, with the ids and sequences Pass A gave them, followed by
the connector nodes, whose ids start above the sum `total` of the block node
counts; there are as many connector nodes as gap and trailing branches taken;
a translated id `id_mapping[b] + k` of a node of block `b` is at most `total`
and so never the id of a connector node; the consensus embedding adds no node;
and the final node count is `total` plus the number of connector nodes. -/
theorem connector_nodes (graph : XG) (block_graphs : List graph_t)
    (records cm : List path_position_range_t) (sm1 sm2 : graph_t)
    (hB : pass_B graph block_graphs (pass_A block_graphs).2 records (pass_A block_graphs).1
      = some sm1)
    (hC : embed_consensus block_graphs (pass_A block_graphs).2 cm sm1 = some sm2) :
    ∃ extra : List Sequence,
      sm1.nodes = (pass_A block_graphs).1.nodes
          ++ renumber (total_node_count block_graphs + 1) extra
      ∧ sm2.nodes = sm1.nodes
      ∧ extra.length = connector_count graph records 0
      ∧ (∀ j s, extra[j]? = some s →
          sm2.nodes[total_node_count block_graphs + j]?
            = some (total_node_count block_graphs + j + 1, s))
      ∧ (∀ (b : Nat) (block : graph_t) (j : Nat) (n : Nat × Sequence),
          block_graphs[b]? = some block → block.nodes[j]? = some n →
          ∃ offset, (pass_A block_graphs).2[b]? = some offset
            ∧ offset + (j + 1) ≤ total_node_count block_graphs
            ∧ sm2.nodes[offset + j]? = some (offset + (j + 1), n.2)
            ∧ sm2.nodes[offset + j]? = (pass_A block_graphs).1.nodes[offset + j]?)
      ∧ (∀ i n, total_node_count block_graphs ≤ i → sm2.nodes[i]? = some n →
          total_node_count block_graphs < n.1)
      ∧ sm2.get_node_count
          = total_node_count block_graphs + connector_count graph records 0 := by
  obtain ⟨extra, hn, hl⟩ := pass_B_extra graph block_graphs (pass_A block_graphs).2 records
    (pass_A block_graphs).1 sm1 (all_sequences block_graphs) (pass_A_nodes block_graphs) hB
  have h2 := embed_consensus_nodes block_graphs (pass_A block_graphs).2 cm sm1 sm2 hC
  have hsplit : sm1.nodes = (pass_A block_graphs).1.nodes
      ++ renumber (total_node_count block_graphs + 1) extra := by
    rw [hn, renumber_append, pass_A_nodes, all_sequences_length, Nat.add_comm 1]
  refine ⟨extra, hsplit, h2, hl, ?_, ?_, ?_, ?_⟩
  · intro j s hs
    rw [h2, hn, renumber_getElem?, ← all_sequences_length,
      List.getElem?_append_right (by omega)]
    simp only [Nat.add_sub_cancel_left, hs, Option.map_some']
    rw [Nat.add_comm 1]
  · intro b block j n hb hj
    have hoff := pass_A_mapping_getElem? block_graphs b block hb
    have hA := pass_A_block_node block_graphs b block hb j n hj
    have hlt : total_node_count (block_graphs.take b) + j
        < (pass_A block_graphs).1.nodes.length := (List.getElem?_eq_some.mp hA).1
    have hcount : (pass_A block_graphs).1.nodes.length = total_node_count block_graphs :=
      pass_A_node_count block_graphs
    have hsame : sm2.nodes[total_node_count (block_graphs.take b) + j]?
        = (pass_A block_graphs).1.nodes[total_node_count (block_graphs.take b) + j]? := by
      rw [h2, hsplit, List.getElem?_append_left hlt]
    refine ⟨_, hoff, by omega, ?_, hsame⟩
    rw [hsame, hA, Nat.add_assoc]
  · intro i n hi hget
    rw [h2, hn, renumber_getElem?] at hget
    cases hx : (all_sequences block_graphs ++ extra)[i]? with
    | none => simp [hx] at hget
    | some s =>
      simp only [hx, Option.map_some', Option.some.injEq] at hget
      rw [← hget]
      show total_node_count block_graphs < 1 + i
      omega
  · simp only [graph_t.get_node_count]
    rw [h2, hn, renumber_length, List.length_append, all_sequences_length, hl]

/-- The statement of `connector_nodes` on the seed example: one connector
node, the node 4 that holds the five bases of the gap. -/
theorem connector_nodes_witness :
    ∃ extra : List Sequence,
      seed_assembled.nodes = (pass_A seed_blocks).1.nodes
          ++ renumber (total_node_count seed_blocks + 1) extra
      ∧ seed_assembled.nodes = seed_assembled.nodes
      ∧ extra.length = connector_count seed_graph [seed_record0, seed_record1] 0
      ∧ (∀ j s, extra[j]? = some s →
          seed_assembled.nodes[total_node_count seed_blocks + j]?
            = some (total_node_count seed_blocks + j + 1, s))
      ∧ (∀ (b : Nat) (block : graph_t) (j : Nat) (n : Nat × Sequence),
          seed_blocks[b]? = some block → block.nodes[j]? = some n →
          ∃ offset, (pass_A seed_blocks).2[b]? = some offset
            ∧ offset + (j + 1) ≤ total_node_count seed_blocks
            ∧ seed_assembled.nodes[offset + j]? = some (offset + (j + 1), n.2)
            ∧ seed_assembled.nodes[offset + j]? = (pass_A seed_blocks).1.nodes[offset + j]?)
      ∧ (∀ i n, total_node_count seed_blocks ≤ i → seed_assembled.nodes[i]? = some n →
          total_node_count seed_blocks < n.1)
      ∧ seed_assembled.get_node_count
          = total_node_count seed_blocks
            + connector_count seed_graph [seed_record0, seed_record1] 0 :=
  connector_nodes seed_graph seed_blocks [seed_record0, seed_record1] [] seed_assembled
    seed_assembled (by decide) (by decide)

end smoothxg

namespace smoothxg

theorem complement_involutive (c : Char) (h : is_nucleotide c = true) :
    complement (complement c) = c := by
  simp only [is_nucleotide, Bool.or_eq_true, decide_eq_true_eq] at h
  rcases h with ((((((((h | h) | h) | h) | h) | h) | h) | h) | h) | h <;> subst h <;> decide

theorem reverse_complement_involutive (s : Sequence) (h : ∀ c ∈ s, is_nucleotide c = true) :
    reverse_complement (reverse_complement s) = s := by
  simp only [reverse_complement, List.map_reverse, List.reverse_reverse, List.map_map]
  conv_rhs => rw [← List.map_id s]
  exact List.map_congr_left (fun c hc => complement_involutive c (h c hc))

theorem reverse_complement_append (a b : Sequence) :
    reverse_complement (a ++ b) = reverse_complement b ++ reverse_complement a := by
  simp [reverse_complement]

theorem spell_flip_reverse (g : graph_t) (W : List handle_t)
    (hfwd : ∀ h ∈ W, h.is_reverse = false) :
    ∀ seq, g.spell W = some seq →
      g.spell (W.reverse.map flip) = some (reverse_complement seq) := by
  induction W with
  | nil =>
    intro seq hs
    simp only [graph_t.spell, Option.some.injEq] at hs
    rw [← hs]
    rfl
  | cons h rest ih =>
    intro seq hs
    unfold graph_t.spell at hs
    cases hg : g.get_sequence h with
    | none => simp [hg] at hs
    | some s =>
      cases hr : g.spell rest with
      | none => simp [hg, hr] at hs
      | some t =>
        simp only [hg, hr, Option.some.injEq] at hs
        have hrest := ih (fun x hx => hfwd x (List.mem_cons_of_mem _ hx)) t hr
        have hf : h.is_reverse = false := hfwd h (List.mem_cons_self _ _)
        have hone : g.spell [flip h] = some (reverse_complement s) := by
          unfold graph_t.get_sequence at hg
          cases hn : g.node_sequence h.id with
          | none => simp [hn] at hg
          | some ns =>
            simp only [hn, hf, Bool.false_eq_true, if_false, Option.some.injEq] at hg
            simp [graph_t.spell, graph_t.get_sequence, flip, hn, hf, hg]
        rw [List.reverse_cons, List.map_append, ← hs, reverse_complement_append]
        exact spell_append g _ _ _ _ hrest hone

theorem sequence_paths_getElem? (graph : poa_graph) (aln_is_reverse : List Bool)
    (l : List (Nat × String)) :
    ∀ (ps : List path_t), sequence_paths graph aln_is_reverse l = some ps →
      ∀ (j i : Nat) (name : String), l[j]? = some (i, name) →
        ∃ steps, sequence_steps graph aln_is_reverse i = some steps
          ∧ ps[j]? = some { name := name, steps := steps } := by
  induction l with
  | nil =>
    intro ps _ j i name hj
    simp at hj
  | cons p rest ih =>
    intro ps hps j i name hj
    obtain ⟨i0, name0⟩ := p
    unfold sequence_paths at hps
    cases hs : sequence_steps graph aln_is_reverse i0 with
    | none => simp [hs] at hps
    | some steps0 =>
      cases hr : sequence_paths graph aln_is_reverse rest with
      | none => simp [hs, hr] at hps
      | some ps0 =>
        simp only [hs, hr, Option.some.injEq] at hps
        rw [← hps]
        cases j with
        | zero =>
          simp only [List.getElem?_cons_zero, Option.some.injEq, Prod.mk.injEq] at hj
          obtain ⟨e1, e2⟩ := hj
          subst e1
          subst e2
          exact ⟨steps0, hs, by simp⟩
        | succ j2 =>
          simp only [List.getElem?_cons_succ] at hj
          obtain ⟨steps, h1, h2⟩ := ih ps0 hr j2 i name hj
          exact ⟨steps, h1, by simpa using h2⟩

/-- C23 as stated fails for a sequence with a letter that is no nucleotide
code: the sequence `X` is committed as its reverse complement `N`; the walk
spells that committed string, and the emitted path, the flipped node, spells
`N` again and not `X`. -/
theorem orientation_restoring_counterexample :
    build_odgi unknown_letter_poa graph_t.empty ["s"] [true] "" false
      = some unknown_letter_output
    ∧ sequence_walk unknown_letter_poa 0 unknown_letter_poa.nodes.length 0 = some [0]
    ∧ unknown_letter_output.spell [{ id := 1, is_reverse := false }]
        = some (reverse_complement ['X'])
    ∧ unknown_letter_output.paths[0]?
        = some { name := "s", steps := [{ id := 1, is_reverse := true }] }
    ∧ unknown_letter_output.spell [{ id := 1, is_reverse := true }] = some ['N']
    ∧ unknown_letter_output.spell [{ id := 1, is_reverse := true }] ≠ some ['X'] := by
  refine ⟨by decide, by decide, by decide, by decide, by decide, by decide⟩

/-- C23 (amended): orientation restoring. In the graph `build_odgi` returns, the path of
the sequence number `i` holds the handles of its successor walk, in walk order
when the sequence is flagged forward, and in reversed order with every handle
flipped when it is flagged reverse. So when the walk spells the committed
string (the sequence, or its reverse complement when flagged reverse), the
path spells the sequence itself, for every sequence over the nucleotide
letters, on which the reverse complement is an involution. -/
theorem orientation_restoring (graph : poa_graph) (sequence_names : List String)
    (aln_is_reverse : List Bool) (consensus_name : String) (include_consensus : Bool)
    (out : graph_t) (i : Nat) (name : String) (node_id : Nat) (ids : List Nat) (flag : Bool)
    (h : build_odgi graph graph_t.empty sequence_names aln_is_reverse consensus_name
      include_consensus = some out)
    (hname : sequence_names[i]? = some name)
    (hbegin : graph.sequences_begin_nodes_ids[i]? = some node_id)
    (hwalk : sequence_walk graph i graph.nodes.length node_id = some ids)
    (hflag : aln_is_reverse[i]? = some flag) :
    out.paths[i]? = some
        { name := name
          steps := if flag then
              (ids.map (fun id => ({ id := id + 1, is_reverse := false } : handle_t))).reverse.map
                flip
            else ids.map (fun id => ({ id := id + 1, is_reverse := false } : handle_t)) }
    ∧ ∀ seq : Sequence, (∀ c ∈ seq, is_nucleotide c = true) →
        out.spell (ids.map (fun id => ({ id := id + 1, is_reverse := false } : handle_t)))
          = some (if flag then reverse_complement seq else seq) →
        out.spell (if flag then
              (ids.map (fun id => ({ id := id + 1, is_reverse := false } : handle_t))).reverse.map
                flip
            else ids.map (fun id => ({ id := id + 1, is_reverse := false } : handle_t)))
          = some seq := by
  obtain ⟨ps, hps, _, _, hpaths⟩ := build_odgi_some _ _ _ _ _ _ _ h
  have hen : sequence_names.enum[i]? = some (i, name) := by
    rw [List.getElem?_enum, hname]
    rfl
  obtain ⟨steps, hsteps, hget⟩ :=
    sequence_paths_getElem? graph aln_is_reverse _ ps hps i i name hen
  have hval : steps = if flag then
      (ids.map (fun id => ({ id := id + 1, is_reverse := false } : handle_t))).reverse.map flip
      else ids.map (fun id => ({ id := id + 1, is_reverse := false } : handle_t)) := by
    simp only [sequence_steps, hbegin, hwalk, hflag] at hsteps
    cases flag with
    | true =>
      simp only [Option.some.injEq] at hsteps
      rw [← hsteps]
      rfl
    | false =>
      simp only [Option.some.injEq] at hsteps
      rw [← hsteps]
      rfl
  constructor
  · have hlt : i < ps.length := (List.getElem?_eq_some.mp hget).1
    rw [hpaths]
    simp only [graph_t.empty, List.nil_append]
    rw [List.getElem?_append_left hlt, hget, hval]
  · intro seq hnuc hspell
    cases flag with
    | false => simpa using hspell
    | true =>
      simp only [if_true] at hspell ⊢
      have := spell_flip_reverse out _ (by simp) _ hspell
      rw [reverse_complement_involutive seq hnuc] at this
      exact this

/-- The statement of `orientation_restoring` on `example_poa` with its
sequence flagged reverse: the walk `A`, `C` is emitted as the flipped nodes 2
and 1, which spell `GT`, the sequence whose reverse complement `AC` was
committed. -/
theorem orientation_restoring_witness :
    example_poa_reversed.paths[0]? = some
        { name := "s"
          steps := if true then
              ([0, 1].map (fun id => ({ id := id + 1, is_reverse := false } : handle_t))).reverse.map
                flip
            else [0, 1].map (fun id => ({ id := id + 1, is_reverse := false } : handle_t)) }
    ∧ example_poa_reversed.spell (if true then
              ([0, 1].map (fun id => ({ id := id + 1, is_reverse := false } : handle_t))).reverse.map
                flip
            else [0, 1].map (fun id => ({ id := id + 1, is_reverse := false } : handle_t)))
          = some ['G', 'T'] :=
  ⟨(orientation_restoring example_poa ["s"] [true] "c" true example_poa_reversed 0 "s" 0 [0, 1]
      true (by decide) (by decide) (by decide) (by decide) (by decide)).1,
    (orientation_restoring example_poa ["s"] [true] "c" true example_poa_reversed 0 "s" 0 [0, 1]
      true (by decide) (by decide) (by decide) (by decide) (by decide)).2 ['G', 'T']
      (by decide) (by decide)⟩

end smoothxg

namespace smoothxg

theorem foldl_translate (p id_trans : Nat) (steps : List handle_t) (g : graph_t) :
    steps.foldl (fun sm h => sm.append_step p (sm.get_handle (h.id + id_trans) h.is_reverse)) g
      = append_steps g p (steps.map (translate_handle id_trans)) := by
  rw [append_steps, List.foldl_map]
  rfl

theorem embed_consensus_record_eq (block_graphs : List graph_t) (id_mapping : List Nat)
    (c : path_position_range_t) (sm : graph_t) :
    embed_consensus_record block_graphs id_mapping c sm
      = match consensus_path_of block_graphs id_mapping c with
        | none => none
        | some q => some { sm with paths := sm.paths ++ [q] } := by
  unfold embed_consensus_record consensus_path_of
  cases hb : block_graphs[c.target_graph_id]? with
  | none => rfl
  | some block =>
    cases hi : id_mapping[c.target_graph_id]? with
    | none => rfl
    | some id_trans =>
      simp only []
      cases hs : block.path_steps c.target_path with
      | none => rfl
      | some steps =>
        simp only []
        rw [foldl_translate]
        have hp : (sm.create_path_handle (block.get_path_name c.target_path)).1.paths
            = sm.paths ++ [{ name := block.get_path_name c.target_path, steps := [] }] := rfl
        rw [show (sm.create_path_handle (block.get_path_name c.target_path)).2
            = sm.paths.length + 1 from rfl,
          append_steps_last _ _ sm.paths _ [] hp]
        rfl

theorem embed_consensus_eq (block_graphs : List graph_t) (id_mapping : List Nat)
    (cm : List path_position_range_t) :
    ∀ sm : graph_t, embed_consensus block_graphs id_mapping cm sm
      = match consensus_paths block_graphs id_mapping cm with
        | none => none
        | some qs => some { sm with paths := sm.paths ++ qs } := by
  induction cm with
  | nil =>
    intro sm
    simp [embed_consensus, consensus_paths]
  | cons c rest ih =>
    intro sm
    unfold embed_consensus consensus_paths
    rw [embed_consensus_record_eq]
    cases hq : consensus_path_of block_graphs id_mapping c with
    | none => rfl
    | some q =>
      simp only []
      rw [ih]
      cases hr : consensus_paths block_graphs id_mapping rest with
      | none => rfl
      | some qs => simp

theorem consensus_paths_some (block_graphs : List graph_t) (id_mapping : List Nat)
    (f : path_position_range_t → path_t) (cm : List path_position_range_t)
    (h : ∀ c ∈ cm, consensus_path_of block_graphs id_mapping c = some (f c)) :
    consensus_paths block_graphs id_mapping cm = some (cm.map f) := by
  induction cm with
  | nil => rfl
  | cons c rest ih =>
    unfold consensus_paths
    rw [h c (List.mem_cons_self _ _), ih (fun x hx => h x (List.mem_cons_of_mem _ hx))]
    rfl

theorem emit_consensus_record_spec (g : graph_t) (nm : String) (b : Nat)
    (c : path_position_range_t) (h : emit_consensus_record g nm b = some c) :
    c.target_graph_id = b ∧ c.base_path = 0 ∧ c.start_pos = 0
      ∧ ∃ k q, c.target_path = k + 1 ∧ g.paths[k]? = some q ∧ q.name = nm := by
  unfold emit_consensus_record at h
  cases hh : g.get_path_handle nm with
  | none => simp [hh] at h
  | some hdl =>
    obtain ⟨k, q, hk, hq, hn⟩ := get_path_handle_some g nm hdl hh
    simp only [hh] at h
    cases hs : g.path_steps hdl with
    | none => simp [hs] at h
    | some steps =>
      simp only [hs, Option.some.injEq] at h
      rw [← h]
      exact ⟨rfl, rfl, rfl, k, q, hk, hq, hn⟩

theorem emit_records_consensus (graph : XG) (name : String) (block : block_t)
    (g : graph_t) (b : Nat)
    (m m1 : List path_position_range_t × List path_position_range_t)
    (hname : name.isEmpty = false)
    (h : emit_records graph name block g b m = some m1) :
    (g.get_node_count = 0 ∧ m1.2 = m.2)
    ∨ (0 < g.get_node_count
        ∧ ∃ c, emit_consensus_record g (block_consensus_name name b) b = some c
          ∧ m1.2 = m.2 ++ [c]) := by
  unfold emit_records at h
  by_cases hc : g.get_node_count > 0
  · right
    refine ⟨hc, ?_⟩
    simp only [hc, if_true, hname, Bool.not_false] at h
    cases he : emit_consensus_record g (block_consensus_name name b) b with
    | none => simp [he] at h
    | some c =>
      simp only [he, Option.some.injEq] at h
      exact ⟨c, rfl, by rw [← h]⟩
  · left
    simp only [hc, if_false, Option.some.injEq] at h
    exact ⟨by omega, by rw [h]⟩

theorem emit_all_consensus (graph : XG) (name : String) (blocks : List block_t)
    (block_graphs : List graph_t) (hname : name.isEmpty = false) (schedule : List Nat) :
    ∀ (m m1 : List path_position_range_t × List path_position_range_t),
      emit_all graph name blocks block_graphs schedule m = some m1 →
      ∃ cs, m1.2 = m.2 ++ cs
        ∧ cs.map path_position_range_t.target_graph_id
            = schedule.filter (nonempty_block block_graphs)
        ∧ ∀ c ∈ cs, ∃ g, block_graphs[c.target_graph_id]? = some g
            ∧ emit_consensus_record g (block_consensus_name name c.target_graph_id)
                c.target_graph_id = some c := by
  induction schedule with
  | nil =>
    intro m m1 h
    simp only [emit_all, Option.some.injEq] at h
    exact ⟨[], by rw [h, List.append_nil], rfl, fun c hc => by cases hc⟩
  | cons b rest ih =>
    intro m m1 h
    unfold emit_all at h
    cases hblk : blocks[b]? with
    | none => simp [hblk] at h
    | some block =>
      cases hg : block_graphs[b]? with
      | none => simp [hblk, hg] at h
      | some g =>
        simp only [hblk, hg] at h
        cases he : emit_records graph name block g b m with
        | none => simp [he] at h
        | some m2 =>
          simp only [he] at h
          obtain ⟨cs, hcs, hids, hval⟩ := ih m2 m1 h
          rcases emit_records_consensus graph name block g b m m2 hname he with
            ⟨h0, hm⟩ | ⟨hpos, c, hc, hm⟩
          · refine ⟨cs, by rw [hcs, hm], ?_, hval⟩
            have hne : nonempty_block block_graphs b = false := by
              simp [nonempty_block, hg, h0]
            rw [List.filter_cons, hne]
            exact hids
          · have hid := (emit_consensus_record_spec g _ b c hc).1
            refine ⟨c :: cs, by rw [hcs, hm, List.append_assoc]; rfl, ?_, ?_⟩
            · have hne : nonempty_block block_graphs b = true := by
                simp [nonempty_block, hg, hpos]
              rw [List.filter_cons, hne, List.map_cons, hid, hids]
              rfl
            · intro x hx
              rcases List.mem_cons.mp hx with hx1 | hx1
              · rw [hx1, hid]
                exact ⟨g, hg, hc⟩
              · exact hval x hx1

theorem consensus_path_of_emitted (block_graphs : List graph_t) (name : String)
    (c : path_position_range_t) (g : graph_t)
    (hg : block_graphs[c.target_graph_id]? = some g)
    (hc : emit_consensus_record g (block_consensus_name name c.target_graph_id)
      c.target_graph_id = some c) :
    ∃ q0, q0 ∈ g.paths
      ∧ consensus_path_of block_graphs (pass_A block_graphs).2 c
        = some { name := block_consensus_name name c.target_graph_id
                 steps := q0.steps.map
                   (translate_handle (total_node_count (block_graphs.take c.target_graph_id))) }
    := by
  obtain ⟨_, _, _, k, q, hk, hq, hn⟩ := emit_consensus_record_spec g _ _ c hc
  have hoff := pass_A_mapping_getElem? block_graphs c.target_graph_id g hg
  refine ⟨q, List.getElem?_mem hq, ?_⟩
  have hsteps : g.path_steps c.target_path = some q.steps := by
    rw [hk]
    simp only [graph_t.path_steps, hq]
  have hnm : g.get_path_name c.target_path = block_consensus_name name c.target_graph_id := by
    rw [hk]
    simp only [graph_t.get_path_name, hq, hn]
  simp only [consensus_path_of, hg, hoff, hsteps, hnm]

theorem block_consensus_name_inj (base : String) (a b : Nat)
    (h : block_consensus_name base a = block_consensus_name base b) : a = b := by
  have h2 := congrArg String.data h
  simp only [block_consensus_name, String.data_append] at h2
  have h3 := List.append_cancel_left h2
  have := congrArg digit_value h3
  rwa [digit_value_repr, digit_value_repr] at this

theorem nonempty_blocks_nodup (block_graphs : List graph_t) :
    (nonempty_blocks block_graphs).Nodup :=
  List.Nodup.filter _ (List.nodup_range _)

/-- C10: consensus paths. Let the driver have emitted its records for all
blocks, with a non-empty consensus base name, in whatever order the workers ran,
and let every path of every block subgraph step on nodes of its block. Then the
consensus loop completes and appends to the assembled graph exactly one path
for every non-empty block, named with the consensus name of the block, and none
for an empty block; every step of the path of block `b` is on a node whose id
lies above `id_mapping[b]` and at most at `id_mapping[b] + node_count(b)`. -/
theorem consensus_path_fidelity (graph : XG) (consensus_base_name : String)
    (blocks : List block_t) (block_graphs : List graph_t) (schedule : List Nat)
    (pm cm : List path_position_range_t) (sm1 : graph_t)
    (hname : consensus_base_name.isEmpty = false)
    (hsched : schedule.Perm (List.range block_graphs.length))
    (hemit : emit_all graph consensus_base_name blocks block_graphs schedule ([], [])
      = some (pm, cm))
    (hsteps : ∀ g ∈ block_graphs, steps_on_nodes g) :
    ∃ sm2 qs,
      embed_consensus block_graphs (pass_A block_graphs).2 (sort_records cm) sm1 = some sm2
      ∧ sm2.paths = sm1.paths ++ qs
      ∧ qs.length = (nonempty_blocks block_graphs).length
      ∧ (∀ b : Nat, (qs.map path_t.name).count (block_consensus_name consensus_base_name b)
          = if b ∈ nonempty_blocks block_graphs then 1 else 0)
      ∧ (∀ q ∈ qs, ∃ (b : Nat) (block : graph_t) (offset : Nat),
          b ∈ nonempty_blocks block_graphs
          ∧ block_graphs[b]? = some block
          ∧ (pass_A block_graphs).2[b]? = some offset
          ∧ q.name = block_consensus_name consensus_base_name b
          ∧ ∀ h ∈ q.steps, offset < h.id ∧ h.id ≤ offset + block.get_node_count) := by
  obtain ⟨cs, hcs, hids, hval⟩ := emit_all_consensus graph consensus_base_name blocks
    block_graphs hname schedule ([], []) (pm, cm) hemit
  have hcm : cm = cs := by simpa using hcs
  subst hcm
  have hperm := sort_records_perm cm
  have hvalid : ∀ c ∈ sort_records cm, ∃ g q0, block_graphs[c.target_graph_id]? = some g
      ∧ q0 ∈ g.paths
      ∧ consensus_path_of block_graphs (pass_A block_graphs).2 c
        = some { name := block_consensus_name consensus_base_name c.target_graph_id
                 steps := q0.steps.map
                   (translate_handle (total_node_count (block_graphs.take c.target_graph_id))) }
      := by
    intro c hc
    obtain ⟨g, hg, he⟩ := hval c (hperm.mem_iff.mp hc)
    obtain ⟨q0, hq0, hp⟩ := consensus_path_of_emitted block_graphs consensus_base_name c g hg he
    exact ⟨g, q0, hg, hq0, hp⟩
  have hids2 : ((sort_records cm).map path_position_range_t.target_graph_id).Perm
      (nonempty_blocks block_graphs) := by
    refine (hperm.map _).trans ?_
    rw [hids]
    exact hsched.filter _
  obtain ⟨f, hf⟩ : ∃ f : path_position_range_t → path_t, ∀ c ∈ sort_records cm,
      consensus_path_of block_graphs (pass_A block_graphs).2 c = some (f c) :=
    ⟨fun c => (consensus_path_of block_graphs (pass_A block_graphs).2 c).getD
        { name := "", steps := [] },
      fun c hc => by
        obtain ⟨g, q0, _, _, hp⟩ := hvalid c hc
        simp only [hp, Option.getD_some]⟩
  have hpaths := consensus_paths_some block_graphs (pass_A block_graphs).2 f _ hf
  have hnames : ((sort_records cm).map f).map path_t.name
      = ((sort_records cm).map path_position_range_t.target_graph_id).map
          (block_consensus_name consensus_base_name) := by
    rw [List.map_map, List.map_map]
    apply List.map_congr_left
    intro c hc
    obtain ⟨g, q0, _, _, hp⟩ := hvalid c hc
    have := hf c hc
    rw [hp] at this
    simp only [Function.comp_apply, ← Option.some.inj this]
  refine ⟨{ sm1 with paths := sm1.paths ++ (sort_records cm).map f }, (sort_records cm).map f,
    ?_, rfl, ?_, ?_, ?_⟩
  · rw [embed_consensus_eq, hpaths]
  · rw [List.length_map, ← hids2.length_eq, List.length_map]
  · intro b
    rw [hnames, List.count_map_of_injective _ _
      (fun x y h => block_consensus_name_inj consensus_base_name x y h), hids2.count_eq,
      List.count_eq_of_nodup (nonempty_blocks_nodup block_graphs)]
  · intro q hq
    obtain ⟨c, hc, hqc⟩ := List.mem_map.mp hq
    obtain ⟨g, q0, hg, hq0, hp⟩ := hvalid c hc
    have hfc := hf c hc
    rw [hp] at hfc
    have hq2 := (Option.some.inj hfc).trans hqc
    have hmem : c.target_graph_id ∈ nonempty_blocks block_graphs :=
      hids2.mem_iff.mp (List.mem_map_of_mem _ hc)
    refine ⟨c.target_graph_id, g, _, hmem, hg,
      pass_A_mapping_getElem? block_graphs c.target_graph_id g hg, by rw [← hq2], ?_⟩
    intro h hh
    rw [← hq2] at hh
    obtain ⟨h0, hh0, hh1⟩ := List.mem_map.mp hh
    have hb := hsteps g (List.getElem?_mem hg) q0 hq0 h0 hh0
    rw [← hh1]
    simp only [translate_handle]
    omega

/-- The statement of `consensus_path_fidelity` on the two blocks of the
example, the second of which has an empty subgraph: one consensus path,
`Consensus_0`, on the nodes 1 and 2 of the first block. -/
theorem consensus_path_fidelity_witness :
    ∃ sm2 qs,
      embed_consensus [consensus_block0, graph_t.empty]
        (pass_A [consensus_block0, graph_t.empty]).2 (sort_records [consensus_example_record])
        seed_assembled = some sm2
      ∧ sm2.paths = seed_assembled.paths ++ qs
      ∧ qs.length = (nonempty_blocks [consensus_block0, graph_t.empty]).length
      ∧ (∀ b : Nat, (qs.map path_t.name).count (block_consensus_name "Consensus_" b)
          = if b ∈ nonempty_blocks [consensus_block0, graph_t.empty] then 1 else 0)
      ∧ (∀ q ∈ qs, ∃ (b : Nat) (block : graph_t) (offset : Nat),
          b ∈ nonempty_blocks [consensus_block0, graph_t.empty]
          ∧ [consensus_block0, graph_t.empty][b]? = some block
          ∧ (pass_A [consensus_block0, graph_t.empty]).2[b]? = some offset
          ∧ q.name = block_consensus_name "Consensus_" b
          ∧ ∀ h ∈ q.steps, offset < h.id ∧ h.id ≤ offset + block.get_node_count) :=
  consensus_path_fidelity seed_graph "Consensus_" consensus_example_blocks
    [consensus_block0, graph_t.empty] [1, 0]
    (emit_path_records seed_graph
      { path_ranges := [{ begin := { path := 1, rank := 0 },
                          end_ := { path := 1, rank := 1 } }] } 0)
    [consensus_example_record] seed_assembled (by decide) (by decide) (by decide) (by decide)

end smoothxg

namespace smoothxg

theorem position_strict_mono (S : List Sequence) (hpos : ∀ s ∈ S, s ≠ []) (a b : Nat)
    (hab : a < b) (hb : b ≤ S.length) :
    (S.take a).flatten.length < (S.take b).flatten.length := by
  have ha : a < S.length := by omega
  have h1 : (S.take (a + 1)).flatten.length = (S.take a).flatten.length + S[a].length := by
    rw [List.take_succ, List.getElem?_eq_getElem ha, List.flatten_append, List.length_append]
    simp
  have h2 := position_mono S (a + 1) b (by omega)
  have h3 : 0 < S[a].length :=
    List.length_pos.mpr (hpos _ (List.getElem_mem ha))
  omega

theorem path_steps_nonempty (graph : XG)
    (hpos : ∀ q ∈ graph.paths, ∀ s ∈ q.steps, s ≠ []) (P : Nat) :
    ∀ s ∈ graph.path_steps P, s ≠ [] := by
  intro s hs
  cases P with
  | zero => simp [XG.path_steps] at hs
  | succ k =>
    simp only [XG.path_steps] at hs
    cases hq : graph.paths[k]? with
    | none => simp [hq] at hs
    | some q =>
      simp only [hq] at hs
      exact hpos q (List.getElem?_mem hq) s hs

theorem range_record_fields (graph : XG) (block_id k : Nat) (pr : path_range_t)
    (hpos : ∀ s ∈ graph.path_steps pr.begin.path, s ≠ [])
    (hpath : pr.begin.path = pr.end_.path) (hlt : pr.begin.rank < pr.end_.rank)
    (hend : pr.end_.rank ≤ graph.get_step_count pr.begin.path) (h64 : pr.end_.rank < 2 ^ 64) :
    (range_record graph block_id k pr).base_path = pr.begin.path
    ∧ (range_record graph block_id k pr).start_pos
        = ((graph.path_steps pr.begin.path).take pr.begin.rank).flatten.length
    ∧ (range_record graph block_id k pr).end_pos
        = ((graph.path_steps pr.begin.path).take pr.end_.rank).flatten.length
    ∧ (range_record graph block_id k pr).start_pos
        < (range_record graph block_id k pr).end_pos := by
  have hprev : graph.get_previous_step pr.end_
      = { path := pr.begin.path, rank := pr.end_.rank - 1 } := by
    have := get_previous_step_pos graph pr.end_.path pr.end_.rank (by omega) h64
    rw [hpath]
    exact this
  have hl : pr.end_.rank - 1 < (graph.path_steps pr.begin.path).length := by
    simp only [XG.get_step_count] at hend
    omega
  have hs : (graph.path_steps pr.begin.path)[pr.end_.rank - 1]?
      = some ((graph.path_steps pr.begin.path)[pr.end_.rank - 1]) :=
    List.getElem?_eq_getElem hl
  have hsucc := position_succ graph pr.begin.path (pr.end_.rank - 1) _ hs
  have hb1 : pr.end_.rank - 1 + 1 = pr.end_.rank := by omega
  rw [hb1] at hsucc
  have hlen : graph.step_length { path := pr.begin.path, rank := pr.end_.rank - 1 }
      = ((graph.path_steps pr.begin.path)[pr.end_.rank - 1]).length := by
    simp only [XG.step_length, XG.step_sequence, hs]
  have hendpos : (range_record graph block_id k pr).end_pos
      = ((graph.path_steps pr.begin.path).take pr.end_.rank).flatten.length := by
    simp only [range_record, hprev, hlen]
    exact hsucc
  have hstart : (range_record graph block_id k pr).start_pos
      = ((graph.path_steps pr.begin.path).take pr.begin.rank).flatten.length := rfl
  refine ⟨rfl, hstart, hendpos, ?_⟩
  rw [hstart, hendpos]
  exact position_strict_mono _ hpos _ _ hlt (by simpa [XG.get_step_count] using hend)

theorem disjoint_ranges_order (x y : path_range_t) (hx : x.begin.rank < x.end_.rank)
    (hy : y.begin.rank < y.end_.rank) (h : disjoint_ranges x y) :
    x.end_.rank ≤ y.begin.rank ∨ y.end_.rank ≤ x.begin.rank := by
  simp only [disjoint_ranges, step_interval, List.mem_range'_1] at h
  by_cases h1 : x.begin.rank < y.begin.rank
  · left
    by_contra hc
    exact h y.begin.rank (by omega) (by omega)
  · right
    by_contra hc
    exact h x.begin.rank (by omega) (by omega)

/-- C13 as stated fails with a zero-length range: the range of the first two
steps of the seed path and the empty range at its second step have no step in
common; their records sort in this order, and the first ends at offset 15,
after the start 10 of the second. -/
theorem tiling_counterexample :
    disjoint_ranges covering_range inner_empty_range
    ∧ disjoint_ranges inner_empty_range covering_range
    ∧ sort_records [range_record seed_graph 1 0 inner_empty_range,
          range_record seed_graph 0 0 covering_range]
        = [range_record seed_graph 0 0 covering_range,
           range_record seed_graph 1 0 inner_empty_range]
    ∧ (range_record seed_graph 0 0 covering_range).base_path
        = (range_record seed_graph 1 0 inner_empty_range).base_path
    ∧ ¬ ((range_record seed_graph 0 0 covering_range).end_pos
        ≤ (range_record seed_graph 1 0 inner_empty_range).start_pos) := by
  refine ⟨by decide, by decide, by decide, by decide, by decide⟩

/-- C13 (amended): tiling. Let the ranges of all blocks be non-empty step
intervals of their base paths, any two on the same base path without a common
step, and let every node on these paths hold at least one base. Then in the
sorted list of the records the driver computes for them, every record that
precedes another has a smaller base path, or the same base path and an
`end_pos` that is at most the `start_pos` of the other; in particular this
holds for consecutive records. Each entry of `emitted` is the block id, the
number of the range in its block, and the range. -/
theorem tiling (graph : XG) (emitted : List (Nat × Nat × path_range_t))
    (hpos : ∀ q ∈ graph.paths, ∀ s ∈ q.steps, s ≠ [])
    (hwf : ∀ t ∈ emitted, t.2.2.begin.path = t.2.2.end_.path
      ∧ t.2.2.begin.rank < t.2.2.end_.rank
      ∧ t.2.2.end_.rank ≤ graph.get_step_count t.2.2.begin.path
      ∧ t.2.2.end_.rank < 2 ^ 64)
    (hdis : emitted.Pairwise (fun t u =>
      t.2.2.begin.path = u.2.2.begin.path → disjoint_ranges t.2.2 u.2.2)) :
    (sort_records (emitted.map (fun t => range_record graph t.1 t.2.1 t.2.2))).Pairwise
        (fun a b => a.base_path < b.base_path
          ∨ (a.base_path = b.base_path ∧ a.end_pos ≤ b.start_pos))
    ∧ tiled (sort_records (emitted.map (fun t => range_record graph t.1 t.2.1 t.2.2))) := by
  have hrec : ∀ t ∈ emitted,
      (range_record graph t.1 t.2.1 t.2.2).start_pos
        < (range_record graph t.1 t.2.1 t.2.2).end_pos := by
    intro t ht
    obtain ⟨h1, h2, h3, h4⟩ := hwf t ht
    exact (range_record_fields graph t.1 t.2.1 t.2.2
      (path_steps_nonempty graph hpos _) h1 h2 h3 h4).2.2.2
  have hRR : (emitted.map (fun t => range_record graph t.1 t.2.1 t.2.2)).Pairwise
      (fun a b => a.base_path = b.base_path →
        (a.end_pos ≤ b.start_pos ∨ b.end_pos ≤ a.start_pos)) := by
    rw [List.pairwise_map]
    refine hdis.imp_of_mem ?_
    intro t u ht hu hd hbase
    obtain ⟨t1, t2, t3, t4⟩ := hwf t ht
    obtain ⟨u1, u2, u3, u4⟩ := hwf u hu
    obtain ⟨tb, ts, te, _⟩ := range_record_fields graph t.1 t.2.1 t.2.2
      (path_steps_nonempty graph hpos _) t1 t2 t3 t4
    obtain ⟨ub, us, ue, _⟩ := range_record_fields graph u.1 u.2.1 u.2.2
      (path_steps_nonempty graph hpos _) u1 u2 u3 u4
    have hsame : t.2.2.begin.path = u.2.2.begin.path := by
      rw [← tb, ← ub]
      exact hbase
    rw [ts, te, us, ue, hsame]
    rcases disjoint_ranges_order _ _ t2 u2 (hd hsame) with h | h
    · exact Or.inl (position_mono _ _ _ h)
    · exact Or.inr (position_mono _ _ _ h)
  have hperm := sort_records_perm (emitted.map (fun t => range_record graph t.1 t.2.1 t.2.2))
  have hRS := hRR.perm hperm.symm
    (fun {x y} h hb => (h hb.symm).symm)
  have hsorted := (sort_records_sorted
    (emitted.map (fun t => range_record graph t.1 t.2.1 t.2.2))).imp
      (fun h => (range_less_false_iff _ _).mp h)
  have hpw : (sort_records (emitted.map (fun t => range_record graph t.1 t.2.1 t.2.2))).Pairwise
      (fun a b => a.base_path < b.base_path
        ∨ (a.base_path = b.base_path ∧ a.end_pos ≤ b.start_pos)) := by
    refine (hsorted.and hRS).imp_of_mem ?_
    intro a b _ hbm hab
    obtain ⟨hs, hr⟩ := hab
    rcases hs with hlt | ⟨heq, hle⟩
    · exact Or.inl hlt
    · refine Or.inr ⟨heq, ?_⟩
      rcases hr heq with h | h
      · exact h
      · obtain ⟨u, hu, hub⟩ := List.mem_map.mp (hperm.mem_iff.mp hbm)
        have := hrec u hu
        rw [hub] at this
        omega
  exact ⟨hpw, hpw.chain'⟩

/-- The statement of `tiling` on the two records of the seed example: the
record of the first step ends at offset 10, before the start 15 of the record
of the third step. -/
theorem tiling_witness :
    (sort_records ([(1, 0, ({ begin := { path := 1, rank := 2 },
                              end_ := { path := 1, rank := 3 } } : path_range_t)),
                    (0, 0, ({ begin := { path := 1, rank := 0 },
                              end_ := { path := 1, rank := 1 } } : path_range_t))].map
        (fun t => range_record seed_graph t.1 t.2.1 t.2.2))).Pairwise
        (fun a b => a.base_path < b.base_path
          ∨ (a.base_path = b.base_path ∧ a.end_pos ≤ b.start_pos))
    ∧ tiled (sort_records ([(1, 0, ({ begin := { path := 1, rank := 2 },
                                      end_ := { path := 1, rank := 3 } } : path_range_t)),
                            (0, 0, ({ begin := { path := 1, rank := 0 },
                                      end_ := { path := 1, rank := 1 } } : path_range_t))].map
        (fun t => range_record seed_graph t.1 t.2.1 t.2.2))) :=
  tiling seed_graph _ (by decide) (by decide) (by decide)

end smoothxg

namespace smoothxg

theorem sort_records_unique (l l' : List path_position_range_t)
    (hkeys : l.Pairwise (fun a b => a.base_path ≠ b.base_path ∨ a.start_pos ≠ b.start_pos))
    (hp : l'.Perm l) : sort_records l' = sort_records l := by
  have hall : ∀ a ∈ l, ∀ b ∈ l, a.base_path = b.base_path → a.start_pos = b.start_pos →
      a = b := by
    intro a ha b hb h1 h2
    by_contra hne
    have := List.Pairwise.forall (fun x y h => by
      rcases h with h | h
      · exact Or.inl (Ne.symm h)
      · exact Or.inr (Ne.symm h)) hkeys ha hb hne
    rcases this with h | h
    · exact h h1
    · exact h h2
  refine List.Perm.eq_of_sorted ?_ (sort_records_sorted l') (sort_records_sorted l)
    ((sort_records_perm l').trans (hp.trans (sort_records_perm l).symm))
  intro a b ha hb hab hba
  have ha2 : a ∈ l := hp.mem_iff.mp ((sort_records_perm l').mem_iff.mp ha)
  have hb2 : b ∈ l := (sort_records_perm l).mem_iff.mp hb
  rw [range_less_false_iff] at hab hba
  exact hall a ha2 b hb2 (by omega) (by omega)

theorem consensus_paths_none (block_graphs : List graph_t) (id_mapping : List Nat)
    (cm : List path_position_range_t)
    (h : ∃ c ∈ cm, consensus_path_of block_graphs id_mapping c = none) :
    consensus_paths block_graphs id_mapping cm = none := by
  induction cm with
  | nil =>
    obtain ⟨c, hc, _⟩ := h
    cases hc
  | cons x rest ih =>
    obtain ⟨c, hc, hn⟩ := h
    unfold consensus_paths
    rcases List.mem_cons.mp hc with h1 | h1
    · rw [← h1, hn]
    · rw [ih ⟨c, h1, hn⟩]
      cases consensus_path_of block_graphs id_mapping x <;> rfl

theorem embed_consensus_perm (block_graphs : List graph_t) (id_mapping : List Nat)
    (cm cm' : List path_position_range_t) (hp : cm'.Perm cm) (sm : graph_t) :
    (embed_consensus block_graphs id_mapping cm sm = none
      ∧ embed_consensus block_graphs id_mapping cm' sm = none)
    ∨ ∃ qs qs', embed_consensus block_graphs id_mapping cm sm
          = some { sm with paths := sm.paths ++ qs }
        ∧ embed_consensus block_graphs id_mapping cm' sm
          = some { sm with paths := sm.paths ++ qs' }
        ∧ qs'.Perm qs := by
  by_cases hall : ∀ c ∈ cm, consensus_path_of block_graphs id_mapping c ≠ none
  · right
    obtain ⟨F, hf⟩ : ∃ F : path_position_range_t → path_t,
        ∀ l : List path_position_range_t, (∀ c ∈ l, c ∈ cm) →
          consensus_paths block_graphs id_mapping l = some (l.map F) := by
      refine ⟨fun c => (consensus_path_of block_graphs id_mapping c).getD
        { name := "", steps := [] }, ?_⟩
      intro l hl
      apply consensus_paths_some
      intro c hc
      cases hq : consensus_path_of block_graphs id_mapping c with
      | none => exact absurd hq (hall c (hl c hc))
      | some q => rfl
    refine ⟨cm.map F, cm'.map F, ?_, ?_, hp.map F⟩
    · rw [embed_consensus_eq, hf cm (fun c hc => hc)]
    · rw [embed_consensus_eq, hf cm' (fun c hc => hp.mem_iff.mp hc)]
  · left
    have hex : ∃ c ∈ cm, consensus_path_of block_graphs id_mapping c = none := by
      by_contra hno
      exact hall (fun c hc hn => hno ⟨c, hc, hn⟩)
    obtain ⟨c, hc, hn⟩ := hex
    constructor
    · rw [embed_consensus_eq, consensus_paths_none _ _ _ ⟨c, hc, hn⟩]
    · rw [embed_consensus_eq, consensus_paths_none _ _ _ ⟨c, hp.mem_iff.mpr hc, hn⟩]

theorem lace_eq (graph : XG) (block_graphs : List graph_t)
    (pm cm : List path_position_range_t) :
    lace graph block_graphs pm cm
      = match pass_B graph block_graphs (pass_A block_graphs).2 (sort_records pm)
          (pass_A block_graphs).1 with
        | none => outcome.undefined
        | some smoothed =>
          if verify graph smoothed then
            match embed_consensus block_graphs (pass_A block_graphs).2 (sort_records cm)
                smoothed with
            | none => outcome.undefined
            | some final => outcome.returned final
          else outcome.exited 1 := rfl

/-- C12: the assembled graph depends on the order in which the workers
appended the consensus records. The records of two blocks both carry the sort
key (0, 0), so the comparator orders neither before the other and the sort of
`consensus_mapping` leaves them as it finds them; the two append orders of the
same two records give assembled graphs whose consensus paths come in different
orders, `Consensus_0` before `Consensus_1` in one run and after it in the
other. -/
theorem consensus_order_by_completion :
    [consensus_example_record1, consensus_example_record].Perm
        [consensus_example_record, consensus_example_record1]
    ∧ range_less consensus_example_record consensus_example_record1 = false
    ∧ range_less consensus_example_record1 consensus_example_record = false
    ∧ lace seed_graph [consensus_block0, consensus_block1] [seed_record0, seed_record1]
          [consensus_example_record, consensus_example_record1]
        ≠ lace seed_graph [consensus_block0, consensus_block1] [seed_record0, seed_record1]
          [consensus_example_record1, consensus_example_record]
    ∧ (∃ g, lace seed_graph [consensus_block0, consensus_block1] [seed_record0, seed_record1]
          [consensus_example_record, consensus_example_record1] = outcome.returned g
        ∧ g.paths.map path_t.name = ["p", "Consensus_0", "Consensus_1"])
    ∧ (∃ g, lace seed_graph [consensus_block0, consensus_block1] [seed_record0, seed_record1]
          [consensus_example_record1, consensus_example_record] = outcome.returned g
        ∧ g.paths.map path_t.name = ["p", "Consensus_1", "Consensus_0"]) := by
  refine ⟨List.Perm.swap _ _ _, by decide, by decide, by decide, ⟨_, rfl, by decide⟩,
    ⟨_, rfl, by decide⟩⟩

/-- What the two sorts do fix. When the sort keys (base path, start_pos) of
the path records are pairwise different, the outcome does not depend on the
order of `path_mapping`. Under a reordering of both record lists the run ends
the same way, and when it returns a graph, the nodes, the edges and the base
paths are the same and the consensus paths that follow them are the same
paths, in an order that may differ. -/
theorem lacing_determinism (graph : XG) (block_graphs : List graph_t)
    (pm pm' cm cm' : List path_position_range_t)
    (hkeys : pm.Pairwise (fun a b => a.base_path ≠ b.base_path ∨ a.start_pos ≠ b.start_pos))
    (hp : pm'.Perm pm) (hc : cm'.Perm cm) :
    lace graph block_graphs pm' cm = lace graph block_graphs pm cm
    ∧ (∀ g, lace graph block_graphs pm cm = outcome.returned g →
        ∃ g' base qs qs', lace graph block_graphs pm' cm' = outcome.returned g'
          ∧ g'.nodes = g.nodes ∧ g'.edges = g.edges
          ∧ pass_B graph block_graphs (pass_A block_graphs).2 (sort_records pm)
              (pass_A block_graphs).1 = some { g with paths := base }
          ∧ g.paths = base ++ qs ∧ g'.paths = base ++ qs' ∧ qs'.Perm qs)
    ∧ (∀ status, lace graph block_graphs pm cm = outcome.exited status →
        lace graph block_graphs pm' cm' = outcome.exited status)
    ∧ (lace graph block_graphs pm cm = outcome.undefined →
        lace graph block_graphs pm' cm' = outcome.undefined) := by
  have hsort := sort_records_unique pm pm' hkeys hp
  have hcs : (sort_records cm').Perm (sort_records cm) :=
    (sort_records_perm cm').trans (hc.trans (sort_records_perm cm).symm)
  simp only [lace_eq, hsort]
  cases hpb : pass_B graph block_graphs (pass_A block_graphs).2 (sort_records pm)
      (pass_A block_graphs).1 with
  | none => simp
  | some sm =>
    simp only [true_and]
    cases hv : verify graph sm with
    | false => simp
    | true =>
      simp only [if_true]
      rcases embed_consensus_perm block_graphs (pass_A block_graphs).2 _ _ hcs sm with
        ⟨h1, h2⟩ | ⟨qs, qs', h1, h2, hq⟩
      · simp [h1, h2]
      · simp only [h1, h2, outcome.returned.injEq, reduceCtorEq, false_implies, implies_true,
          and_true]
        intro g hg
        refine ⟨_, sm.paths, qs, qs', rfl, ?_, ?_, ?_, ?_, rfl, hq⟩
        · rw [← hg]
        · rw [← hg]
        · rw [← hg]
        · rw [← hg]

/-- The statement of `lacing_determinism` on the seed example with the two
path records and the two consensus records appended in the opposite order. -/
theorem lacing_determinism_witness :
    lace seed_graph [consensus_block0, consensus_block1] [seed_record1, seed_record0]
        [consensus_example_record, consensus_example_record1]
      = lace seed_graph [consensus_block0, consensus_block1] [seed_record0, seed_record1]
        [consensus_example_record, consensus_example_record1]
    ∧ (∃ g, lace seed_graph [consensus_block0, consensus_block1] [seed_record0, seed_record1]
          [consensus_example_record, consensus_example_record1] = outcome.returned g) :=
  ⟨(lacing_determinism seed_graph [consensus_block0, consensus_block1]
      [seed_record0, seed_record1] [seed_record1, seed_record0]
      [consensus_example_record, consensus_example_record1]
      [consensus_example_record1, consensus_example_record]
      (by decide) (List.Perm.swap _ _ _) (List.Perm.swap _ _ _)).1, ⟨_, rfl⟩⟩

end smoothxg

namespace smoothxg

theorem joined_mono (g g' : graph_t) (h : ∀ e ∈ g.edges, e ∈ g'.edges) (s t : handle_t)
    (hj : joined g s t) : joined g' s t := by
  rcases hj with hj | hj
  · exact Or.inl (h _ hj)
  · exact Or.inr (h _ hj)

theorem embedded_mono (g g' : graph_t) (h : ∀ e ∈ g.edges, e ∈ g'.edges)
    (steps : List handle_t) (he : embedded g steps) : embedded g' steps :=
  List.Chain'.imp (fun s t hj => joined_mono g g' h s t hj) he

theorem embedded_append (g : graph_t) (l1 l2 : List handle_t)
    (h1 : embedded g l1) (h2 : embedded g l2)
    (hlink : ∀ x ∈ l1.getLast?, ∀ y ∈ l2.head?, joined g x y) : embedded g (l1 ++ l2) :=
  List.chain'_append.mpr ⟨h1, h2, hlink⟩

theorem translate_flip (o : Nat) (h : handle_t) :
    translate_handle o (flip h) = flip (translate_handle o h) := rfl

theorem translated_edge_forward (o : Nat) (e : edge_t)
    (h : e.1.is_reverse = false ∧ e.2.is_reverse = false) :
    translated_edge o e = (translate_handle o e.1, translate_handle o e.2) := by
  simp only [translated_edge, translate_handle, h.1, h.2, Nat.add_comm o]

theorem pass_A_joined (block_graphs : List graph_t) (b : Nat) (block : graph_t) (o : Nat)
    (hb : block_graphs[b]? = some block) (ho : (pass_A block_graphs).2[b]? = some o)
    (hfwd : forward_edges block) (hends : edge_ends_exist block) (s t : handle_t)
    (hj : joined block s t) :
    joined (pass_A block_graphs).1 (translate_handle o s) (translate_handle o t) := by
  have ho2 := pass_A_mapping_getElem? block_graphs b block hb
  rw [ho] at ho2
  have hoe : o = total_node_count (block_graphs.take b) := Option.some.inj ho2
  have hmem : ∀ e ∈ block.edges, translated_edge o e ∈ (pass_A block_graphs).1.edges := by
    intro e he
    have hcount : block.get_node_count ≠ 0 := by
      have := (hends e he).1
      omega
    unfold pass_A
    rw [merge_blocks_edges_mem]
    refine Or.inr ⟨b, block, hb, hcount, e, he, ?_⟩
    rw [hoe]
    simp [graph_t.empty, graph_t.get_node_count]
  rcases hj with hj | hj
  · left
    have := hmem _ hj
    rwa [translated_edge_forward o _ (hfwd _ hj)] at this
  · right
    have := hmem _ hj
    rwa [translated_edge_forward o _ (hfwd _ hj)] at this

theorem pass_A_embedded (block_graphs : List graph_t) (b : Nat) (block : graph_t) (o : Nat)
    (hb : block_graphs[b]? = some block) (ho : (pass_A block_graphs).2[b]? = some o)
    (hfwd : forward_edges block) (hends : edge_ends_exist block) (steps : List handle_t)
    (he : embedded block steps) :
    embedded (pass_A block_graphs).1 (steps.map (translate_handle o)) :=
  List.chain'_map_of_chain' (translate_handle o)
    (fun s t hj => pass_A_joined block_graphs b block o hb ho hfwd hends s t hj) he

theorem link_from_last_edges (sm sm1 : graph_t) (last_step : step_handle_t) (h : handle_t)
    (hrun : link_from_last sm last_step h = some sm1) :
    ∀ e ∈ sm.edges, e ∈ sm1.edges := by
  unfold link_from_last at hrun
  split at hrun
  · cases hl : sm.get_handle_of_step last_step with
    | none => simp [hl] at hrun
    | some l =>
      simp only [hl, Option.some.injEq] at hrun
      rw [← hrun]
      intro e he
      exact (create_edge_mem sm l h e).mpr (Or.inl he)
  · cases hrun
    exact fun e he => he

theorem link_from_last_linked (sm sm1 : graph_t) (done : List path_t) (nm : String)
    (steps extra : List handle_t) (last_step : step_handle_t) (h : handle_t)
    (hp : sm.paths = done ++ [{ name := nm, steps := steps ++ extra }])
    (hne : steps ≠ [])
    (hlast : last_step = { path := done.length + 1, rank := steps.length - 1 })
    (hrun : link_from_last sm last_step h = some sm1) :
    ∀ l ∈ steps.getLast?, (l, h) ∈ sm1.edges := by
  rw [link_from_last_spec sm done nm steps extra last_step h hp (Or.inr ⟨hne, hlast⟩)] at hrun
  intro l hl
  have hl2 : steps.getLast? = some l := hl
  rw [← Option.some.inj hrun, hl2]
  exact create_edge_edges_mem sm l h

theorem embed_fragment_link (id_trans : Nat) (last_step : step_handle_t)
    (frag : List handle_t) (sm sm1 : graph_t) (done : List path_t) (nm : String)
    (steps : List handle_t)
    (hp : sm.paths = done ++ [{ name := nm, steps := steps }])
    (hlast : steps ≠ [] → last_step = { path := done.length + 1, rank := steps.length - 1 })
    (hrun : embed_fragment id_trans (done.length + 1) last_step frag true sm = some sm1) :
    sm1.paths = done ++
        [{ name := nm, steps := steps ++ frag.map (translate_handle id_trans) }]
    ∧ (∀ e ∈ sm.edges, e ∈ sm1.edges)
    ∧ (∀ l ∈ steps.getLast?, ∀ y ∈ (frag.map (translate_handle id_trans)).head?,
        (l, y) ∈ sm1.edges) := by
  cases frag with
  | nil =>
    simp only [embed_fragment, Option.some.injEq] at hrun
    rw [← hrun]
    refine ⟨by simpa using hp, fun e he => he, ?_⟩
    intro l _ y hy
    simp at hy
  | cons h rest =>
    have hp1 := append_step_last sm done nm steps (translate_handle id_trans h) hp
    have he1 := append_step_edges sm (done.length + 1) (translate_handle id_trans h)
    have hrun1 : (match link_from_last (sm.append_step (done.length + 1)
          (translate_handle id_trans h)) last_step (translate_handle id_trans h) with
        | none => none
        | some sm2 => embed_fragment id_trans (done.length + 1) last_step rest false sm2)
        = some sm1 := hrun
    cases hl : link_from_last (sm.append_step (done.length + 1)
        (translate_handle id_trans h)) last_step (translate_handle id_trans h) with
    | none => simp [hl] at hrun1
    | some sm2 =>
      simp only [hl] at hrun1
      obtain ⟨_, hp2⟩ := link_from_last_frame _ _ _ _ hl
      have hp3 : sm2.paths = done ++
          [{ name := nm, steps := steps ++ [translate_handle id_trans h] }] := by
        rw [hp2, hp1]
      rw [embed_fragment_rest id_trans last_step rest sm2 done nm _ hp3] at hrun1
      have hsm1 := Option.some.inj hrun1
      have hedges : sm1.edges = sm2.edges := by rw [← hsm1]
      refine ⟨?_, ?_, ?_⟩
      · rw [← hsm1]
        simp
      · intro e he
        rw [hedges]
        exact link_from_last_edges _ _ _ _ hl e (by rw [he1]; exact he)
      · intro l hl2 y hy
        have hne : steps ≠ [] := by
          intro h0
          rw [h0] at hl2
          cases hl2
        have hy2 : y = translate_handle id_trans h := by
          simp only [List.map_cons, List.head?_cons, Option.mem_def, Option.some.injEq] at hy
          exact hy.symm
        rw [hy2, hedges]
        exact link_from_last_linked _ sm2 done nm steps [translate_handle id_trans h]
          last_step _ hp1 hne (hlast hne) hl l hl2

theorem fill_gap_link (graph : XG) (done : List path_t) (nm : String)
    (steps : List handle_t) (st st2 : lace_state) (r : path_position_range_t)
    (hp : st.smoothed.paths = done ++ [{ name := nm, steps := steps }])
    (hh : st.smoothed_path = done.length + 1)
    (hlast : steps ≠ [] → st.last_step = { path := done.length + 1, rank := steps.length - 1 })
    (hrun : fill_gap graph r st = some st2) :
    ∃ g, st2.smoothed.paths = done ++ [{ name := nm, steps := steps ++ [g] }]
      ∧ (∀ e ∈ st.smoothed.edges, e ∈ st2.smoothed.edges)
      ∧ (∀ l ∈ steps.getLast?, (l, g) ∈ st2.smoothed.edges)
      ∧ st2.smoothed_path = st.smoothed_path
      ∧ st2.last_step = { path := done.length + 1, rank := (steps ++ [g]).length - 1 } := by
  unfold fill_gap at hrun
  simp only [] at hrun
  split at hrun
  · exact absurd hrun (by simp)
  · rename_i seq _
    have hp0 : (st.smoothed.create_handle seq).1.paths
        = done ++ [{ name := nm, steps := steps }] := hp
    have hp1 := append_step_last (st.smoothed.create_handle seq).1 done nm steps
      (st.smoothed.create_handle seq).2 hp0
    rw [hh] at hrun
    cases hl : link_from_last ((st.smoothed.create_handle seq).1.append_step (done.length + 1)
        (st.smoothed.create_handle seq).2) st.last_step (st.smoothed.create_handle seq).2 with
    | none => simp [hl] at hrun
    | some sm3 =>
      simp only [hl, Option.some.injEq] at hrun
      obtain ⟨_, hp3⟩ := link_from_last_frame _ _ _ _ hl
      have hp4 : sm3.paths = done ++
          [{ name := nm, steps := steps ++ [(st.smoothed.create_handle seq).2] }] := by
        rw [hp3, hp1]
      refine ⟨(st.smoothed.create_handle seq).2, ?_, ?_, ?_, ?_, ?_⟩
      · rw [← hrun]
        exact hp4
      · intro e he
        rw [← hrun]
        refine link_from_last_edges _ _ _ _ hl e ?_
        rw [append_step_edges]
        exact he
      · intro l hl2
        have hne : steps ≠ [] := by
          intro h0
          rw [h0] at hl2
          cases hl2
        rw [← hrun]
        exact link_from_last_linked _ sm3 done nm steps [(st.smoothed.create_handle seq).2]
          st.last_step _ hp1 hne (hlast hne) hl l hl2
      · rw [← hrun, hh]
      · rw [← hrun]
        exact path_back_last sm3 done nm _ hp4 (by simp)

theorem path_steps_mem (g : graph_t) (p : Nat) (l : List handle_t)
    (h : g.path_steps p = some l) : ∃ q ∈ g.paths, q.steps = l := by
  cases p with
  | zero => simp [graph_t.path_steps] at h
  | succ k =>
    simp only [graph_t.path_steps] at h
    cases hq : g.paths[k]? with
    | none => simp [hq] at h
    | some q =>
      simp only [hq, Option.some.injEq] at h
      exact ⟨q, List.getElem?_mem hq, h⟩

theorem embedded_singleton (g : graph_t) (h : handle_t) : embedded g [h] :=
  List.chain'_singleton h

theorem lace_range_link (graph : XG) (block_graphs : List graph_t) (id_mapping : List Nat)
    (r : path_position_range_t) (st st1 : lace_state) (done : List path_t) (nm : String)
    (steps : List handle_t)
    (hp : st.smoothed.paths = done ++ [{ name := nm, steps := steps }])
    (hh : st.smoothed_path = done.length + 1)
    (hlast : steps ≠ [] → st.last_step = { path := done.length + 1, rank := steps.length - 1 })
    (hemb : embedded st.smoothed steps)
    (hbase : block_paths_embedded block_graphs id_mapping st.smoothed)
    (hrun : lace_range graph block_graphs id_mapping r st = some st1) :
    ∃ steps1, st1.smoothed.paths = done ++ [{ name := nm, steps := steps1 }]
      ∧ st1.smoothed_path = done.length + 1
      ∧ (steps1 ≠ [] →
          st1.last_step = { path := done.length + 1, rank := steps1.length - 1 })
      ∧ (∀ e ∈ st.smoothed.edges, e ∈ st1.smoothed.edges)
      ∧ embedded st1.smoothed steps1 := by
  unfold lace_range at hrun
  cases hf : (if gap_detected r.start_pos st.last_end_pos = true
      then fill_gap graph r st else some st) with
  | none => simp [hf] at hrun
  | some st2 =>
    simp only [hf] at hrun
    obtain ⟨steps2, hp2, hh2, hlast2, hedges2, hemb2⟩ :
        ∃ steps2, st2.smoothed.paths = done ++ [{ name := nm, steps := steps2 }]
          ∧ st2.smoothed_path = done.length + 1
          ∧ (steps2 ≠ [] →
              st2.last_step = { path := done.length + 1, rank := steps2.length - 1 })
          ∧ (∀ e ∈ st.smoothed.edges, e ∈ st2.smoothed.edges)
          ∧ embedded st2.smoothed steps2 := by
      by_cases hg : gap_detected r.start_pos st.last_end_pos = true
      · rw [if_pos hg] at hf
        obtain ⟨g, hpg, heg, hlg, hhg, hlastg⟩ :=
          fill_gap_link graph done nm steps st st2 r hp hh hlast hf
        refine ⟨steps ++ [g], hpg, by rw [hhg, hh], fun _ => hlastg, heg, ?_⟩
        refine embedded_append _ _ _ (embedded_mono _ _ heg _ hemb) (embedded_singleton _ g) ?_
        intro l hl y hy
        simp only [List.head?_cons, Option.mem_def, Option.some.injEq] at hy
        rw [← hy]
        exact Or.inl (hlg l hl)
      · rw [if_neg hg] at hf
        cases hf
        exact ⟨steps, hp, hh, hlast, fun e he => he, hemb⟩
    cases hblk : block_graphs[r.target_graph_id]? with
    | none => simp [hblk] at hrun
    | some block =>
      cases hid : id_mapping[r.target_graph_id]? with
      | none => simp [hblk, hid] at hrun
      | some id_trans =>
        cases hfr : block.path_steps r.target_path with
        | none => simp [hblk, hid, hfr] at hrun
        | some frag =>
          cases hem : embed_fragment id_trans st2.smoothed_path st2.last_step frag true
              st2.smoothed with
          | none => simp [hblk, hid, hfr, hem] at hrun
          | some sm =>
            simp only [hblk, hid, hfr, hem, Option.some.injEq] at hrun
            rw [hh2] at hem
            obtain ⟨hp3, hedges3, hlink3⟩ := embed_fragment_link id_trans st2.last_step frag
              st2.smoothed sm done nm steps2 hp2 hlast2 hem
            obtain ⟨q, hq, hqs⟩ := path_steps_mem block r.target_path frag hfr
            have hfrag : embedded st.smoothed (frag.map (translate_handle id_trans)) := by
              rw [← hqs]
              exact hbase r.target_graph_id block id_trans hblk hid q hq
            have hall : ∀ e ∈ st.smoothed.edges, e ∈ sm.edges :=
              fun e he => hedges3 e (hedges2 e he)
            refine ⟨steps2 ++ frag.map (translate_handle id_trans), ?_, ?_, ?_, ?_, ?_⟩
            · rw [← hrun]
              exact hp3
            · rw [← hrun]
              exact hh2
            · intro hne
              rw [← hrun]
              simp only []
              rw [hh2]
              exact path_back_last sm done nm _ hp3 hne
            · rw [← hrun]
              exact hall
            · rw [← hrun]
              refine embedded_append _ _ _ (embedded_mono _ _ hedges3 _ hemb2)
                (embedded_mono _ _ hall _ hfrag) ?_
              intro l hl y hy
              exact Or.inl (hlink3 l hl y hy)

theorem lace_trailing_link (graph : XG) (r : path_position_range_t) (st : lace_state)
    (sm : graph_t) (done : List path_t) (nm : String) (steps : List handle_t)
    (hp : st.smoothed.paths = done ++ [{ name := nm, steps := steps }])
    (hh : st.smoothed_path = done.length + 1)
    (hlast : steps ≠ [] → st.last_step = { path := done.length + 1, rank := steps.length - 1 })
    (hemb : embedded st.smoothed steps)
    (hrun : lace_trailing graph r st = some sm) :
    ∃ steps1, sm.paths = done ++ [{ name := nm, steps := steps1 }]
      ∧ (∀ e ∈ st.smoothed.edges, e ∈ sm.edges)
      ∧ embedded sm steps1 := by
  unfold lace_trailing at hrun
  split at hrun
  · cases hc : collect_sequence graph r.end_step (graph.path_end r.base_path) with
    | none => simp [hc] at hrun
    | some seq =>
      simp only [hc] at hrun
      cases hl : (st.smoothed.create_handle seq).1.get_handle_of_step st.last_step with
      | none => simp [hl] at hrun
      | some l =>
        simp only [hl, Option.some.injEq] at hrun
        have hp0 : ((st.smoothed.create_handle seq).1.create_edge l
            (st.smoothed.create_handle seq).2).paths
            = done ++ [{ name := nm, steps := steps }] := by
          rw [create_edge_paths]
          exact hp
        have hp1 := append_step_last _ done nm steps (st.smoothed.create_handle seq).2 hp0
        rw [hh] at hrun
        have hedges : ∀ e, e ∈ sm.edges ↔ e ∈ st.smoothed.edges
            ∨ e = (l, (st.smoothed.create_handle seq).2) := by
          intro e
          rw [← hrun, append_step_edges, create_edge_mem]
          rfl
        refine ⟨steps ++ [(st.smoothed.create_handle seq).2], ?_, ?_, ?_⟩
        · rw [← hrun]
          exact hp1
        · intro e he
          exact (hedges e).mpr (Or.inl he)
        · refine embedded_append _ _ _
            (embedded_mono _ _ (fun e he => (hedges e).mpr (Or.inl he)) _ hemb)
            (embedded_singleton _ _) ?_
          intro x hx y hy
          simp only [List.head?_cons, Option.mem_def, Option.some.injEq] at hy
          have hne : steps ≠ [] := by
            intro h0
            rw [h0] at hx
            cases hx
          have hls := hlast hne
          have hget : (st.smoothed.create_handle seq).1.get_handle_of_step st.last_step
              = steps.getLast? := by
            have hpc : (st.smoothed.create_handle seq).1.paths
                = done ++ [{ name := nm, steps := steps }] := hp
            rw [hls, get_handle_of_step_last _ done nm steps hpc, getElem?_length_sub_one]
          rw [hget] at hl
          have hx2 : steps.getLast? = some x := hx
          rw [hx2] at hl
          have hxl : x = l := Option.some.inj hl
          rw [← hy, hxl]
          exact Or.inl ((hedges _).mpr (Or.inr rfl))
  · cases hrun
    exact ⟨steps, hp, fun e he => he, hemb⟩

theorem block_paths_embedded_mono (block_graphs : List graph_t) (id_mapping : List Nat)
    (g g' : graph_t) (h : ∀ e ∈ g.edges, e ∈ g'.edges)
    (hb : block_paths_embedded block_graphs id_mapping g) :
    block_paths_embedded block_graphs id_mapping g' :=
  fun b block o hblk ho q hq => embedded_mono g g' h _ (hb b block o hblk ho q hq)

theorem embed_paths_link (graph : XG) (block_graphs : List graph_t) (id_mapping : List Nat)
    (rest : List path_position_range_t) :
    ∀ (r : path_position_range_t) (cur : Option lace_state) (sm : graph_t)
      (st0 : lace_state) (final : graph_t) (done : List path_t) (nm : String)
      (steps : List handle_t),
      (match cur with
        | some st => st
        | none => start_path graph r sm) = st0 →
      st0.smoothed.paths = done ++ [{ name := nm, steps := steps }] →
      st0.smoothed_path = done.length + 1 →
      (steps ≠ [] → st0.last_step = { path := done.length + 1, rank := steps.length - 1 }) →
      embedded st0.smoothed steps →
      (∀ q ∈ done, embedded st0.smoothed q.steps) →
      block_paths_embedded block_graphs id_mapping st0.smoothed →
      embed_paths graph block_graphs id_mapping (r :: rest) cur sm = some final →
      (∀ q ∈ final.paths, embedded final q.steps)
        ∧ (∀ e ∈ st0.smoothed.edges, e ∈ final.edges) := by
  induction rest with
  | nil =>
    intro r cur sm st0 final done nm steps h0 hp hh hlast hemb hdone hbase hrun
    rw [embed_paths_cons, h0] at hrun
    cases h1 : lace_range graph block_graphs id_mapping r st0 with
    | none => simp [h1] at hrun
    | some st1 =>
      simp only [h1, last_of_path_nil, if_true] at hrun
      obtain ⟨steps1, hp1, hh1, hlast1, hedges1, hemb1⟩ := lace_range_link graph block_graphs
        id_mapping r st0 st1 done nm steps hp hh hlast hemb hbase h1
      cases h2 : lace_trailing graph r st1 with
      | none => simp [h2] at hrun
      | some sm1 =>
        simp only [h2] at hrun
        have hfin : sm1 = final := by
          have : embed_paths graph block_graphs id_mapping [] none sm1 = some sm1 := rfl
          rw [this] at hrun
          exact Option.some.inj hrun
        obtain ⟨steps2, hp2, hedges2, hemb2⟩ :=
          lace_trailing_link graph r st1 sm1 done nm steps1 hp1 hh1 hlast1 hemb1 h2
        rw [← hfin]
        have hall : ∀ e ∈ st0.smoothed.edges, e ∈ sm1.edges :=
          fun e he => hedges2 e (hedges1 e he)
        refine ⟨?_, hall⟩
        intro q hq
        rw [hp2] at hq
        rcases List.mem_append.mp hq with hq1 | hq1
        · exact embedded_mono _ _ hall _ (hdone q hq1)
        · rw [List.mem_singleton.mp hq1]
          exact hemb2
  | cons next rest2 ih =>
    intro r cur sm st0 final done nm steps h0 hp hh hlast hemb hdone hbase hrun
    rw [embed_paths_cons, h0] at hrun
    cases h1 : lace_range graph block_graphs id_mapping r st0 with
    | none => simp [h1] at hrun
    | some st1 =>
      simp only [h1] at hrun
      obtain ⟨steps1, hp1, hh1, hlast1, hedges1, hemb1⟩ := lace_range_link graph block_graphs
        id_mapping r st0 st1 done nm steps hp hh hlast hemb hbase h1
      cases hl : last_of_path r (next :: rest2) with
      | true =>
        simp only [hl, if_true] at hrun
        cases h2 : lace_trailing graph r st1 with
        | none => simp [h2] at hrun
        | some sm1 =>
          simp only [h2] at hrun
          obtain ⟨steps2, hp2, hedges2, hemb2⟩ :=
            lace_trailing_link graph r st1 sm1 done nm steps1 hp1 hh1 hlast1 hemb1 h2
          have hall : ∀ e ∈ st0.smoothed.edges, e ∈ sm1.edges :=
            fun e he => hedges2 e (hedges1 e he)
          have hpn : (start_path graph next sm1).smoothed.paths
              = (done ++ [{ name := nm, steps := steps2 }])
                ++ [{ name := graph.get_path_name next.base_path, steps := [] }] := by
            simp [start_path, graph_t.create_path_handle, hp2]
          have hhn : (start_path graph next sm1).smoothed_path
              = (done ++ [({ name := nm, steps := steps2 } : path_t)]).length + 1 := by
            simp [start_path, graph_t.create_path_handle, hp2]
          have hedn : ∀ e ∈ sm1.edges, e ∈ (start_path graph next sm1).smoothed.edges :=
            fun e he => he
          have hdonen : ∀ q ∈ done ++ [({ name := nm, steps := steps2 } : path_t)],
              embedded (start_path graph next sm1).smoothed q.steps := by
            intro q hq
            rcases List.mem_append.mp hq with hq1 | hq1
            · exact embedded_mono _ _ (fun e he => hedn e (hall e he)) _ (hdone q hq1)
            · rw [List.mem_singleton.mp hq1]
              exact embedded_mono _ _ hedn _ hemb2
          obtain ⟨hres, hedr⟩ := ih next none sm1 (start_path graph next sm1) final _ _ []
            rfl hpn hhn (fun h => absurd rfl h) List.chain'_nil hdonen
            (block_paths_embedded_mono _ _ _ _ (fun e he => hedn e (hall e he)) hbase) hrun
          exact ⟨hres, fun e he => hedr e (hedn e (hall e he))⟩
      | false =>
        simp only [hl, Bool.false_eq_true, if_false] at hrun
        obtain ⟨hres, hedr⟩ := ih next (some st1) st1.smoothed st1 final done nm steps1 rfl
          hp1 hh1 hlast1 hemb1
          (fun q hq => embedded_mono _ _ hedges1 _ (hdone q hq))
          (block_paths_embedded_mono _ _ _ _ hedges1 hbase) hrun
        exact ⟨hres, fun e he => hedr e (hedges1 e he)⟩

theorem consensus_paths_mem (block_graphs : List graph_t) (id_mapping : List Nat)
    (cm : List path_position_range_t) :
    ∀ qs, consensus_paths block_graphs id_mapping cm = some qs →
      ∀ q ∈ qs, ∃ c ∈ cm, consensus_path_of block_graphs id_mapping c = some q := by
  induction cm with
  | nil =>
    intro qs h q hq
    simp only [consensus_paths, Option.some.injEq] at h
    rw [← h] at hq
    cases hq
  | cons c rest ih =>
    intro qs h q hq
    unfold consensus_paths at h
    cases hc : consensus_path_of block_graphs id_mapping c with
    | none => simp [hc] at h
    | some q0 =>
      cases hr : consensus_paths block_graphs id_mapping rest with
      | none => simp [hc, hr] at h
      | some qs0 =>
        simp only [hc, hr, Option.some.injEq] at h
        rw [← h] at hq
        rcases List.mem_cons.mp hq with h1 | h1
        · exact ⟨c, List.mem_cons_self _ _, by rw [hc, h1]⟩
        · obtain ⟨c2, hc2, hq2⟩ := ih qs0 hr q h1
          exact ⟨c2, List.mem_cons_of_mem _ hc2, hq2⟩

theorem consensus_path_of_embedded (block_graphs : List graph_t) (id_mapping : List Nat)
    (sm : graph_t) (hbase : block_paths_embedded block_graphs id_mapping sm)
    (c : path_position_range_t) (q : path_t)
    (h : consensus_path_of block_graphs id_mapping c = some q) : embedded sm q.steps := by
  unfold consensus_path_of at h
  cases hblk : block_graphs[c.target_graph_id]? with
  | none => simp [hblk] at h
  | some block =>
    cases hid : id_mapping[c.target_graph_id]? with
    | none => simp [hblk, hid] at h
    | some id_trans =>
      cases hfr : block.path_steps c.target_path with
      | none => simp [hblk, hid, hfr] at h
      | some frag =>
        simp only [hblk, hid, hfr, Option.some.injEq] at h
        obtain ⟨q0, hq0, hqs⟩ := path_steps_mem block c.target_path frag hfr
        rw [← h, ← hqs]
        exact hbase c.target_graph_id block id_trans hblk hid q0 hq0

/-- C19: paths are embedded. The block subgraphs are graphs as `build_odgi`
makes them: every edge joins two forward handles (`build_odgi_forward_edges`)
of nodes of the block. Let
every path of every block subgraph have its consecutive steps joined by an
edge of its block (the edge from `s` to `t`, which the graph library also
finds when it holds the edge as the one from `flip t` to `flip s`, as it does
for the steps of a sequence that was flagged reverse). Then, whenever Pass B
and the consensus loop complete, every two consecutive steps of every path of
the assembled graph, base paths and consensus paths, are joined by an edge of
the assembled graph. -/
theorem paths_embedded (graph : XG) (block_graphs : List graph_t)
    (pm cm : List path_position_range_t) (sm1 sm2 : graph_t)
    (hfwd : ∀ block ∈ block_graphs, forward_edges block)
    (hends : ∀ block ∈ block_graphs, edge_ends_exist block)
    (hblock : ∀ block ∈ block_graphs, ∀ q ∈ block.paths, embedded block q.steps)
    (hB : pass_B graph block_graphs (pass_A block_graphs).2 pm (pass_A block_graphs).1
      = some sm1)
    (hC : embed_consensus block_graphs (pass_A block_graphs).2 cm sm1 = some sm2) :
    (∀ q ∈ sm1.paths, embedded sm1 q.steps)
    ∧ (∀ q ∈ sm2.paths, embedded sm2 q.steps) := by
  have hbaseA : block_paths_embedded block_graphs (pass_A block_graphs).2
      (pass_A block_graphs).1 := by
    intro b block o hblk ho q hq
    have hm := List.getElem?_mem hblk
    exact pass_A_embedded block_graphs b block o hblk ho (hfwd block hm) (hends block hm) _
      (hblock block hm q hq)
  obtain ⟨h1, hed1⟩ : (∀ q ∈ sm1.paths, embedded sm1 q.steps)
      ∧ (∀ e ∈ (pass_A block_graphs).1.edges, e ∈ sm1.edges) := by
    cases pm with
    | nil =>
      have : sm1 = (pass_A block_graphs).1 := (Option.some.inj hB).symm
      rw [this, pass_A_paths]
      exact ⟨fun q hq => (by cases hq), fun e he => he⟩
    | cons r rest =>
      have hpn : (start_path graph r (pass_A block_graphs).1).smoothed.paths
          = [] ++ [{ name := graph.get_path_name r.base_path, steps := [] }] := by
        simp [start_path, graph_t.create_path_handle, pass_A_paths]
      have hhn : (start_path graph r (pass_A block_graphs).1).smoothed_path
          = ([] : List path_t).length + 1 := by
        simp [start_path, graph_t.create_path_handle, pass_A_paths]
      exact embed_paths_link graph block_graphs (pass_A block_graphs).2 rest r none
        (pass_A block_graphs).1 (start_path graph r (pass_A block_graphs).1) sm1 [] _ []
        rfl hpn hhn (fun h => absurd rfl h) List.chain'_nil (fun q hq => by cases hq)
        (block_paths_embedded_mono _ _ _ _ (fun e he => he) hbaseA) hB
  refine ⟨h1, ?_⟩
  rw [embed_consensus_eq] at hC
  cases hqs : consensus_paths block_graphs (pass_A block_graphs).2 cm with
  | none => simp [hqs] at hC
  | some qs =>
    simp only [hqs, Option.some.injEq] at hC
    have hbase1 := block_paths_embedded_mono _ _ _ sm1 hed1 hbaseA
    intro q hq
    rw [← hC] at hq ⊢
    have hsame : ∀ l, embedded sm1 l →
        embedded { sm1 with paths := sm1.paths ++ qs } l :=
      fun l hl => embedded_mono sm1 _ (fun e he => he) l hl
    rcases List.mem_append.mp hq with hq1 | hq1
    · exact hsame _ (h1 q hq1)
    · obtain ⟨c, _, hc⟩ := consensus_paths_mem _ _ cm qs hqs q hq1
      exact hsame _ (consensus_path_of_embedded _ _ sm1 hbase1 c q hc)

/-- The statement of `paths_embedded` on the seed example with consensus
paths: the path `p` over the nodes 1, 2, 4, 3 and the two consensus paths are
embedded in the assembled graph. -/
theorem paths_embedded_witness :
    (∀ q ∈ seed_assembled.paths, embedded seed_assembled q.steps)
    ∧ (∀ q ∈ consensus_assembled.paths, embedded consensus_assembled q.steps) :=
  paths_embedded seed_graph [consensus_block0, consensus_block1] [seed_record0, seed_record1]
    [consensus_example_record, consensus_example_record1] seed_assembled consensus_assembled
    (by decide) (by decide)
    (by simp [embedded, joined, consensus_block0, consensus_block1, seed_block0, seed_block1])
    (by decide) (by decide)

end smoothxg

namespace smoothxg

/-! ## What the lacing phase receives from the workers -/

/-- The record the driver builds for a range of a base path (lines 372-386) is
coherent with the base graph: its steps are steps of the base path and its two
positions are the offsets of its two steps. -/
theorem range_record_coherent (graph : XG) (block_id k : Nat) (pr : path_range_t)
    (hpath : pr.begin.path = pr.end_.path) (h1 : 1 ≤ pr.end_.rank)
    (hend : pr.end_.rank ≤ graph.get_step_count pr.begin.path) (h64 : pr.end_.rank < 2 ^ 64)
    (hlen : graph.get_path_length pr.begin.path < 2 ^ 64) :
    coherent graph (range_record graph block_id k pr) := by
  have hprev : graph.get_previous_step pr.end_
      = { path := pr.begin.path, rank := pr.end_.rank - 1 } := by
    have := get_previous_step_pos graph pr.end_.path pr.end_.rank (by omega) h64
    rw [hpath]
    exact this
  have hl : pr.end_.rank - 1 < (graph.path_steps pr.begin.path).length := by
    simp only [XG.get_step_count] at hend
    omega
  have hs : (graph.path_steps pr.begin.path)[pr.end_.rank - 1]?
      = some ((graph.path_steps pr.begin.path)[pr.end_.rank - 1]) :=
    List.getElem?_eq_getElem hl
  have hsucc := position_succ graph pr.begin.path (pr.end_.rank - 1) _ hs
  have hb1 : pr.end_.rank - 1 + 1 = pr.end_.rank := by omega
  rw [hb1] at hsucc
  have hsl : graph.step_length { path := pr.begin.path, rank := pr.end_.rank - 1 }
      = ((graph.path_steps pr.begin.path)[pr.end_.rank - 1]).length := by
    simp only [XG.step_length, XG.step_sequence, hs]
  have hstep : ({ path := pr.begin.path, rank := pr.end_.rank } : step_handle_t) = pr.end_ := by
    rw [hpath]
  have hendpos : (range_record graph block_id k pr).end_pos
      = graph.get_position_of_step pr.end_ := by
    simp only [range_record, hprev, hsl]
    rw [hsucc, hstep]
  have hle : graph.get_position_of_step pr.end_ ≤ graph.get_path_length pr.begin.path := by
    rw [← hstep]
    simp only [XG.get_position_of_step, XG.get_path_length, XG.path_sequence]
    rw [← flatten_take_count (graph.path_steps pr.begin.path)]
    exact position_mono _ _ _ hend
  refine ⟨rfl, hpath.symm, hend, rfl, hendpos, ?_⟩
  rw [hendpos]
  omega

theorem sequence_walk_ne_nil (graph : poa_graph) (label : Nat) :
    ∀ (fuel node_id : Nat) (ids : List Nat),
      sequence_walk graph label fuel node_id = some ids → ids ≠ [] := by
  intro fuel
  cases fuel with
  | zero =>
    intro node_id ids h
    simp [sequence_walk] at h
  | succ fuel =>
    intro node_id ids h
    unfold sequence_walk at h
    cases hn : graph.nodes[node_id]? with
    | none => simp [hn] at h
    | some n =>
      simp only [hn] at h
      cases hsucc : n.successor label with
      | none =>
        simp only [hsucc, Option.some.injEq] at h
        rw [← h]
        exact List.cons_ne_nil _ _
      | some next =>
        simp only [hsucc] at h
        cases hr : sequence_walk graph label fuel next with
        | none => simp [hr] at h
        | some rest =>
          simp only [hr, Option.some.injEq] at h
          rw [← h]
          exact List.cons_ne_nil _ _

/-- The path `build_odgi` makes for a sequence has a step: the walk pushes the
begin node before it asks for a successor. -/
theorem sequence_steps_ne_nil (graph : poa_graph) (aln_is_reverse : List Bool) (i : Nat)
    (steps : List handle_t) (h : sequence_steps graph aln_is_reverse i = some steps) :
    steps ≠ [] := by
  unfold sequence_steps at h
  cases hb : graph.sequences_begin_nodes_ids[i]? with
  | none => simp [hb] at h
  | some node_id =>
    simp only [hb] at h
    cases hw : sequence_walk graph i graph.nodes.length node_id with
    | none => simp [hw] at h
    | some ids =>
      have hne := sequence_walk_ne_nil graph i _ _ ids hw
      simp only [hw] at h
      cases hf : aln_is_reverse[i]? with
      | none => simp [hf] at h
      | some f =>
        cases f with
        | true =>
          simp only [hf, Option.some.injEq] at h
          rw [← h]
          simpa using hne
        | false =>
          simp only [hf, Option.some.injEq] at h
          rw [← h]
          simpa using hne

/-- Every sequence path of a graph built by `build_odgi` has a step. -/
theorem build_odgi_path_nonempty (graph : poa_graph) (sequence_names : List String)
    (aln_is_reverse : List Bool) (consensus_name : String) (include_consensus : Bool)
    (out : graph_t)
    (h : build_odgi graph graph_t.empty sequence_names aln_is_reverse consensus_name
      include_consensus = some out) (k : Nat) (hk : k < sequence_names.length) :
    ∃ q, out.paths[k]? = some q ∧ q.steps ≠ [] := by
  obtain ⟨ps, hps, _, _, hpaths⟩ := build_odgi_some _ _ _ _ _ _ _ h
  have hj : sequence_names.enum[k]? = some (k, sequence_names[k]) := by
    rw [List.enum_eq_enumFrom, List.getElem?_enumFrom]
    simp [List.getElem?_eq_getElem hk]
  obtain ⟨steps, hs, hq⟩ := sequence_paths_getElem? graph aln_is_reverse _ ps hps k k _ hj
  refine ⟨{ name := sequence_names[k], steps := steps }, ?_,
    sequence_steps_ne_nil graph aln_is_reverse k steps hs⟩
  rw [hpaths]
  have hlt : k < ps.length := by
    by_contra hc
    rw [List.getElem?_eq_none (by omega)] at hq
    cases hq
  simp only [graph_t.empty, List.nil_append]
  rw [List.getElem?_append_left hlt]
  exact hq

/-- Every edge of a graph built by `build_odgi` joins two forward handles
(line 697). -/
theorem build_odgi_forward_edges (graph : poa_graph) (sequence_names : List String)
    (aln_is_reverse : List Bool) (consensus_name : String) (include_consensus : Bool)
    (out : graph_t)
    (h : build_odgi graph graph_t.empty sequence_names aln_is_reverse consensus_name
      include_consensus = some out) :
    forward_edges out := by
  obtain ⟨ps, _, _, hedges, _⟩ := build_odgi_some _ _ _ _ _ _ _ h
  intro e he
  rw [hedges, build_edges_mem] at he
  rcases he with he | ⟨i, n, x, _, _, he⟩
  · rw [build_nodes_eq] at he
    simp [graph_t.empty] at he
  · rw [he]
    exact ⟨rfl, rfl⟩

end smoothxg
